import Mathlib

/-!
# The incremental tree builder of the shok evaluator

A shallow embedding of `src/eval/Node.cpp`: the AST is a heap of node
records addressed by natural numbers (the C++ `Node*`), with explicit parent
links and child sequences, so that the pointer surgery of `Node::insertNode`
and `Node::recoverFromError` can be followed statement by statement.

The tokenizer of `src/eval/Token.cpp` is embedded as the body of its loop, one
function per arm of the `switch (mode)`, acting on the record of its local
variables.
-/

namespace Shok

/-- The concrete node variants constructed by `Node::MakeNode`, plus the root. -/
inductive Kind where
  | Command
  | Brace
  | Block
  | CommandFragment
  | Variable
  | Property
  | Operator
  | Expression
  | New
  | NewInit
  | TypeSpec
  | IsVar
  | RootNode
  deriving DecidableEq, Repr

/-- Modelled from the spec: `Brace.h`, `Command.h` and `Block.h` are not under
src/. The outcome of `dynamic_cast<Brace*>`: a Brace is "any of the three
bracket families", so the Command (`[`) and the Block (`\x7b`) are Braces too. -/
def Kind.isBrace : Kind → Bool
  | .Command => true
  | .Brace => true
  | .Block => true
  | _ => false

/-- The outcome of `dynamic_cast<Block*>`. -/
def Kind.isBlock : Kind → Bool
  | .Block => true
  | _ => false

/-- The outcome of `dynamic_cast<RootNode*>`. -/
def Kind.isRootNode : Kind → Bool
  | .RootNode => true
  | _ => false

/-- The fields of `Node` (constructor `Node::Node`), together with the two
attributes of a Brace. Pointers are `Option Nat`, `none` being `NULL`.

Modelled from the spec: `Brace.h` is not under src/; `isOpen` and
`isIrrelevant` are the Brace attributes of that name, fixed at construction
(`isIrrelevant` is "true only for plain grouping parentheses"). They are
meaningful only when `kind.isBrace`. -/
structure Node where
  name : String
  value : String
  kind : Kind
  isOpen : Bool
  isIrrelevant : Bool
  root : Option Nat
  isInit : Bool
  isSetup : Bool
  isAnalyzed : Bool
  isEvaluated : Bool
  parent : Option Nat
  parentScope : Option Nat
  children : List Nat
  deriving DecidableEq, Repr

/-- The four virtual phase hooks of a node variant. -/
inductive Hook where
  | init
  | setup
  | analyze
  | evaluate
  deriving DecidableEq, Repr

/-- The heap of nodes and the record of hook invocations, in call order. -/
structure State where
  nodes : Nat → Option Node
  trace : List (Hook × Nat)

/-- Overwrite the record at address `x`. -/
def State.set (s : State) (x : Nat) (nd : Node) : State :=
  { s with nodes := fun y => if y = x then some nd else s.nodes y }

/-- Update the record at address `x` in place (no effect on a dead address). -/
def State.upd (s : State) (x : Nat) (f : Node → Node) : State :=
  { s with nodes := fun y => if y = x then (s.nodes x).map f else s.nodes y }

/-- Free the record at address `x`. -/
def State.erase (s : State) (x : Nat) : State :=
  { s with nodes := fun y => if y = x then none else s.nodes y }

/-- Record that hook `h` was invoked on node `x`. -/
def State.log (s : State) (h : Hook) (x : Nat) : State :=
  { s with trace := s.trace ++ [(h, x)] }

/-- Modelled from the spec: `Node.h` and the node variants are not under src/.
The virtual members a variant supplies. The phase hooks `setup`, `analyze` (of
a `Statement`) and `evaluate` may read the whole state and either return
normally (`none`) or throw an `EvalError` with the given message, as the spec
describes for setup, analysis and evaluation; the `init` hook, for which the
spec describes no failure, returns normally and is only recorded in the trace.
Further: `getScope`; which kinds are `Statement`s; and the Brace compatibility
predicate `matchesCloseBrace`. Hooks act on variant-private data only: they do
not rewrite the `Node` fields modelled here. -/
structure Ext where
  setup : State → Nat → Option String
  analyze : State → Nat → Option String
  evaluate : State → Nat → Option String
  getScope : Node → Option Nat
  isStatement : Kind → Bool
  matchesCloseBrace : Node → Node → Bool

/-- Modelled from the spec: `EvalError.h` is not under src/. The two
exceptions: `EvalError` with its message, and `RecoveredError`, the "recovered
condition carrying the original error" and the resumption point, which is not
caught by a `catch (EvalError&)`. -/
inductive Thrown where
  | evalError (what : String)
  | recoveredError (what : String) (recoveredPosition : Nat)
  deriving DecidableEq, Repr

/-- How a call ends: normal return, an exception (both with the state they
leave behind), a dereference of a pointer to no live node, or exhaustion of the
recursion budget. -/
inductive Outcome (α : Type) where
  | ok (val : α) (s : State)
  | thrown (t : Thrown) (s : State)
  | undefined
  | outOfFuel

/-- Sequencing: continue after a normal return, propagate anything else. -/
def Outcome.bind {α β : Type} (o : Outcome α) (f : α → State → Outcome β) : Outcome β :=
  match o with
  | .ok a s => f a s
  | .thrown t s => .thrown t s
  | .undefined => .undefined
  | .outOfFuel => .outOfFuel

/-- A loop `for (child_iter i = ...begin(); i != ...end(); ++i) body(*i)` over
a child sequence: run `body` on each element in order, stopping at the first
one that does not return normally. -/
def forEach (body : State → Nat → Outcome Unit) : State → List Nat → Outcome Unit
  | s, [] => .ok () s
  | s, c :: cs => (body s c).bind fun _ s1 => forEach body s1 cs

/-- `Node::print`, rendering at most `fuel` levels of nesting. -/
def print : Nat → State → Nat → String
  | 0, _, _ => ""
  | fuel + 1, s, x =>
    match s.nodes x with
    | none => ""
    | some nd =>
      let r := if nd.value.length > 0 then nd.name ++ ":" ++ nd.value else nd.name
      if nd.children.length > 0 then
        r ++ "(" ++ " ".intercalate (nd.children.map (print fuel s)) ++ ")"
      else r

/-- `Node::addChild`: `children.push_back(child)`. -/
def addChild (s : State) (x child : Nat) : State :=
  s.upd x fun m => { m with children := m.children ++ [child] }

/-- `Node::initNode`. -/
def initNode (ext : Ext) (s : State) (x : Nat) : Outcome Unit :=
  match s.nodes x with
  | none => .undefined
  | some nd =>
    match nd.parent with
    | none => .thrown (.evalError "Cannot init the root node") s
    | some p =>
      match s.nodes p with
      | none => .undefined
      | some pn =>
        let scope := match ext.getScope pn with
          | some g => some g
          | none => pn.parentScope
        let s1 := s.upd x fun m => { m with parentScope := scope }
        .ok () ((s1.log .init x).upd x fun m => { m with isInit := true })

/-- `Node::analyzeNode`. -/
def analyzeNode (fuel : Nat) (ext : Ext) (s : State) (x : Nat) : Outcome Unit :=
  match s.nodes x with
  | none => .undefined
  | some nd =>
    if nd.isAnalyzed then .ok () s
    else if !nd.isInit || !nd.isSetup then
      .thrown (.evalError ("Node " ++ print fuel s x ++
        " cannot do static analysis until init and setup")) s
    else if ext.isStatement nd.kind then
      match ext.analyze s x with
      | some msg => .thrown (.evalError msg) (s.log .analyze x)
      | none => .ok () (s.log .analyze x)
    else .ok () s

/-- `Node::setupNode`. -/
def setupNode (fuel : Nat) (ext : Ext) (s : State) (x : Nat) : Outcome Unit :=
  match s.nodes x with
  | none => .undefined
  | some nd =>
    if nd.isSetup then .ok () s
    else if !nd.isInit then
      .thrown (.evalError ("Cannot setup Node " ++ print fuel s x ++ " until it's init")) s
    else if nd.parent = none then
      .thrown (.evalError ("Cannot setup Node " ++ print fuel s x ++ " with no parent")) s
    else
      match ext.setup s x with
      | some msg => .thrown (.evalError msg) (s.log .setup x)
      | none =>
        (analyzeNode fuel ext ((s.log .setup x).upd x fun m => { m with isSetup := true }) x).bind
          fun _ s2 => .ok () (s2.upd x fun m => { m with isAnalyzed := true })

/-- `Node::setupAsParent`: `setupNode` on each child in order, then on the
node itself. -/
def setupAsParent (fuel : Nat) (ext : Ext) (s : State) (x : Nat) : Outcome Unit :=
  match s.nodes x with
  | none => .undefined
  | some nd =>
    (forEach (setupNode fuel ext) s nd.children).bind fun _ s1 => setupNode fuel ext s1 x

/-- `Node::evaluateNode`; `fuel` bounds the depth of the descent. -/
def evaluateNode : Nat → Ext → State → Nat → Outcome Unit
  | 0, _, _, _ => .outOfFuel
  | fuel + 1, ext, s, x =>
    match s.nodes x with
    | none => .undefined
    | some nd =>
      if nd.isEvaluated then
        .thrown (.evalError ("Node " ++ print fuel s x ++ " has already been evaluated")) s
      else if !nd.isInit || !nd.isSetup || !nd.isAnalyzed then
        if nd.root = nd.parent ∧ nd.root ≠ none then .ok () s
        else .thrown (.evalError ("Node " ++ print fuel s x ++
          " cannot be evaluated until init, setup, and analyzed")) s
      else
        (forEach (evaluateNode fuel ext) s nd.children).bind fun _ s1 =>
            match ext.evaluate s1 x with
            | some msg => .thrown (.evalError msg) (s1.log .evaluate x)
            | none => .ok () ((s1.log .evaluate x).upd x fun m => { m with isEvaluated := true })

/-- The destructor `Node::~Node` run by `delete`: the children are deleted
first, then the node itself is freed. -/
def destroy : Nat → State → Nat → Outcome Unit
  | 0, _, _ => .outOfFuel
  | fuel + 1, s, x =>
    match s.nodes x with
    | none => .undefined
    | some nd =>
      (forEach (destroy fuel) s nd.children).bind fun _ s1 => .ok () (s1.erase x)

/-- The first loop of `Node::removeChildrenStartingAt`: from the first element
equal to `child` on, every element is deleted; the count of deleted elements
is returned. -/
def removeLoop (fuel : Nat) : State → List Nat → Option Nat → Nat → Outcome Nat
  | s, [], _, foundChildren => .ok foundChildren s
  | s, i :: rest, child, foundChildren =>
    if child = some i ∨ foundChildren > 0 then
      (destroy fuel s i).bind fun _ s1 => removeLoop fuel s1 rest none (foundChildren + 1)
    else removeLoop fuel s rest child foundChildren

/-- The second loop of `Node::removeChildrenStartingAt`: `pop_back`, `k` times. -/
def popBack : Nat → List Nat → List Nat
  | 0, l => l
  | k + 1, l => popBack k l.dropLast

/-- `Node::removeChildrenStartingAt`, called on node `x`. -/
def removeChildrenStartingAt (fuel : Nat) (s : State) (x child : Nat) : Outcome Unit :=
  match s.nodes x with
  | none => .undefined
  | some nd =>
    (removeLoop fuel s nd.children (some child) 0).bind fun foundChildren s1 =>
      .ok () (s1.upd x fun m => { m with children := popBack foundChildren m.children })

/-- `Node::recoverFromError`; `e` is the message of the error being recovered
from, and one unit of `fuel` is spent per iteration of the walk up the parent
links. The statements after the loop are folded into the two ways the loop
condition `current && current->parent` can fail. -/
def recoverFromError : Nat → State → String → Option Nat → Outcome Unit
  | 0, _, _, _ => .outOfFuel
  | _ + 1, s, e, none =>
    .thrown (.evalError ("Cannot recover from error '" ++ e ++ "': unknown error")) s
  | fuel + 1, s, e, some current =>
    match s.nodes current with
    | none => .undefined
    | some c =>
      match c.parent with
      | none =>
        if !c.kind.isRootNode then
          .thrown (.evalError ("Cannot recover from error '" ++ e ++ "': unknown error")) s
        else .thrown (.recoveredError e current) s
      | some p =>
        match s.nodes p with
        | none => .undefined
        | some pn =>
          if !pn.kind.isBlock then recoverFromError fuel s e (some p)
          else
            match removeChildrenStartingAt fuel s p current with
            | .ok _ s1 => .thrown (.recoveredError e p) s1
            | .thrown (.evalError x) s1 =>
              .thrown (.evalError ("Cannot recover from error '" ++ e ++ "': " ++ x)) s1
            | .thrown t s1 => .thrown t s1
            | .undefined => .undefined
            | .outOfFuel => .outOfFuel

/-- The loop `(*i)->parent = op` over the children of the promoted node. -/
def reparent (op : Nat) : State → List Nat → Outcome Unit :=
  forEach fun s i =>
    match s.nodes i with
    | none => .undefined
    | some _ => .ok () (s.upd i fun m => { m with parent := some op })

/-- The loop replacing the first occurrence of `old` in a child sequence. -/
def replaceFirst (old new : Nat) : List Nat → List Nat
  | [] => []
  | i :: rest => if i = old then new :: rest else i :: replaceFirst old new rest

/-- The `try`/`catch` around `setupAsParent` in `Node::insertNode`, followed by
`delete n; return parent`. -/
def finishClose (fuel : Nat) (ext : Ext) (s : State) (top n parent : Nat) : Outcome Nat :=
  match setupAsParent fuel ext s top with
  | .ok _ s1 => (destroy fuel s1 n).bind fun _ s2 => .ok parent s2
  | .thrown (.evalError e) s1 =>
    (recoverFromError fuel s1 e (some top)).bind fun _ s2 =>
      .thrown (.evalError ("Failed to recover from error: " ++ e)) s2
  | .thrown t s1 => .thrown t s1
  | .undefined => .undefined
  | .outOfFuel => .outOfFuel

/-- The branch `if (open->isIrrelevant())` of `Node::insertNode`, up to and
including `delete open`: the first child `op` of the open paren `current` takes
its place under the parent of `current`. Returns `op`. -/
def promote (fuel : Nat) (s : State) (current : Nat) : Outcome Nat :=
  match s.nodes current with
  | none => .undefined
  | some c =>
    match c.children with
    | [] => .thrown (.evalError "Empty parens in the AST are not allowed") s
    | op :: rest =>
      let s1 := s.upd current fun m => { m with children := rest }
      match s1.nodes op with
      | none => .undefined
      | some _ =>
        let s2 := s1.upd op fun m => { m with parent := c.parent }
        match s2.nodes op with
        | none => .undefined
        | some o =>
          if o.children.length ≠ 0 then
            .thrown (.evalError ("Cannot escalate child " ++ o.name ++ " that has " ++
              toString o.children.length ++ " > 0 children")) s2
          else
            match s2.nodes current with
            | none => .undefined
            | some c2 =>
              let s3 := s2.upd op fun m => { m with children := c2.children }
              let s4 := s3.upd current fun m => { m with children := [] }
              match s4.nodes op with
              | none => .undefined
              | some o4 =>
                (reparent op s4 o4.children).bind fun _ s5 =>
                  match (s5.nodes op).bind (·.parent) with
                  | none => .undefined
                  | some p =>
                    match s5.nodes p with
                    | none => .undefined
                    | some _ =>
                      let s6 := s5.upd p fun m =>
                        { m with children := replaceFirst current op m.children }
                      (destroy fuel s6 current).bind fun _ s7 => .ok op s7

/-- `Node::insertNode`. -/
def insertNode (fuel : Nat) (ext : Ext) (s : State) (current n : Option Nat) : Outcome Nat :=
  match current, n with
  | some current, some n =>
    match s.nodes current, s.nodes n with
    | some c, some nd =>
      if !nd.kind.isBrace then
        -- neither an open nor a closing brace: add as a child of current
        (initNode ext (addChild (s.upd n fun m => { m with parent := some current }) current n) n).bind
          fun _ s1 => .ok current s1
      else if nd.isOpen then
        -- open brace: descend
        (initNode ext (addChild (s.upd n fun m => { m with parent := some current }) current n) n).bind
          fun _ s1 => .ok n s1
      else
        -- closing brace
        match c.parent with
        | none => .thrown (.evalError ("Cannot move above root node " ++ c.name)) s
        | some parent =>
          if !c.kind.isBrace then
            .thrown (.evalError ("Found closing brace " ++ nd.name ++ " but its parent " ++
              c.name ++ " is not an open brace")) s
          else if !ext.matchesCloseBrace c nd then
            .thrown (.evalError ("Incorrect brace/paren match: '" ++ c.name ++
              "' against '" ++ nd.name ++ "'")) s
          else if c.isIrrelevant then
            (promote fuel s current).bind fun op s1 => finishClose fuel ext s1 op n parent
          else finishClose fuel ext s current n parent
    | _, _ => .undefined
  | _, _ => .thrown (.evalError "NULL nodes provided to Node::insertNode()") s

/-- `Node::Node`: the record of a freshly constructed node. -/
def newNode (root : Option Nat) (name value : String) (kind : Kind)
    (isOpen isIrrelevant : Bool) : Node :=
  { name := name, value := value, kind := kind, isOpen := isOpen, isIrrelevant := isIrrelevant,
    root := root, isInit := false, isSetup := false, isAnalyzed := false, isEvaluated := false,
    parent := none, parentScope := none, children := [] }

/-- A lone root node at address `r`. -/
def loneRoot (r : Nat) (name : String) : State :=
  { nodes := fun x => if x = r then some (newNode none name "" .RootNode false false) else none,
    trace := [] }

/-- A sample instance of the variant-supplied members: every hook returns
normally, no node introduces a scope, no kind is a `Statement`, and brackets
match by family. -/
def stdExt : Ext :=
  { setup := fun _ _ => none
    analyze := fun _ _ => none
    evaluate := fun _ _ => none
    getScope := fun _ => none
    isStatement := fun _ => false
    matchesCloseBrace := fun o c =>
      (o.name == "[" && c.name == "]") || (o.name == "(" && c.name == ")") ||
        (o.name == "\x7b" && c.name == "\x7d") }

/-- A fresh, not yet initialized node at address 1 whose parent is the root at
address 0; sample input. -/
def freshLeaf : State :=
  (loneRoot 0 "root").set 1
    { newNode (some 0) "ID" "a" .Variable false false with parent := some 0 }

/-- The relation "no node is allocated or freed". -/
def SameLive (s s1 : State) : Prop :=
  ∀ y, (s1.nodes y).isSome = (s.nodes y).isSome

/-- A node under the root carrying all three markers, used as sample input. -/
def readyLeaf : State :=
  (loneRoot 0 "root").set 1 { newNode (some 0) "ID" "a" .Variable false false with
    parent := some 0, isInit := true, isSetup := true, isAnalyzed := true }

/-- `Desc s x y`: node `y` is `x` itself or is reached from `x` by descending
through child sequences. -/
inductive Desc (s : State) (x : Nat) : Nat → Prop
  | self : Desc s x x
  | child (p c : Nat) (pn : Node) :
    Desc s x p → s.nodes p = some pn → c ∈ pn.children → Desc s x c

/-- The subtree hanging from `x` is a finite tree: every node in it is live,
lists each child once, each child points back to it, and `ht` bounds the
remaining height. -/
def LocalTree (s : State) (ht : Nat → Nat) (x : Nat) : Prop :=
  ∀ p, Desc s x p → ∃ pn, s.nodes p = some pn ∧ pn.children.Nodup ∧
    ∀ c ∈ pn.children, ht c < ht p ∧ ∃ cn, s.nodes c = some cn ∧ cn.parent = some p

/-- A heap that is a finite tree (or forest): parent links and child sequences
agree, no child is listed twice, and both the ascent along parent links
(`depth`) and the descent along child sequences (`height`) are bounded. -/
structure IsTree (s : State) : Prop where
  up : ∀ x nd p, s.nodes x = some nd → nd.parent = some p →
    ∃ pn, s.nodes p = some pn ∧ x ∈ pn.children
  down : ∀ p pn c, s.nodes p = some pn → c ∈ pn.children →
    ∃ cn, s.nodes c = some cn ∧ cn.parent = some p
  nodup : ∀ p pn, s.nodes p = some pn → pn.children.Nodup
  depth : ∃ d : Nat → Nat, ∀ x nd p, s.nodes x = some nd → nd.parent = some p → d p < d x
  height : ∃ ht : Nat → Nat, ∀ p pn c, s.nodes p = some pn → c ∈ pn.children → ht c < ht p

/-- `Climb s y c`: walking up from `y` along parent links, through parents that
are not Blocks, reaches `c`. -/
inductive Climb (s : State) : Nat → Nat → Prop
  | here (y : Nat) : Climb s y y
  | step (y p c : Nat) (nd pn : Node) :
    s.nodes y = some nd → nd.parent = some p → s.nodes p = some pn →
    pn.kind.isBlock = false → Climb s p c → Climb s y c

/-- Sample input for recovery: root 0 holding Block 1, whose statements are the
leaf 2 and the operator 3 with operand 4. -/
def blockTree : State :=
  { nodes := fun x =>
      match x with
      | 0 => some { newNode none "root" "" .RootNode false false with children := [1] }
      | 1 => some { newNode (some 0) "\x7b" "" .Block true false with
          parent := some 0, children := [2, 3] }
      | 2 => some { newNode (some 0) "ID" "a" .Variable false false with parent := some 1 }
      | 3 => some { newNode (some 0) "PLUS" "" .Operator false false with
          parent := some 1, children := [4] }
      | 4 => some { newNode (some 0) "ID" "b" .Variable false false with parent := some 3 }
      | _ => none
    trace := [] }

/-- Sample input for recovery: root 0 holding Command 1 with the fragment 2. -/
def commandTree : State :=
  { nodes := fun x =>
      match x with
      | 0 => some { newNode none "root" "" .RootNode false false with children := [1] }
      | 1 => some { newNode (some 0) "[" "" .Command true false with
          parent := some 0, children := [2] }
      | 2 => some { newNode (some 0) "cmd" "ls" .CommandFragment false false with
          parent := some 1 }
      | _ => none
    trace := [] }

/-- The net effect of a normally returning `setupNode` on the node's record:
both markers are set, unless the node was set up already. -/
def markSetup (nd : Node) : Node :=
  if nd.isSetup then nd else { nd with isSetup := true, isAnalyzed := true }

/-- `OnPath s x y`: node `x` is `y` or an ancestor of `y` along parent links. -/
inductive OnPath (s : State) (x : Nat) : Nat → Prop
  | here : OnPath s x x
  | up (y p : Nat) (nd : Node) :
    s.nodes y = some nd → nd.parent = some p → OnPath s x p → OnPath s x y

/-- Well-formedness of the tree under construction, with root `r` and focus
`cur`. Every live node belongs to the tree: only the root lacks a parent,
parent links and child sequences agree, no child is listed twice and the parent
links are acyclic. The focus is live; no closing Brace is live; every node but
the root is initialized; a set-up node is analyzed; and every irrelevant Brace
is the focus or one of its ancestors. -/
structure WF (s : State) (r cur : Nat) : Prop where
  root : ∃ rn, s.nodes r = some rn ∧ rn.parent = none ∧ rn.kind.isBrace = false
  orphan : ∀ x nd, s.nodes x = some nd → nd.parent = none → x = r
  up : ∀ x nd p, s.nodes x = some nd → nd.parent = some p →
    ∃ pn, s.nodes p = some pn ∧ x ∈ pn.children
  down : ∀ p pn c, s.nodes p = some pn → c ∈ pn.children →
    ∃ cn, s.nodes c = some cn ∧ cn.parent = some p
  nodup : ∀ p pn, s.nodes p = some pn → pn.children.Nodup
  depth : ∃ d : Nat → Nat, ∀ x nd p, s.nodes x = some nd → nd.parent = some p → d p < d x
  focus : ∃ c, s.nodes cur = some c
  closers : ∀ x nd, s.nodes x = some nd → nd.kind.isBrace = true → nd.isOpen = true
  inited : ∀ x nd, s.nodes x = some nd → x ≠ r → nd.isInit = true
  analyzed : ∀ x nd, s.nodes x = some nd → nd.isSetup = true → nd.isAnalyzed = true
  parens : ∀ x nd, s.nodes x = some nd → nd.kind.isBrace = true → nd.isIrrelevant = true →
    OnPath s x cur

/-- The states the builder can reach: starting from a lone root `r` with the
focus on it, each step allocates a freshly constructed node at an unused
address `n` and calls `insertNode` on the current focus, the call returning
normally with the next focus. The list records the inserted nodes, latest
first. -/
inductive Built (ext : Ext) (r : Nat) (rootName : String) :
    List (Nat × Node) → State → Nat → Prop
  | start : Built ext r rootName [] (loneRoot r rootName) r
  | insert (hist : List (Nat × Node)) (s : State) (cur fuel n : Nat) (nroot : Option Nat)
      (name value : String) (kind : Kind) (isOpen isIrrelevant : Bool) (s1 : State)
      (cur1 : Nat) :
    Built ext r rootName hist s cur → s.nodes n = none →
    insertNode fuel ext (s.set n (newNode nroot name value kind isOpen isIrrelevant))
      (some cur) (some n) = .ok cur1 s1 →
    Built ext r rootName ((n, newNode nroot name value kind isOpen isIrrelevant) :: hist) s1 cur1

/-- The pointwise description of the state after attaching the new node `n`,
with final record `nd1`, under `cur`. -/
def Attached (s s1 : State) (cur n : Nat) (nd1 : Node) : Prop :=
  ∀ y, s1.nodes y =
    if y = n then some nd1
    else if y = cur then (s.nodes cur).map fun m => { m with children := m.children ++ [n] }
    else s.nodes y

/-- The pointwise description of the state after closing the structural
bracket `cur` whose children are `kids`. -/
def Closed (s s1 : State) (cur : Nat) (kids : List Nat) : Prop :=
  ∀ y, s1.nodes y = if y = cur ∨ y ∈ kids then (s.nodes y).map markSetup else s.nodes y

/-- The pointwise description of the state after eliding the paren `cur`, child
of `par`, in favour of its first child `op`, `rest` being its other children. -/
def Elided (s s1 : State) (cur par op : Nat) (rest : List Nat) : Prop :=
  ∀ y, s1.nodes y =
    if y = cur then none
    else if y = par then
      (s.nodes par).map fun m => { m with children := replaceFirst cur op m.children }
    else if y = op then
      (s.nodes op).map fun m => markSetup { m with parent := some par, children := rest }
    else if y ∈ rest then (s.nodes y).map fun m => markSetup { m with parent := some op }
    else s.nodes y

/-- The precondition under which `setupNode` does not throw of its own accord:
the node is set up already, or is initialized and has a parent. -/
def nd_ready (nd : Node) : Prop :=
  nd.isSetup = true ∨ (nd.isInit = true ∧ nd.parent ≠ none)

/-- The attributes of a node that are fixed at construction agree. -/
def SameTag (a b : Node) : Prop :=
  b.name = a.name ∧ b.value = a.value ∧ b.kind = a.kind ∧ b.isOpen = a.isOpen ∧
    b.isIrrelevant = a.isIrrelevant

/-- The state an outcome leaves behind. -/
def stateOf (o : Outcome Nat) : State :=
  match o with
  | .ok _ s => s
  | .thrown _ s => s
  | _ => { nodes := fun _ => none, trace := [] }

/-- Sample token stream `\x7b ( PLUS a b ) \x7d`, as freshly constructed nodes
numbered from 1. -/
def sampleNode (i : Nat) : Node :=
  match i with
  | 1 => newNode (some 0) "\x7b" "" .Block true false
  | 2 => newNode (some 0) "(" "" .Brace true true
  | 3 => newNode (some 0) "PLUS" "" .Operator false false
  | 4 => newNode (some 0) "ID" "a" .Variable false false
  | 5 => newNode (some 0) "ID" "b" .Variable false false
  | 6 => newNode (some 0) ")" "" .Brace false false
  | _ => newNode (some 0) "\x7d" "" .Brace false false

/-- The focus before the `k+1`-th sample insertion. -/
def sampleFocus : Nat → Nat
  | 0 => 0
  | 1 => 1
  | 2 => 2
  | 3 => 2
  | 4 => 2
  | 5 => 2
  | 6 => 1
  | _ => 0

/-- The state after the first `k` sample insertions into a lone root at
address 0, the `i`-th node being allocated at address `i`. -/
def sampleState : Nat → State
  | 0 => loneRoot 0 "root"
  | k + 1 =>
    stateOf (insertNode 1 stdExt ((sampleState k).set (k + 1) (sampleNode (k + 1)))
      (some (sampleFocus k)) (some (k + 1)))

/-- The first `k` sample insertions, latest first. -/
def sampleHist : Nat → List (Nat × Node)
  | 0 => []
  | k + 1 => (k + 1, sampleNode (k + 1)) :: sampleHist k

/-! ## The tokenizer (`Token.cpp`) -/

/-- A token of the AST text: a name and a value, both empty in a
default-constructed token (`Token.h` is not among the sources; the two fields
are the ones `Token.cpp` and `Node.cpp` read and write). -/
structure Token where
  name : String
  value : String
  deriving DecidableEq, Repr, Inhabited

/-- The printed form of a token, `Token::print`: the name alone when the value
is empty, otherwise name, colon, value. -/
def Token.print (t : Token) : String :=
  if t.value = "" then t.name else t.name ++ ":" ++ t.value

/-- The three modes of the tokenizer loop. -/
inductive Mode where
  | NONE | CMD | CODE
  deriving DecidableEq, Repr, Inhabited

/-- The local variables of `Tokenizer::tokenize`.  The `int` counter
`codeDepth` is an unbounded integer: it moves by one per input character, so
it stays inside the machine range on every input whose length the `int` loop
index itself can count. -/
structure TokState where
  mode : Mode
  current : Token
  v : List Token
  escape : Bool
  inToken : Bool
  inValue : Bool
  codeDepth : Int
  deriving DecidableEq, Repr, Inhabited

/-- The variables as initialised before the loop. -/
def TokState.start : TokState :=
  { mode := .NONE, current := ⟨"", ""⟩, v := [], escape := false,
    inToken := false, inValue := false, codeDepth := 0 }

/-- The block `v.push_back(current); current = Token(); inToken = false;
inValue = false;`. -/
def TokState.pushCurrent (st : TokState) : TokState :=
  { st with v := st.v ++ [st.current], current := ⟨"", ""⟩,
            inToken := false, inValue := false }

/-- The same block under its guard `if (inToken)`. -/
def TokState.flush (st : TokState) : TokState :=
  if st.inToken then st.pushCurrent else st

/-- The `case NONE` arm of the loop body of `Tokenizer::tokenize`; `.error msg`
is `throw EvalError(msg)`. -/
def tokStepNone (c : Char) (st : TokState) : Except String TokState :=
  if st.inToken || st.inValue then
    .error "Unexpectedly inToken or inValue during NONE state"
  else if c = '[' then
    .ok { st with v := st.v ++ [⟨"[", ""⟩], mode := .CMD }
  else
    .error ("Bad character in AST input: \x27" ++ String.singleton c ++ "\x27")

/-- The `case CMD` arm of the loop body. -/
def tokStepCmd (c : Char) (st : TokState) : Except String TokState :=
  if c = '[' then
    if st.inToken then .error "Unexpected \x27[\x27 within token of CMD mode"
    else .ok { st with v := st.v ++ [⟨"[", ""⟩] }
  else if c = ']' then
    .ok { st.flush with v := st.flush.v ++ [⟨"]", ""⟩], mode := .NONE }
  else if c = '\x7b' then
    .ok { st.flush with v := st.flush.v ++ [⟨"\x7b", ""⟩], mode := .CODE,
                        codeDepth := st.codeDepth + 1 }
  else if c = '\x7d' then
    .error "Unexpected \x27\x7d\x27 within CMD mode"
  else
    let st1 : TokState :=
      if !st.inToken then
        { st with inToken := true, current := { st.current with name := "cmd" } }
      else st
    .ok { st1 with inValue := true,
                   current := { st1.current with value := st1.current.value.push c } }

/-- The `case CODE` arm of the loop body, on character `c = ast[i]`. -/
def tokStepCode (ast : List Char) (i : Nat) (c : Char) (st : TokState) :
    Except String TokState :=
  if st.escape && st.inValue then
    .ok { st with current := { st.current with value := st.current.value.push c },
                  escape := false }
  else if c = '\x5c' && st.inValue then
    .ok { st with escape := true }
  else if c = '\x7d' then
    let st1 : TokState :=
      { st.flush with v := st.flush.v ++ [⟨"\x7d", ""⟩], codeDepth := st.codeDepth - 1 }
    if st1.codeDepth = 0 then .ok { st1 with mode := .CMD }
    else if st1.codeDepth < 0 then .error "CODE mode observed codeDepth < 0"
    else .ok st1
  else if c = '\x7b' then
    .ok { st.flush with v := st.flush.v ++ [⟨"\x7b", ""⟩], codeDepth := st.codeDepth + 1 }
  else if c = ':' then
    if !st.inToken then .error "Found unexpected \x27:\x27 while in CODE non-Token"
    else if st.inValue then .error "Found unexpected \x27:\x27 while in CODE Value"
    else .ok { st with inValue := true }
  else if c = ' ' || c = ';' then
    .ok st.flush
  else if c = '\x27' && st.inValue then
    if st.current.value ≠ "" then .ok st.pushCurrent
    else if 1 ≤ i ∧ ast[i - 1]? = some ':' then .ok st
    else if 2 ≤ i ∧ ast[i - 1]? = some '\x27' ∧ ast[i - 2]? = some ':' then
      .ok st.pushCurrent
    else .error "Unexpected single-quote in CODE Value"
  else if !c.isAlpha then
    .ok { st.flush with v := st.flush.v ++ [⟨String.singleton c, ""⟩] }
  else if st.inValue then
    .ok { st with current := { st.current with value := st.current.value.push c } }
  else
    .ok { st with inToken := true,
                  current := { st.current with name := st.current.name.push c } }

/-- One iteration of the loop of `Tokenizer::tokenize` on character `c = ast[i]`:
the `switch (mode)`. -/
def tokStep (ast : List Char) (i : Nat) (c : Char) (st : TokState) :
    Except String TokState :=
  match st.mode with
  | .NONE => tokStepNone c st
  | .CMD => tokStepCmd c st
  | .CODE => tokStepCode ast i c st

/-- The loop of `Tokenizer::tokenize` from index `i`, over the characters
`rest` still to be read; the result is the state of the variables when the
loop ends. -/
def tokLoop (ast : List Char) : Nat → List Char → TokState → Except String TokState
  | _, [], st => .ok st
  | i, c :: rest, st =>
    match tokStep ast i c st with
    | .error msg => .error msg
    | .ok st1 => tokLoop ast (i + 1) rest st1

/-- The variables of `Tokenizer::tokenize` after the whole of `ast` is read. -/
def tokRun (ast : List Char) : Except String TokState :=
  tokLoop ast 0 ast TokState.start

/-- The variables of `Tokenizer::tokenize` after the first `k` characters of
`ast`. -/
def tokPrefix (ast : List Char) (k : Nat) : Except String TokState :=
  tokLoop ast 0 (ast.take k) TokState.start

/-- The function `Tokenizer::tokenize`: the token vector, or the message of the
`EvalError` thrown.  The loop reads one `char`, a byte, per iteration; here it
reads one character of the string per iteration, so the two agree on inputs
whose characters are single bytes (code points below 128), and a character of
several bytes is read by the code byte by byte. -/
def tokenize (ast : String) : Except String (List Token) :=
  match tokRun ast.data with
  | .error msg => .error msg
  | .ok st => .ok st.v

/-- A piece of a quoted value: a bare character, or a backslash followed by a
character, a character being one `char` of the input. -/
inductive Piece where
  | bare (c : Char)
  | escaped (c : Char)
  deriving DecidableEq, Repr

/-- The characters a piece is written with. -/
def Piece.text : Piece → List Char
  | .bare c => [c]
  | .escaped c => ['\x5c', c]

/-- The character a piece stands for. -/
def Piece.decoded : Piece → Char
  | .bare c => c
  | .escaped c => c

/-- A bare piece is an alphabetic character; after a backslash any single-byte
character may stand, that is any character the loop reads in one iteration
(a code point below 128, which is what one `char` of the input holds). -/
def Piece.valid : Piece → Bool
  | .bare c => c.isAlpha
  | .escaped c => decide (c.toNat < 128)

/-- The opening-brace token, as `Token("\x7b")` builds it. -/
def openTok : Token := ⟨"\x7b", ""⟩

/-- The closing-brace token. -/
def closeTok : Token := ⟨"\x7d", ""⟩

/-- No prefix of the token sequence holds more closing-brace tokens than
opening-brace tokens. -/
def BraceBalanced (v : List Token) : Prop :=
  ∀ p, p <+: v → p.count closeTok ≤ p.count openTok

/-- The invariant of the loop of `Tokenizer::tokenize`: the brace counter is the
number of braces emitted and still open, it is positive exactly in CODE mode,
the name of the token being read is not a brace, and a value is only ever open
inside a token, of which there is none in NONE mode. -/
structure TokInv (st : TokState) : Prop where
  nonneg : 0 ≤ st.codeDepth
  depth : st.mode = .CODE ↔ 0 < st.codeDepth
  count : (st.v.count openTok : Int) = st.v.count closeTok + st.codeDepth
  balanced : BraceBalanced st.v
  name : st.current.name ≠ "\x7b" ∧ st.current.name ≠ "\x7d"
  inside : st.inValue = true → st.inToken = true
  idle : st.mode = .NONE → st.inToken = false

/-- The variables of the loop with one more `[` token at the front of the
vector: what reading an extra leading `[` adds. -/
def TokState.nested (st : TokState) : TokState :=
  { st with v := ⟨"[", ""⟩ :: st.v }

/-- A result of the loop, with one more `[` token at the front. -/
def nestedResult : Except String TokState → Except String TokState
  | .error msg => .error msg
  | .ok st => .ok st.nested

/-- The factory `Node::MakeNode`: the record of the node constructed for a
token, chosen by the token name, or the message of the `EvalError` thrown for
a name it does not support.

Modelled from the spec: the constructors of the Node variants are not under
src/; each passes the token to `Node::Node`, `Command` and `Block` are opening
Braces, and `isIrrelevant` is true only for the plain grouping parenthesis. -/
def MakeNode (root : Option Nat) (t : Token) : Except String Node :=
  if t.name = "[" then .ok (newNode root t.name t.value .Command true false)
  else if t.name = "(" then .ok (newNode root t.name t.value .Brace true true)
  else if t.name = "\x7b" then .ok (newNode root t.name t.value .Block true false)
  else if t.name = "]" ∨ t.name = ")" ∨ t.name = "\x7d" then
    .ok (newNode root t.name t.value .Brace false false)
  else if t.name = "cmd" then .ok (newNode root t.name t.value .CommandFragment false false)
  else if t.name = "ID" then .ok (newNode root t.name t.value .Variable false false)
  else if t.name = "prop" then .ok (newNode root t.name t.value .Property false false)
  else if t.name = "PLUS" ∨ t.name = "MINUS" ∨ t.name = "STAR" ∨ t.name = "SLASH" ∨
      t.name = "PERCENT" ∨ t.name = "CARAT" ∨ t.name = "PIPE" ∨ t.name = "AMP" ∨
      t.name = "TILDE" ∨ t.name = "DOUBLETILDE" then
    .ok (newNode root t.name t.value .Operator false false)
  else if t.name = "exp" then .ok (newNode root t.name t.value .Expression false false)
  else if t.name = "new" then .ok (newNode root t.name t.value .New false false)
  else if t.name = "init" then .ok (newNode root t.name t.value .NewInit false false)
  else if t.name = "type" then .ok (newNode root t.name t.value .TypeSpec false false)
  else if t.name = "isvar" then .ok (newNode root t.name t.value .IsVar false false)
  else .error ("Unsupported token " ++ t.print)

/-- The twenty-four token names for which the factory has a Node variant. -/
def supportedNames : List String :=
  ["[", "(", "\x7b", "]", ")", "\x7d", "cmd", "ID", "prop", "PLUS", "MINUS", "STAR", "SLASH",
   "PERCENT", "CARAT", "PIPE", "AMP", "TILDE", "DOUBLETILDE", "exp", "new", "init", "type",
   "isvar"]

/-- The state a call leaves behind, by a normal return or by an exception. -/
def Outcome.left {α : Type} : Outcome α → Option State
  | .ok _ s => some s
  | .thrown _ s => some s
  | .undefined => none
  | .outOfFuel => none

/-- No lifecycle marker set in `a` is cleared in `b`. -/
def MarkersGrow (a b : Node) : Prop :=
  (a.isInit = true → b.isInit = true) ∧ (a.isSetup = true → b.isSetup = true) ∧
    (a.isAnalyzed = true → b.isAnalyzed = true) ∧ (a.isEvaluated = true → b.isEvaluated = true)

/-- The order of the lifecycle markers: evaluated implies analyzed, analyzed
implies set up, set up implies initialized. -/
def MarkersOrdered (nd : Node) : Prop :=
  (nd.isEvaluated = true → nd.isAnalyzed = true) ∧ (nd.isAnalyzed = true → nd.isSetup = true) ∧
    (nd.isSetup = true → nd.isInit = true)

/-- From `s` to `s1` every live node stays live, keeps the markers it has, and
keeps them in order if they were. -/
def Grows (s s1 : State) : Prop :=
  ∀ y nd, s.nodes y = some nd →
    ∃ nd1, s1.nodes y = some nd1 ∧ MarkersGrow nd nd1 ∧ (MarkersOrdered nd → MarkersOrdered nd1)

/-- One call of a lifecycle operation on some node, returning normally or
throwing: `s1` is the state it leaves behind. -/
inductive LifeCall (ext : Ext) : State → State → Prop
  | initNode (s : State) (x : Nat) (s1 : State) :
    (initNode ext s x).left = some s1 → LifeCall ext s s1
  | setupNode (fuel : Nat) (s : State) (x : Nat) (s1 : State) :
    (setupNode fuel ext s x).left = some s1 → LifeCall ext s s1
  | setupAsParent (fuel : Nat) (s : State) (x : Nat) (s1 : State) :
    (setupAsParent fuel ext s x).left = some s1 → LifeCall ext s s1
  | analyzeNode (fuel : Nat) (s : State) (x : Nat) (s1 : State) :
    (analyzeNode fuel ext s x).left = some s1 → LifeCall ext s s1
  | evaluateNode (fuel : Nat) (s : State) (x : Nat) (s1 : State) :
    (evaluateNode fuel ext s x).left = some s1 → LifeCall ext s s1

/-- Any sequence of lifecycle calls, on any nodes. -/
inductive LifeRun (ext : Ext) : State → State → Prop
  | done (s : State) : LifeRun ext s s
  | call (s s1 s2 : State) : LifeRun ext s s1 → LifeCall ext s1 s2 → LifeRun ext s s2

/-- Sample lifecycle of the fresh leaf 1 under the root 0: the state after
`initNode`. -/
def lifeInit : State := ((initNode stdExt freshLeaf 1).left).getD freshLeaf

/-- The sample state after `initNode` and `setupNode`. -/
def lifeSetup : State := ((setupNode 3 stdExt lifeInit 1).left).getD freshLeaf

/-- The sample state after `initNode`, `setupNode` and `evaluateNode`. -/
def lifeEvaluated : State := ((evaluateNode 3 stdExt lifeSetup 1).left).getD freshLeaf

/-- The sample state after a further `evaluateNode`, which throws. -/
def lifeEvaluatedTwice : State := ((evaluateNode 3 stdExt lifeEvaluated 1).left).getD freshLeaf

/-- Sample token stream `( ( PLUS a b ) c )`, as freshly constructed nodes
numbered from 1. -/
def nestNode (i : Nat) : Node :=
  match i with
  | 1 => newNode (some 0) "(" "" .Brace true true
  | 2 => newNode (some 0) "(" "" .Brace true true
  | 3 => newNode (some 0) "PLUS" "" .Operator false false
  | 4 => newNode (some 0) "ID" "a" .Variable false false
  | 5 => newNode (some 0) "ID" "b" .Variable false false
  | 6 => newNode (some 0) ")" "" .Brace false false
  | 7 => newNode (some 0) "ID" "c" .Variable false false
  | _ => newNode (some 0) ")" "" .Brace false false

/-- The focus before the `k+1`-th insertion of the nested sample. -/
def nestFocus : Nat → Nat
  | 0 => 0
  | 1 => 1
  | 2 => 2
  | 3 => 2
  | 4 => 2
  | 5 => 2
  | _ => 1

/-- The state after the first `k` insertions of the nested sample into a lone
root at address 0, the `i`-th node being allocated at address `i`. -/
def nestState : Nat → State
  | 0 => loneRoot 0 "root"
  | k + 1 =>
    stateOf (insertNode 1 stdExt ((nestState k).set (k + 1) (nestNode (k + 1)))
      (some (nestFocus k)) (some (k + 1)))

/-- The first `k` insertions of the nested sample, latest first. -/
def nestHist : Nat → List (Nat × Node)
  | 0 => []
  | k + 1 => (k + 1, nestNode (k + 1)) :: nestHist k

/-- The nodes of the subtree of `x` in left-to-right post-order: the subtrees
of the children in child-sequence order, then `x` itself; at most `fuel`
levels are rendered. -/
def postorder : Nat → State → Nat → List Nat
  | 0, _, _ => []
  | fuel + 1, s, x =>
    match s.nodes x with
    | none => []
    | some nd => nd.children.flatMap (postorder fuel s) ++ [x]

/-- The record of a node once `evaluateNode` has returned from it. -/
def markEvaluated (nd : Node) : Node :=
  { nd with isEvaluated := true }

/-- The node carries the three markers `evaluateNode` asks for and has not
been evaluated. -/
def Evaluable (nd : Node) : Prop :=
  nd.isInit = true ∧ nd.isSetup = true ∧ nd.isAnalyzed = true ∧ nd.isEvaluated = false

/-- Sample input for evaluation: the sample tree with a Block, every node
carrying the three markers and none evaluated. -/
def readyTree : State :=
  { nodes := fun x => (blockTree.nodes x).map fun m =>
      { m with isInit := true, isSetup := true, isAnalyzed := true }
    trace := [] }

/-- The heights of the nodes of the sample tree. -/
def sampleHeight : Nat → Nat
  | 0 => 3
  | 1 => 2
  | 3 => 1
  | _ => 0

/-- The node promoted by inserting `nd` at the focus `cur`: the first child of
`cur`, when `nd` is a closing Brace and `cur` an irrelevant paren. -/
def promotedBy (s : State) (cur : Nat) (nd : Node) : List Nat :=
  if nd.kind.isBrace && !nd.isOpen then
    match s.nodes cur with
    | some c => if c.isIrrelevant then c.children.take 1 else []
    | none => []
  else []

/-- The states the builder reaches when every node is constructed with the
root `r` as its `root` pointer, as `MakeNode(log, root, t)` does; next to the
inserted nodes the nodes promoted by paren elision are recorded, latest
first. -/
inductive BuiltOn (ext : Ext) (r : Nat) (rootName : String) :
    List (Nat × Node) → List Nat → State → Nat → Prop
  | start : BuiltOn ext r rootName [] [] (loneRoot r rootName) r
  | insert (hist : List (Nat × Node)) (promoted : List Nat) (s : State) (cur fuel n : Nat)
      (name value : String) (kind : Kind) (isOpen isIrrelevant : Bool) (s1 : State)
      (cur1 : Nat) :
    BuiltOn ext r rootName hist promoted s cur → s.nodes n = none →
    insertNode fuel ext (s.set n (newNode (some r) name value kind isOpen isIrrelevant))
      (some cur) (some n) = .ok cur1 s1 →
    BuiltOn ext r rootName ((n, newNode (some r) name value kind isOpen isIrrelevant) :: hist)
      (promotedBy s cur (newNode (some r) name value kind isOpen isIrrelevant) ++ promoted)
      s1 cur1

/-- What the builder has settled when the focus is `cur`: every node but the
root points to the root, none is evaluated, the tree has finite height, and
set up are every node whose parent is no longer on the path from the focus to
the root, every Brace that is no longer on that path, and every promoted node,
which is never an irrelevant Brace. -/
structure Settled (s : State) (r cur : Nat) (promoted : List Nat) : Prop where
  rooted : ∀ y nd, s.nodes y = some nd → y ≠ r → nd.root = some r
  fresh : ∀ y nd, s.nodes y = some nd → nd.isEvaluated = false
  height : ∃ ht : Nat → Nat, ∀ p pn c, s.nodes p = some pn → c ∈ pn.children → ht c < ht p
  inner : ∀ y nd p, s.nodes y = some nd → nd.parent = some p → ¬ OnPath s p cur →
    nd.isSetup = true
  closed : ∀ y nd, s.nodes y = some nd → nd.kind.isBrace = true → ¬ OnPath s y cur →
    nd.isSetup = true
  lifted : ∀ y, y ∈ promoted → ∃ nd, s.nodes y = some nd ∧ nd.isSetup = true ∧
    ¬ (nd.kind.isBrace = true ∧ nd.isIrrelevant = true)

/-! ## Basic facts about states and outcomes -/

@[simp] theorem State.set_nodes (s : State) (x : Nat) (nd : Node) (y : Nat) :
    (s.set x nd).nodes y = if y = x then some nd else s.nodes y := rfl

@[simp] theorem State.set_trace (s : State) (x : Nat) (nd : Node) :
    (s.set x nd).trace = s.trace := rfl

@[simp] theorem State.upd_nodes (s : State) (x : Nat) (f : Node → Node) (y : Nat) :
    (s.upd x f).nodes y = if y = x then (s.nodes x).map f else s.nodes y := rfl

@[simp] theorem State.upd_trace (s : State) (x : Nat) (f : Node → Node) :
    (s.upd x f).trace = s.trace := rfl

@[simp] theorem State.erase_nodes (s : State) (x y : Nat) :
    (s.erase x).nodes y = if y = x then none else s.nodes y := rfl

@[simp] theorem State.erase_trace (s : State) (x : Nat) : (s.erase x).trace = s.trace := rfl

@[simp] theorem State.log_nodes (s : State) (h : Hook) (x : Nat) :
    (s.log h x).nodes = s.nodes := rfl

@[simp] theorem State.log_trace (s : State) (h : Hook) (x : Nat) :
    (s.log h x).trace = s.trace ++ [(h, x)] := rfl

@[simp] theorem Outcome.bind_ok {α β : Type} (a : α) (s : State) (f : α → State → Outcome β) :
    (Outcome.ok a s).bind f = f a s := rfl

@[simp] theorem Outcome.bind_thrown {α β : Type} (t : Thrown) (s : State)
    (f : α → State → Outcome β) : (Outcome.thrown t s : Outcome α).bind f = .thrown t s := rfl

@[simp] theorem Outcome.bind_undefined {α β : Type} (f : α → State → Outcome β) :
    (Outcome.undefined : Outcome α).bind f = .undefined := rfl

@[simp] theorem Outcome.bind_outOfFuel {α β : Type} (f : α → State → Outcome β) :
    (Outcome.outOfFuel : Outcome α).bind f = .outOfFuel := rfl

/-- A sequenced call returns normally only if both halves do. -/
theorem Outcome.bind_eq_ok {α β : Type} {o : Outcome α} {f : α → State → Outcome β}
    {b : β} {s2 : State} (h : o.bind f = .ok b s2) :
    ∃ a s1, o = .ok a s1 ∧ f a s1 = .ok b s2 := by
  cases o with
  | ok a s1 => exact ⟨a, s1, rfl, h⟩
  | thrown t s1 => simp at h
  | undefined => simp at h
  | outOfFuel => simp at h

/-! ## C4: structural rejection -/

/-- C4. Inserting a closing Brace fails with an `EvalError` and leaves the whole
state (every node record, hence every child sequence, parent link and lifecycle
marker, and the hook trace) unchanged whenever the focus has no parent, or is
not a Brace, or does not match the closing Brace, or is an irrelevant open Brace
with no children. -/
theorem insertNode_close_rejected (fuel : Nat) (ext : Ext) (s : State) (cur n : Nat)
    (c nd : Node) (hc : s.nodes cur = some c) (hn : s.nodes n = some nd)
    (hbrace : nd.kind.isBrace = true) (hclose : nd.isOpen = false)
    (h : c.parent = none ∨ c.kind.isBrace = false ∨ ext.matchesCloseBrace c nd = false ∨
      (c.kind.isBrace = true ∧ c.isIrrelevant = true ∧ c.children = [])) :
    ∃ msg, insertNode fuel ext s (some cur) (some n) = .thrown (.evalError msg) s := by
  unfold insertNode
  simp only [hc, hn, hbrace, hclose]
  cases hp : c.parent with
  | none => exact ⟨_, rfl⟩
  | some p =>
    by_cases hb : c.kind.isBrace = true
    · by_cases hm : ext.matchesCloseBrace c nd = true
      · rcases h with h | h | h | ⟨_, hi, hch⟩
        · simp [hp] at h
        · simp [hb] at h
        · simp [hm] at h
        · refine ⟨"Empty parens in the AST are not allowed", ?_⟩
          simp [hb, hm, hi, promote, hc, hch]
      · exact ⟨"Incorrect brace/paren match: '" ++ c.name ++ "' against '" ++ nd.name ++ "'",
          by simp [hb, hm]⟩
    · exact ⟨"Found closing brace " ++ nd.name ++ " but its parent " ++ c.name ++
        " is not an open brace", by simp [hb]⟩

/-- C4, at the spec's two examples, a Block closed by `]` and `( )`, and at a
closing paren offered to the Root and to a focus that is not a Brace. -/
theorem insertNode_close_rejected_witness :
    (∃ msg, insertNode 1 stdExt
        (((loneRoot 0 "root").set 1
          { newNode (some 0) "\x7b" "" .Block true false with parent := some 0 }).set 2
          (newNode (some 0) "]" "" .Brace false false)) (some 1) (some 2) =
      .thrown (.evalError msg)
        (((loneRoot 0 "root").set 1
          { newNode (some 0) "\x7b" "" .Block true false with parent := some 0 }).set 2
          (newNode (some 0) "]" "" .Brace false false))) ∧
    (∃ msg, insertNode 1 stdExt
        (((loneRoot 0 "root").set 1
          { newNode (some 0) "(" "" .Brace true true with parent := some 0 }).set 2
          (newNode (some 0) ")" "" .Brace false false)) (some 1) (some 2) =
      .thrown (.evalError msg)
        (((loneRoot 0 "root").set 1
          { newNode (some 0) "(" "" .Brace true true with parent := some 0 }).set 2
          (newNode (some 0) ")" "" .Brace false false))) ∧
    (∃ msg, insertNode 1 stdExt
        ((loneRoot 0 "root").set 2 (newNode (some 0) ")" "" .Brace false false))
        (some 0) (some 2) =
      .thrown (.evalError msg)
        ((loneRoot 0 "root").set 2 (newNode (some 0) ")" "" .Brace false false))) ∧
    (∃ msg, insertNode 1 stdExt
        (freshLeaf.set 2 (newNode (some 0) ")" "" .Brace false false)) (some 1) (some 2) =
      .thrown (.evalError msg)
        (freshLeaf.set 2 (newNode (some 0) ")" "" .Brace false false))) :=
  ⟨insertNode_close_rejected 1 stdExt _ 1 2 _ _ rfl rfl rfl rfl (Or.inr (Or.inr (Or.inl (by decide)))),
   insertNode_close_rejected 1 stdExt _ 1 2 _ _ rfl rfl rfl rfl
     (Or.inr (Or.inr (Or.inr ⟨rfl, rfl, rfl⟩))),
   insertNode_close_rejected 1 stdExt _ 0 2 _ _ rfl rfl rfl rfl (Or.inl rfl),
   insertNode_close_rejected 1 stdExt _ 1 2 _ _ rfl rfl rfl rfl (Or.inr (Or.inl rfl))⟩

/-! ## C9, C10: lifecycle gating and one-shot evaluation -/

/-- C9. `setupNode` on a node that is neither set up nor initialized throws;
`evaluateNode` on a not-yet-evaluated node lacking one of the initialized,
set-up, analyzed markers throws, except when the node's parent is the Root
(`root == parent && root != NULL`), in which case it returns normally with the
state untouched: no hook is recorded and no marker changes. -/
theorem lifecycle_gating (fuel : Nat) (ext : Ext) (s : State) (x : Nat) (nd : Node)
    (hx : s.nodes x = some nd) :
    (nd.isSetup = false → nd.isInit = false →
      ∃ msg, setupNode fuel ext s x = .thrown (.evalError msg) s) ∧
    (nd.isEvaluated = false →
      (nd.isInit = false ∨ nd.isSetup = false ∨ nd.isAnalyzed = false) →
      ((nd.root = nd.parent ∧ nd.root ≠ none) → evaluateNode (fuel + 1) ext s x = .ok () s) ∧
      (¬ (nd.root = nd.parent ∧ nd.root ≠ none) →
        ∃ msg, evaluateNode (fuel + 1) ext s x = .thrown (.evalError msg) s)) := by
  refine ⟨?_, ?_⟩
  · intro hs hi
    exact ⟨"Cannot setup Node " ++ print fuel s x ++ " until it's init",
      by simp [setupNode, hx, hs, hi]⟩
  · intro he hm
    have hcond : (!nd.isInit || !nd.isSetup || !nd.isAnalyzed) = true := by
      rcases hm with h | h | h <;> simp [h]
    refine ⟨?_, ?_⟩
    · intro hr
      simp only [evaluateNode, hx, he, hcond]
      rw [if_pos hr]
      rfl
    · intro hr
      refine ⟨"Node " ++ print fuel s x ++
        " cannot be evaluated until init, setup, and analyzed", ?_⟩
      simp only [evaluateNode, hx, he, hcond]
      rw [if_neg hr]
      rfl

/-- C9, on a fresh node whose parent is the root (`setupNode` throws,
`evaluateNode` returns without effect) and on the fresh leaf 2 of the sample
Block, whose parent is not the root (`evaluateNode` throws). -/
theorem lifecycle_gating_witness :
    (∃ msg, setupNode 1 stdExt freshLeaf 1 = .thrown (.evalError msg) freshLeaf) ∧
    evaluateNode 1 stdExt freshLeaf 1 = .ok () freshLeaf ∧
    (∃ msg, evaluateNode 1 stdExt blockTree 2 = .thrown (.evalError msg) blockTree) :=
  ⟨(lifecycle_gating 1 stdExt freshLeaf 1
      { newNode (some 0) "ID" "a" .Variable false false with parent := some 0 } rfl).1 rfl rfl,
   ((lifecycle_gating 0 stdExt freshLeaf 1
      { newNode (some 0) "ID" "a" .Variable false false with parent := some 0 } rfl).2 rfl
      (Or.inl rfl)).1 ⟨rfl, by decide⟩,
   ((lifecycle_gating 0 stdExt blockTree 2
      { newNode (some 0) "ID" "a" .Variable false false with parent := some 1 } rfl).2 rfl
      (Or.inl rfl)).2 (by decide)⟩

/-- A loop of calls returns normally only through states related by any
reflexive, transitive relation that every normally returning call respects. -/
theorem forEach_ok_rel {body : State → Nat → Outcome Unit} (R : State → State → Prop)
    (hrefl : ∀ s, R s s) (htrans : ∀ a b c, R a b → R b c → R a c)
    (hbody : ∀ s c s1, body s c = .ok () s1 → R s s1) :
    ∀ (l : List Nat) (s s1 : State), forEach body s l = .ok () s1 → R s s1 := by
  intro l
  induction l with
  | nil =>
    intro s s1 h
    simp [forEach] at h
    subst h
    exact hrefl s
  | cons c cs ih =>
    intro s s1 h
    simp only [forEach] at h
    obtain ⟨_, s2, h1, h2⟩ := Outcome.bind_eq_ok h
    exact htrans _ _ _ (hbody _ _ _ h1) (ih _ _ h2)

theorem SameLive.live_refl (s : State) : SameLive s s := fun _ => rfl

theorem SameLive.live_trans (a b c : State) (h1 : SameLive a b) (h2 : SameLive b c) :
    SameLive a c := fun y => (h2 y).trans (h1 y)

/-- A normally returning `evaluateNode` frees and allocates nothing. -/
theorem evaluateNode_sameLive (ext : Ext) :
    ∀ (fuel : Nat) (s : State) (x : Nat) (s1 : State),
      evaluateNode fuel ext s x = .ok () s1 → SameLive s s1 := by
  intro fuel
  induction fuel with
  | zero =>
    intro s x s1 h
    simp [evaluateNode] at h
  | succ fuel ih =>
    intro s x s1 h
    simp only [evaluateNode] at h
    cases hx : s.nodes x with
    | none => simp [hx] at h
    | some nd =>
      simp only [hx] at h
      split at h
      · simp at h
      · split at h
        · split at h
          · simp at h
            subst h
            exact SameLive.live_refl s
          · simp at h
        · obtain ⟨_, s2, h1, h2⟩ := Outcome.bind_eq_ok h
          have hl := forEach_ok_rel SameLive SameLive.live_refl SameLive.live_trans
            (fun a c b hb => ih a c b hb) _ _ _ h1
          cases he : ext.evaluate s2 x with
          | some msg => simp [he] at h2
          | none =>
            simp [he] at h2
            subst h2
            intro y
            rw [← hl y]
            by_cases hy : y = x
            · subst hy
              cases hn : s2.nodes y <;> simp [hn]
            · simp [hy]

/-- C10, as amended. A node that does not take the Root-child bypass (it lacks
no marker, or its parent is not the Root) and on which `evaluateNode` returns
normally is marked evaluated, and a second call throws, leaving the state as
the first call left it. -/
theorem evaluateNode_one_shot (fuel fuel2 : Nat) (ext : Ext) (s s1 : State) (x : Nat)
    (nd : Node) (hx : s.nodes x = some nd)
    (hby : ¬ ((nd.isInit = false ∨ nd.isSetup = false ∨ nd.isAnalyzed = false) ∧
      nd.root = nd.parent ∧ nd.root ≠ none))
    (hcall : evaluateNode fuel ext s x = .ok () s1) :
    (∃ nd1, s1.nodes x = some nd1 ∧ nd1.isEvaluated = true) ∧
    ∃ msg, evaluateNode (fuel2 + 1) ext s1 x = .thrown (.evalError msg) s1 := by
  have hev : ∃ nd1, s1.nodes x = some nd1 ∧ nd1.isEvaluated = true := by
    cases fuel with
    | zero => simp [evaluateNode] at hcall
    | succ fuel =>
      simp only [evaluateNode, hx] at hcall
      split at hcall
      · simp at hcall
      · split at hcall
        · rename_i hm
          split at hcall
          · rename_i hr
            exfalso
            apply hby
            refine ⟨?_, hr⟩
            simp only [Bool.or_eq_true, Bool.not_eq_true'] at hm
            rcases hm with (h | h) | h
            · exact Or.inl h
            · exact Or.inr (Or.inl h)
            · exact Or.inr (Or.inr h)
          · simp at hcall
        · obtain ⟨_, s2, h1, h2⟩ := Outcome.bind_eq_ok hcall
          have hl := forEach_ok_rel SameLive SameLive.live_refl SameLive.live_trans
            (fun a c b hb => evaluateNode_sameLive ext fuel a c b hb) _ _ _ h1
          have hlive : (s2.nodes x).isSome = true := by rw [hl x, hx]; rfl
          obtain ⟨n2, hn2⟩ := Option.isSome_iff_exists.mp hlive
          cases he : ext.evaluate s2 x with
          | some msg => simp [he] at h2
          | none =>
            simp [he] at h2
            subst h2
            exact ⟨{ n2 with isEvaluated := true }, by simp [hn2], rfl⟩
  refine ⟨hev, ?_⟩
  obtain ⟨nd1, h1, h2⟩ := hev
  exact ⟨"Node " ++ print fuel2 s1 x ++ " has already been evaluated",
    by simp [evaluateNode, h1, h2]⟩

/-- C10 as amended, on a fully set-up leaf under the root. -/
theorem evaluateNode_one_shot_witness :
    (∃ nd1, ((readyLeaf.log .evaluate 1).upd 1 fun m => { m with isEvaluated := true }).nodes 1 =
        some nd1 ∧ nd1.isEvaluated = true) ∧
    ∃ msg, evaluateNode 1 stdExt
        ((readyLeaf.log .evaluate 1).upd 1 fun m => { m with isEvaluated := true }) 1 =
      .thrown (.evalError msg)
        ((readyLeaf.log .evaluate 1).upd 1 fun m => { m with isEvaluated := true }) :=
  evaluateNode_one_shot 1 0 stdExt readyLeaf _ 1 _ rfl (by decide) rfl

/-- C10 as stated fails: on a fresh (not set-up) node whose parent is the Root,
`evaluateNode` returns normally, and a second call returns normally again. -/
theorem evaluateNode_twice_counterexample :
    ∃ s1, evaluateNode 1 stdExt freshLeaf 1 = .ok () s1 ∧
      evaluateNode 1 stdExt s1 1 = .ok () s1 :=
  ⟨_, rfl, rfl⟩

/-! ## C2: inserting a node that is not a closing Brace -/

/-- C2. For a live focus `cur` and a new node `n` that is not a Brace, or is
an opening Brace: `insertNode` returns `cur` (not a Brace) or `n` (opening
Brace); afterwards the children of `cur`
are the old ones followed by `n`, the record of `n` differs from before only in
its parent link (now `cur`), its inherited scope and its initialized marker
(now set), every other node is unchanged, and the only hook run is `init` on
`n`. -/
theorem insertNode_attach (fuel : Nat) (ext : Ext) (s : State) (cur n : Nat) (c nd : Node)
    (hc : s.nodes cur = some c) (hn : s.nodes n = some nd) (hnew : n ≠ cur)
    (hkind : nd.kind.isBrace = false ∨ nd.isOpen = true) :
    ∃ s1, insertNode fuel ext s (some cur) (some n) =
        .ok (if nd.kind.isBrace then n else cur) s1 ∧
      s1.nodes cur = some { c with children := c.children ++ [n] } ∧
      s1.nodes n = some { nd with
        parent := some cur
        parentScope := (match ext.getScope { c with children := c.children ++ [n] } with
          | some g => some g
          | none => c.parentScope)
        isInit := true } ∧
      (∀ x, x ≠ cur → x ≠ n → s1.nodes x = s.nodes x) ∧
      s1.trace = s.trace ++ [(Hook.init, n)] := by
  have hcn : cur ≠ n := fun h => hnew h.symm
  have hi : initNode ext (addChild (s.upd n fun m => { m with parent := some cur }) cur n) n =
      .ok () ((((addChild (s.upd n fun m => { m with parent := some cur }) cur n).upd n
        fun m => { m with parentScope := (match ext.getScope
          { c with children := c.children ++ [n] } with
          | some g => some g
          | none => c.parentScope) }).log .init n).upd n fun m => { m with isInit := true }) := by
    simp [initNode, addChild, hc, hn, hcn, hnew]
  refine ⟨(((addChild (s.upd n fun m => { m with parent := some cur }) cur n).upd n
        fun m => { m with parentScope := (match ext.getScope
          { c with children := c.children ++ [n] } with
          | some g => some g
          | none => c.parentScope) }).log .init n).upd n fun m => { m with isInit := true },
    ?_, ?_, ?_, ?_, ?_⟩
  · unfold insertNode
    simp only [hc, hn]
    rcases hkind with hk | hk
    · simp only [hk, hi]
      rfl
    · by_cases hb : nd.kind.isBrace = true
      · simp only [hb, hk, hi]
        rfl
      · simp only [hb, hi]
        rfl
  · simp [addChild, hc, hcn, hnew]
  · simp [addChild, hn, hcn, hnew]
  · intro x hx1 hx2
    simp [addChild, hx1, hx2]
  · simp [addChild]

/-- C2, on a lone root receiving a variable and then an opening Block. -/
theorem insertNode_attach_witness :
    (∃ s1, insertNode 1 stdExt
        ((loneRoot 0 "root").set 1 (newNode (some 0) "ID" "a" .Variable false false))
        (some 0) (some 1) = .ok 0 s1 ∧
      s1.nodes 0 = some { newNode none "root" "" .RootNode false false with children := [1] } ∧
      s1.nodes 1 = some { newNode (some 0) "ID" "a" .Variable false false with
        parent := some 0, isInit := true }) ∧
    (∃ s1, insertNode 1 stdExt
        ((loneRoot 0 "root").set 1 (newNode (some 0) "\x7b" "" .Block true false))
        (some 0) (some 1) = .ok 1 s1 ∧
      s1.nodes 0 = some { newNode none "root" "" .RootNode false false with children := [1] }) := by
  constructor
  · obtain ⟨s1, h1, h2, h3, _, _⟩ := insertNode_attach 1 stdExt
      ((loneRoot 0 "root").set 1 (newNode (some 0) "ID" "a" .Variable false false)) 0 1
      (newNode none "root" "" .RootNode false false)
      (newNode (some 0) "ID" "a" .Variable false false) rfl rfl (by decide) (Or.inl rfl)
    exact ⟨s1, h1, h2, h3⟩
  · obtain ⟨s1, h1, h2, _, _, _⟩ := insertNode_attach 1 stdExt
      ((loneRoot 0 "root").set 1 (newNode (some 0) "\x7b" "" .Block true false)) 0 1
      (newNode none "root" "" .RootNode false false)
      (newNode (some 0) "\x7b" "" .Block true false) rfl rfl (by decide) (Or.inr rfl)
    exact ⟨s1, h1, h2⟩

/-! ## Subtrees and deletion -/

theorem Desc.desc_trans {s : State} {x y z : Nat} (h1 : Desc s x y) (h2 : Desc s y z) :
    Desc s x z := by
  induction h2 with
  | self => exact h1
  | child p c pn _ hp hc ih => exact Desc.child p c pn ih hp hc

/-- Inversion of `Desc` at its last step. -/
theorem Desc.last_step {s : State} {x y : Nat} (h : Desc s x y) :
    x = y ∨ ∃ p pn, Desc s x p ∧ s.nodes p = some pn ∧ y ∈ pn.children := by
  cases h with
  | self => exact Or.inl rfl
  | child p c pn hd hp hc => exact Or.inr ⟨p, pn, hd, hp, hc⟩

/-- Inversion of `Desc` at its first step. -/
theorem Desc.first_step {s : State} {x y : Nat} (h : Desc s x y) :
    x = y ∨ ∃ xn c, s.nodes x = some xn ∧ c ∈ xn.children ∧ Desc s c y := by
  induction h with
  | self => exact Or.inl rfl
  | child p c pn _ hp hc ih =>
    right
    rcases ih with rfl | ⟨xn, c1, hx, hc1, hd⟩
    · exact ⟨pn, c, hp, hc, Desc.self⟩
    · exact ⟨xn, c1, hx, hc1, Desc.child p c pn hd hp hc⟩

/-- Two states that agree on the subtree of `x` have the same subtree at `x`. -/
theorem Desc.agree {s t : State} {x : Nat} (h : ∀ y, Desc s x y → t.nodes y = s.nodes y) :
    ∀ y, Desc t x y ↔ Desc s x y := by
  intro y
  constructor
  · intro hd
    induction hd with
    | self => exact Desc.self
    | child p c pn _ hp hc ih =>
      rw [h p ih] at hp
      exact Desc.child p c pn ih hp hc
  · intro hd
    induction hd with
    | self => exact Desc.self
    | child p c pn hd hp hc ih =>
      rw [← h p hd] at hp
      exact Desc.child p c pn ih hp hc

theorem LocalTree.sub {s : State} {ht : Nat → Nat} {x y : Nat} (h : LocalTree s ht x)
    (hd : Desc s x y) : LocalTree s ht y :=
  fun p hp => h p (hd.desc_trans hp)

theorem LocalTree.agree_tree {s t : State} {ht : Nat → Nat} {x : Nat} (h : LocalTree s ht x)
    (hag : ∀ y, Desc s x y → t.nodes y = s.nodes y) : LocalTree t ht x := by
  intro p hp
  have hp1 : Desc s x p := (Desc.agree hag p).mp hp
  obtain ⟨pn, h1, h2, h3⟩ := h p hp1
  refine ⟨pn, by rw [hag p hp1]; exact h1, h2, ?_⟩
  intro c hc
  obtain ⟨h4, cn, h5, h6⟩ := h3 c hc
  exact ⟨h4, cn, by rw [hag c (Desc.child p c pn hp1 h1 hc)]; exact h5, h6⟩

theorem LocalTree.ht_le {s : State} {ht : Nat → Nat} {x y : Nat} (h : LocalTree s ht x)
    (hd : Desc s x y) : ht y ≤ ht x := by
  induction hd with
  | self => exact Nat.le_refl _
  | child p c pn hd hp hc ih =>
    obtain ⟨pn1, h1, _, h3⟩ := h p hd
    rw [hp] at h1
    cases h1
    exact Nat.le_of_lt (Nat.lt_of_lt_of_le (h3 c hc).1 ih)

/-- In a tree, two nodes with a common descendant lie on one branch. -/
theorem LocalTree.comparable {s : State} {ht : Nat → Nat} {x a b : Nat}
    (h : LocalTree s ht x) (ha : Desc s x a) (hb : Desc s x b) :
    ∀ y, Desc s a y → Desc s b y → Desc s a b ∨ Desc s b a := by
  intro y hay
  induction hay with
  | self => exact fun hby => Or.inr hby
  | child p c pn hap hp hc ih =>
    intro hbc
    rcases hbc.last_step with rfl | ⟨q, qn, hbq, hq, hcq⟩
    · exact Or.inl (Desc.child p b pn hap hp hc)
    · obtain ⟨pn1, h1, _, h3⟩ := h p (ha.desc_trans hap)
      obtain ⟨qn1, h1q, _, h3q⟩ := h q (hb.desc_trans hbq)
      rw [hp] at h1
      cases h1
      rw [hq] at h1q
      cases h1q
      obtain ⟨_, cn, hcn, hpar⟩ := h3 c hc
      obtain ⟨_, cn1, hcn1, hpar1⟩ := h3q c hcq
      rw [hcn] at hcn1
      cases hcn1
      rw [hpar] at hpar1
      cases hpar1
      exact ih hbq

/-- In a tree, the subtrees of two different children of a node are disjoint. -/
theorem LocalTree.siblings_disjoint {s : State} {ht : Nat → Nat} {x c1 c2 : Nat} {xn : Node}
    (h : LocalTree s ht x) (hx : s.nodes x = some xn) (h1 : c1 ∈ xn.children)
    (h2 : c2 ∈ xn.children) (hne : c1 ≠ c2) (y : Nat) (hy1 : Desc s c1 y) (hy2 : Desc s c2 y) :
    False := by
  have hd1 : Desc s x c1 := Desc.child x c1 xn Desc.self hx h1
  have hd2 : Desc s x c2 := Desc.child x c2 xn Desc.self hx h2
  have key : ∀ a b, a ∈ xn.children → b ∈ xn.children → a ≠ b → Desc s a b → False := by
    intro a b ha hb hab hdesc
    have hda : Desc s x a := Desc.child x a xn Desc.self hx ha
    rcases hdesc.last_step with rfl | ⟨p, pn, hap, hp, hbp⟩
    · exact hab rfl
    · obtain ⟨pn1, e1, _, k1⟩ := h p (hda.desc_trans hap)
      rw [hp] at e1
      cases e1
      obtain ⟨xn1, e2, _, k2⟩ := h x Desc.self
      rw [hx] at e2
      cases e2
      obtain ⟨_, bn, hbn, hpar⟩ := k1 b hbp
      obtain ⟨_, bn1, hbn1, hpar1⟩ := k2 b hb
      rw [hbn] at hbn1
      cases hbn1
      have hpx : p = x := Option.some.inj (hpar.symm.trans hpar1)
      rw [hpx] at hap
      have hle : ht x ≤ ht a := (h.sub hda).ht_le hap
      have hlt : ht a < ht x := (k2 a ha).1
      omega
  rcases h.comparable hd1 hd2 y hy1 hy2 with h12 | h21
  · exact key c1 c2 h1 h2 hne h12
  · exact key c2 c1 h2 h1 (fun e => hne e.symm) h21

/-- The loop deleting the trees in `l` one after the other, given that a single
deletion with this budget behaves as expected (`ih`): started in a state `t`
that is `s` with the set `E` already freed, it frees exactly the subtrees of
the elements of `l` in addition. -/
theorem forEach_destroy_spec (s : State) (ht : Nat → Nat) (fuel : Nat)
    (ih : ∀ t c, LocalTree t ht c → ht c < fuel →
      ∃ t1, destroy fuel t c = .ok () t1 ∧ t1.trace = t.trace ∧
        (∀ y, Desc t c y → t1.nodes y = none) ∧ (∀ y, ¬ Desc t c y → t1.nodes y = t.nodes y)) :
    ∀ (l : List Nat) (t : State) (E : Nat → Prop),
      (∀ y, E y → t.nodes y = none) → (∀ y, ¬ E y → t.nodes y = s.nodes y) →
      t.trace = s.trace →
      (∀ c ∈ l, LocalTree s ht c ∧ ht c < fuel ∧ ∀ y, Desc s c y → ¬ E y) →
      l.Pairwise (fun a b => ∀ y, Desc s a y → ¬ Desc s b y) →
      ∃ t1, forEach (destroy fuel) t l = .ok () t1 ∧ t1.trace = s.trace ∧
        (∀ y, (E y ∨ ∃ c ∈ l, Desc s c y) → t1.nodes y = none) ∧
        (∀ y, ¬ (E y ∨ ∃ c ∈ l, Desc s c y) → t1.nodes y = s.nodes y) := by
  intro l
  induction l with
  | nil =>
    intro t E hE hnE htr _ _
    refine ⟨t, rfl, htr, ?_, ?_⟩
    · intro y hy
      rcases hy with hy | ⟨c, hc, _⟩
      · exact hE y hy
      · cases hc
    · intro y hy
      exact hnE y (fun h => hy (Or.inl h))
  | cons c cs ihl =>
    intro t E hE hnE htr hl hpw
    obtain ⟨hlt, hfuel, hdis⟩ := hl c (List.mem_cons_self c cs)
    have hag : ∀ y, Desc s c y → t.nodes y = s.nodes y := fun y hy => hnE y (hdis y hy)
    have hiff := Desc.agree hag
    obtain ⟨t2, hd, htr2, hnone, hsame⟩ := ih t c (hlt.agree_tree hag) hfuel
    have hpw2 := List.pairwise_cons.mp hpw
    obtain ⟨t1, hf, htr1, h1, h2⟩ := ihl t2 (fun y => E y ∨ Desc s c y)
      (by
        intro y hy
        by_cases hdy : Desc t c y
        · exact hnone y hdy
        · rw [hsame y hdy]
          rcases hy with hy | hy
          · exact hE y hy
          · exact absurd ((hiff y).mpr hy) hdy)
      (by
        intro y hy
        have hdy : ¬ Desc t c y := fun h => hy (Or.inr ((hiff y).mp h))
        rw [hsame y hdy]
        exact hnE y (fun h => hy (Or.inl h)))
      (htr2.trans htr)
      (by
        intro c1 hc1
        obtain ⟨a1, a2, a3⟩ := hl c1 (List.mem_cons_of_mem c hc1)
        refine ⟨a1, a2, ?_⟩
        intro y hy hE1
        rcases hE1 with hE1 | hE1
        · exact a3 y hy hE1
        · exact hpw2.1 c1 hc1 y hE1 hy)
      hpw2.2
    refine ⟨t1, ?_, htr1, ?_, ?_⟩
    · simp only [forEach, hd, Outcome.bind_ok]
      exact hf
    · intro y hy
      apply h1
      rcases hy with hy | ⟨c1, hc1, hy⟩
      · exact Or.inl (Or.inl hy)
      · rcases List.mem_cons.mp hc1 with rfl | hc1
        · exact Or.inl (Or.inr hy)
        · exact Or.inr ⟨c1, hc1, hy⟩
    · intro y hy
      apply h2
      intro h
      apply hy
      rcases h with (h | h) | ⟨c1, hc1, h⟩
      · exact Or.inl h
      · exact Or.inr ⟨c, List.mem_cons_self c cs, h⟩
      · exact Or.inr ⟨c1, List.mem_cons_of_mem c hc1, h⟩

/-- The children of a node of a tree have pairwise disjoint subtrees. -/
theorem LocalTree.children_pairwise {s : State} {ht : Nat → Nat} {x : Nat} {xn : Node}
    (h : LocalTree s ht x) (hx : s.nodes x = some xn) :
    ∀ l : List Nat, l.Sublist xn.children →
      l.Pairwise (fun a b => ∀ y, Desc s a y → ¬ Desc s b y) := by
  obtain ⟨xn1, e1, hnd, _⟩ := h x Desc.self
  rw [hx] at e1
  cases e1
  intro l hl
  have hnd1 : l.Nodup := hl.nodup hnd
  refine (List.pairwise_iff_forall_sublist.mpr ?_)
  intro a b hab y hya hyb
  have hsub : [a, b].Sublist xn.children := hab.trans hl
  have ha : a ∈ xn.children := hsub.subset (by simp)
  have hb : b ∈ xn.children := hsub.subset (by simp)
  have hne : a ≠ b := by
    have := hab.nodup hnd1
    simpa using this
  exact h.siblings_disjoint hx ha hb hne y hya hyb

/-- Deleting a node of a finite tree, with a budget exceeding its height,
returns normally having freed exactly the node and its descendants. -/
theorem destroy_spec (ht : Nat → Nat) :
    ∀ (fuel : Nat) (s : State) (x : Nat), LocalTree s ht x → ht x < fuel →
      ∃ s1, destroy fuel s x = .ok () s1 ∧ s1.trace = s.trace ∧
        (∀ y, Desc s x y → s1.nodes y = none) ∧ (∀ y, ¬ Desc s x y → s1.nodes y = s.nodes y) := by
  intro fuel
  induction fuel with
  | zero => intro s x _ h; omega
  | succ fuel ih =>
    intro s x hlt hfuel
    obtain ⟨xn, hx, hnd, hch⟩ := hlt x Desc.self
    obtain ⟨t1, hf, htr, h1, h2⟩ := forEach_destroy_spec s ht fuel (ih) xn.children s
      (fun _ => False) (fun _ h => h.elim) (fun _ _ => rfl) rfl
      (by
        intro c hc
        refine ⟨hlt.sub (Desc.child x c xn Desc.self hx hc), ?_, fun _ _ h => h⟩
        have := (hch c hc).1
        omega)
      (hlt.children_pairwise hx _ (List.Sublist.refl _))
    refine ⟨t1.erase x, ?_, ?_, ?_, ?_⟩
    · simp only [destroy, hx, hf, Outcome.bind_ok]
    · simpa using htr
    · intro y hy
      by_cases hyx : y = x
      · simp [hyx]
      · simp only [State.erase_nodes, hyx, if_false]
        apply h1
        right
        rcases hy.first_step with e | ⟨xn1, c, e1, hc, hd⟩
        · exact absurd e.symm hyx
        · rw [hx] at e1
          cases e1
          exact ⟨c, hc, hd⟩
    · intro y hy
      have hyx : y ≠ x := fun e => hy (e ▸ Desc.self)
      simp only [State.erase_nodes, hyx, if_false]
      apply h2
      intro h
      rcases h with h | ⟨c, hc, hd⟩
      · exact h
      · exact hy ((Desc.child x c xn Desc.self hx hc).desc_trans hd)

/-- The first loop of `removeChildrenStartingAt` skips the children that
precede `c`. -/
theorem removeLoop_skip (fuel : Nat) (c : Nat) :
    ∀ (pre rest : List Nat) (s : State), c ∉ pre →
      removeLoop fuel s (pre ++ rest) (some c) 0 = removeLoop fuel s rest (some c) 0 := by
  intro pre
  induction pre with
  | nil => intro rest s _; rfl
  | cons i pre ih =>
    intro rest s hc
    have hi : c ≠ i := fun e => hc (e ▸ List.mem_cons_self _ _)
    have hc1 : c ∉ pre := fun h => hc (List.mem_cons_of_mem _ h)
    simp only [List.cons_append, removeLoop]
    rw [if_neg (by simp [hi])]
    exact ih rest s hc1

/-- Once a child has been found, the first loop of `removeChildrenStartingAt`
deletes every remaining element and counts it. -/
theorem removeLoop_all (fuel : Nat) :
    ∀ (l : List Nat) (s : State) (child : Option Nat) (k : Nat),
      (0 < k ∨ ∃ tl, l = [] ∨ (∃ hd, l = hd :: tl ∧ child = some hd)) →
      removeLoop fuel s l child k =
        (forEach (destroy fuel) s l).bind fun _ s1 => .ok (k + l.length) s1 := by
  intro l
  induction l with
  | nil => intro s child k _; rfl
  | cons i rest ih =>
    intro s child k h
    have hcond : child = some i ∨ k > 0 := by
      rcases h with h | ⟨tl, h | ⟨hd, h1, h2⟩⟩
      · exact Or.inr h
      · cases h
      · cases h1
        exact Or.inl h2
    simp only [removeLoop, forEach]
    rw [if_pos hcond]
    cases hd : destroy fuel s i with
    | ok u s1 =>
      simp only [Outcome.bind_ok]
      rw [ih s1 none (k + 1) (Or.inl (Nat.succ_pos k))]
      simp only [List.length_cons]
      have : k + 1 + rest.length = k + (rest.length + 1) := by omega
      rw [this]
    | thrown t s1 => rfl
    | undefined => rfl
    | outOfFuel => rfl

/-- Popping as many elements as the tail has leaves the front. -/
theorem popBack_append : ∀ (k : Nat) (pre post : List Nat), post.length = k →
    popBack k (pre ++ post) = pre := by
  intro k
  induction k with
  | zero =>
    intro pre post h
    have : post = [] := List.length_eq_zero.mp h
    subst this
    simp [popBack]
  | succ k ih =>
    intro pre post h
    have hne : post ≠ [] := by
      intro e
      subst e
      simp at h
    simp only [popBack]
    rw [List.dropLast_append_of_ne_nil _ hne]
    apply ih
    simp [h]

/-- The effect of `removeChildrenStartingAt` on a block `b` of a finite tree
whose children are `pre ++ c :: post`: with enough budget it returns normally,
`b` keeps exactly the children `pre`, the subtrees of `c` and of the later
siblings are freed, and nothing else changes. -/
theorem removeChildrenStartingAt_spec (ht : Nat → Nat) (fuel : Nat) (s : State) (b c : Nat)
    (bn : Node) (pre post : List Nat) (hlt : LocalTree s ht b) (hb : s.nodes b = some bn)
    (hch : bn.children = pre ++ c :: post) (hfuel : ht b ≤ fuel) :
    ∃ s1, removeChildrenStartingAt fuel s b c = .ok () s1 ∧ s1.trace = s.trace ∧
      s1.nodes b = some { bn with children := pre } ∧
      (∀ y, (∃ z ∈ c :: post, Desc s z y) → s1.nodes y = none) ∧
      (∀ y, y ≠ b → ¬ (∃ z ∈ c :: post, Desc s z y) → s1.nodes y = s.nodes y) := by
  obtain ⟨bn1, e1, hnd, hkids⟩ := hlt b Desc.self
  rw [hb] at e1
  cases e1
  have hcpre : c ∉ pre := by
    rw [hch] at hnd
    have := (List.nodup_append.mp hnd).2.2
    intro h
    exact this h (List.mem_cons_self c post) 
  have hmem : ∀ z ∈ c :: post, z ∈ bn.children := by
    intro z hz
    rw [hch]
    exact List.mem_append_right _ hz
  obtain ⟨t1, hf, htr, h1, h2⟩ := forEach_destroy_spec s ht fuel
    (fun t x h1 h2 => destroy_spec ht fuel t x h1 h2) (c :: post) s
    (fun _ => False) (fun _ h => h.elim) (fun _ _ => rfl) rfl
    (by
      intro z hz
      refine ⟨hlt.sub (Desc.child b z bn Desc.self hb (hmem z hz)), ?_, fun _ _ h => h⟩
      have := (hkids z (hmem z hz)).1
      omega)
    (hlt.children_pairwise hb _ (by rw [hch]; exact List.sublist_append_right _ _))
  have hbout : ¬ (False ∨ ∃ z ∈ c :: post, Desc s z b) := by
    rintro (h | ⟨z, hz, hd⟩)
    · exact h
    · have h3 := (hkids z (hmem z hz)).1
      have h4 := (hlt.sub (Desc.child b z bn Desc.self hb (hmem z hz))).ht_le hd
      omega
  have hbt : t1.nodes b = some bn := by rw [h2 b hbout]; exact hb
  refine ⟨t1.upd b fun m => { m with children := popBack (post.length + 1) m.children },
    ?_, ?_, ?_, ?_, ?_⟩
  · simp only [removeChildrenStartingAt, hb]
    rw [hch, removeLoop_skip fuel c pre (c :: post) s hcpre,
      removeLoop_all fuel (c :: post) s (some c) 0 (Or.inr ⟨post, Or.inr ⟨c, rfl, rfl⟩⟩), hf]
    simp
  · simpa using htr
  · simp only [State.upd_nodes, if_true, hbt, Option.map_some']
    rw [hch, popBack_append (post.length + 1) pre (c :: post) (by simp)]
  · intro y hy
    have hyb : y ≠ b := by
      rintro rfl
      exact hbout (Or.inr hy)
    simp only [State.upd_nodes, hyb, if_false]
    exact h1 y (Or.inr hy)
  · intro y hyb hy
    simp only [State.upd_nodes, hyb, if_false]
    apply h2
    rintro (h | h)
    · exact h
    · exact hy h

/-! ## C7, C8: error recovery -/

/-- Every subtree of a finite tree is a finite tree. -/
theorem IsTree.localTree {s : State} (h : IsTree s) (ht : Nat → Nat)
    (hht : ∀ p pn c, s.nodes p = some pn → c ∈ pn.children → ht c < ht p)
    (x : Nat) (xn : Node) (hx : s.nodes x = some xn) : LocalTree s ht x := by
  intro p hp
  have hlive : ∃ pn, s.nodes p = some pn := by
    rcases hp.last_step with rfl | ⟨q, qn, _, hq, hpq⟩
    · exact ⟨xn, hx⟩
    · obtain ⟨pn, h1, _⟩ := h.down q qn p hq hpq
      exact ⟨pn, h1⟩
  obtain ⟨pn, hpn⟩ := hlive
  refine ⟨pn, hpn, h.nodup p pn hpn, ?_⟩
  intro c hc
  exact ⟨hht p pn c hpn hc, h.down p pn c hpn hc⟩

/-- The walk of `recoverFromError` follows a climb through non-Block parents,
one unit of budget per step. -/
theorem recoverFromError_climb (s : State) (e : String) {x c : Nat} (h : Climb s x c) :
    ∃ k, ∀ fuel, recoverFromError (fuel + k) s e (some x) = recoverFromError fuel s e (some c) := by
  induction h with
  | here y => exact ⟨0, fun _ => rfl⟩
  | step y p c nd pn hy hpar hp hblock _ ih =>
    obtain ⟨k, hk⟩ := ih
    refine ⟨k + 1, ?_⟩
    intro fuel
    rw [← hk fuel]
    have : fuel + (k + 1) = (fuel + k) + 1 := by omega
    rw [this]
    simp only [recoverFromError, hy, hpar, hp, hblock]
    rfl

/-- At the end of the parent chain `recoverFromError` resumes at the Root, or
fails when the chain does not end at a root node. -/
theorem recoverFromError_top (fuel : Nat) (s : State) (e : String) (x : Nat) (xn : Node)
    (hx : s.nodes x = some xn) (hpar : xn.parent = none) :
    recoverFromError (fuel + 1) s e (some x) =
      if xn.kind.isRootNode then .thrown (.recoveredError e x) s
      else .thrown (.evalError ("Cannot recover from error '" ++ e ++ "': unknown error")) s := by
  simp only [recoverFromError, hx, hpar]
  cases xn.kind.isRootNode <;> rfl

/-- Below a Block of a finite tree, `recoverFromError` truncates the Block at
the child the walk arrived through and resumes at the Block. -/
theorem recoverFromError_block (ht : Nat → Nat) (s : State) (e : String) (x c b : Nat)
    (cn bn : Node) (pre post : List Nat) (hclimb : Climb s x c) (hc : s.nodes c = some cn)
    (hpar : cn.parent = some b) (hb : s.nodes b = some bn) (hblock : bn.kind.isBlock = true)
    (hlt : LocalTree s ht b) (hch : bn.children = pre ++ c :: post) :
    ∃ F, ∀ fuel, F ≤ fuel → ∃ s1,
      recoverFromError fuel s e (some x) = .thrown (.recoveredError e b) s1 ∧
      s1.trace = s.trace ∧ s1.nodes b = some { bn with children := pre } ∧
      (∀ y, (∃ z ∈ c :: post, Desc s z y) → s1.nodes y = none) ∧
      (∀ y, y ≠ b → ¬ (∃ z ∈ c :: post, Desc s z y) → s1.nodes y = s.nodes y) := by
  obtain ⟨k, hk⟩ := recoverFromError_climb s e hclimb
  refine ⟨ht b + 1 + k, ?_⟩
  intro fuel hfuel
  obtain ⟨f, rfl⟩ : ∃ f, fuel = (f + 1) + k := ⟨fuel - k - 1, by omega⟩
  obtain ⟨s1, h1, h2, h3, h4, h5⟩ :=
    removeChildrenStartingAt_spec ht f s b c bn pre post hlt hb hch (by omega)
  refine ⟨s1, ?_, h2, h3, h4, h5⟩
  rw [hk (f + 1)]
  simp only [recoverFromError, hc, hpar, hb, hblock, h1]
  rfl

/-- From any node of a finite tree the walk up reaches either a node without
parent or a child of a Block, passing only non-Block parents. -/
theorem IsTree.climb_total {s : State} (h : IsTree s) :
    ∀ (x : Nat) (xn : Node), s.nodes x = some xn →
      (∃ top tn, Climb s x top ∧ s.nodes top = some tn ∧ tn.parent = none) ∨
      (∃ c cn b bn, Climb s x c ∧ s.nodes c = some cn ∧ cn.parent = some b ∧
        s.nodes b = some bn ∧ bn.kind.isBlock = true) := by
  obtain ⟨d, hd⟩ := h.depth
  have key : ∀ (n x : Nat), d x = n → ∀ xn : Node, s.nodes x = some xn →
      (∃ top tn, Climb s x top ∧ s.nodes top = some tn ∧ tn.parent = none) ∨
      (∃ c cn b bn, Climb s x c ∧ s.nodes c = some cn ∧ cn.parent = some b ∧
        s.nodes b = some bn ∧ bn.kind.isBlock = true) := by
    intro n
    induction n using Nat.strong_induction_on with
    | _ n ih =>
      intro x hn xn hx
      cases hpar : xn.parent with
      | none => exact Or.inl ⟨x, xn, Climb.here x, hx, hpar⟩
      | some p =>
        obtain ⟨pn, hp, _⟩ := h.up x xn p hx hpar
        by_cases hblock : pn.kind.isBlock = true
        · exact Or.inr ⟨x, xn, p, pn, Climb.here x, hx, hpar, hp, hblock⟩
        · have hlt : d p < n := by
            have := hd x xn p hx hpar
            omega
          have hb : pn.kind.isBlock = false := by simpa using hblock
          rcases ih (d p) hlt p rfl pn hp with ⟨top, tn, h1, h2, h3⟩ | ⟨c, cn, b, bn, h1, h2⟩
          · exact Or.inl ⟨top, tn, Climb.step x p top xn pn hx hpar hp hb h1, h2, h3⟩
          · exact Or.inr ⟨c, cn, b, bn, Climb.step x p c xn pn hx hpar hp hb h1, h2⟩
  exact fun x xn hx => key (d x) x rfl xn hx

/-- `recoverFromError` never returns normally. -/
theorem recoverFromError_ne_ok :
    ∀ (fuel : Nat) (s : State) (e : String) (x : Option Nat) (u : Unit) (s1 : State),
      recoverFromError fuel s e x ≠ .ok u s1 := by
  intro fuel
  induction fuel with
  | zero => intro s e x u s1 h; simp [recoverFromError] at h
  | succ fuel ih =>
    intro s e x u s1 h
    cases x with
    | none => simp [recoverFromError] at h
    | some x =>
      simp only [recoverFromError] at h
      split at h
      · simp at h
      · split at h
        · split at h <;> simp at h
        · split at h
          · simp at h
          · split at h
            · exact ih _ _ _ _ _ h
            · split at h <;> simp at h

/-- The sample tree with a Block is a finite tree. -/
theorem blockTree_isTree : IsTree blockTree where
  up := by
    intro x nd p h1 h2
    rcases x with _ | _ | _ | _ | _ | x <;> simp [blockTree] at h1 <;> subst h1 <;>
      simp [newNode] at h2 <;> subst h2 <;> simp [blockTree]
  down := by
    intro p pn c h1 h2
    rcases p with _ | _ | _ | _ | _ | p <;> simp [blockTree] at h1 <;> subst h1 <;>
      simp [newNode] at h2 <;> (obtain rfl | rfl := h2) <;> simp [blockTree, newNode]
  nodup := by
    intro p pn h1
    rcases p with _ | _ | _ | _ | _ | p <;> simp [blockTree] at h1 <;> subst h1 <;>
      simp [newNode]
  depth := by
    refine ⟨fun x => match x with | 0 => 0 | 1 => 1 | 2 => 2 | 3 => 2 | 4 => 3 | _ => 0, ?_⟩
    intro x nd p h1 h2
    rcases x with _ | _ | _ | _ | _ | x <;> simp [blockTree] at h1 <;> subst h1 <;>
      simp [newNode] at h2 <;> subst h2 <;> simp
  height := by
    refine ⟨fun x => match x with | 0 => 3 | 1 => 2 | 2 => 0 | 3 => 1 | 4 => 0 | _ => 0, ?_⟩
    intro p pn c h1 h2
    rcases p with _ | _ | _ | _ | _ | p <;> simp [blockTree] at h1 <;> subst h1 <;>
      simp [newNode] at h2 <;> (obtain rfl | rfl := h2) <;> simp

/-- The sample tree without a Block is a finite tree. -/
theorem commandTree_isTree : IsTree commandTree where
  up := by
    intro x nd p h1 h2
    rcases x with _ | _ | _ | x <;> simp [commandTree] at h1 <;> subst h1 <;>
      simp [newNode] at h2 <;> subst h2 <;> simp [commandTree]
  down := by
    intro p pn c h1 h2
    rcases p with _ | _ | _ | p <;> simp [commandTree] at h1 <;> subst h1 <;>
      simp [newNode] at h2 <;> (obtain rfl | rfl := h2) <;> simp [commandTree, newNode]
  nodup := by
    intro p pn h1
    rcases p with _ | _ | _ | p <;> simp [commandTree] at h1 <;> subst h1 <;>
      simp [newNode]
  depth := by
    refine ⟨fun x => match x with | 0 => 0 | 1 => 1 | 2 => 2 | _ => 0, ?_⟩
    intro x nd p h1 h2
    rcases x with _ | _ | _ | x <;> simp [commandTree] at h1 <;> subst h1 <;>
      simp [newNode] at h2 <;> subst h2 <;> simp
  height := by
    refine ⟨fun x => match x with | 0 => 2 | 1 => 1 | 2 => 0 | _ => 0, ?_⟩
    intro p pn c h1 h2
    rcases p with _ | _ | _ | p <;> simp [commandTree] at h1 <;> subst h1 <;>
      simp [newNode] at h2 <;> (obtain rfl | rfl := h2) <;> simp

/-- C7. In a finite tree, let the walk up from the problem node `x` through
non-Block parents arrive at `c`, whose parent `b` is a Block (so `b` is the
nearest Block among the strict ancestors of `x`, and `c` is the child of `b`
that is `x` or an ancestor of it). Then, with enough budget, `recoverFromError`
throws `RecoveredError` carrying the original error with `b` as resumption
point; afterwards the children of `b` are exactly those that preceded `c`, in
order, the subtrees of `c` and of its later siblings are freed, every other
node is unchanged, and no hook has run. -/
theorem recoverFromError_localizes (s : State) (e : String) (x c b : Nat) (cn bn : Node)
    (htree : IsTree s) (hclimb : Climb s x c) (hc : s.nodes c = some cn)
    (hpar : cn.parent = some b) (hb : s.nodes b = some bn) (hblock : bn.kind.isBlock = true) :
    ∃ pre post, bn.children = pre ++ c :: post ∧
      ∃ F, ∀ fuel, F ≤ fuel → ∃ s1,
        recoverFromError fuel s e (some x) = .thrown (.recoveredError e b) s1 ∧
        s1.trace = s.trace ∧ s1.nodes b = some { bn with children := pre } ∧
        (∀ y, (∃ z ∈ c :: post, Desc s z y) → s1.nodes y = none) ∧
        (∀ y, y ≠ b → ¬ (∃ z ∈ c :: post, Desc s z y) → s1.nodes y = s.nodes y) := by
  obtain ⟨bn1, hb1, hmem⟩ := htree.up c cn b hc hpar
  rw [hb] at hb1
  cases hb1
  obtain ⟨pre, post, hch⟩ := List.append_of_mem hmem
  obtain ⟨ht, hht⟩ := htree.height
  exact ⟨pre, post, hch, recoverFromError_block ht s e x c b cn bn pre post hclimb hc hpar hb
    hblock (htree.localTree ht hht b bn hb) hch⟩

/-- C7, on the sample tree: the failure at operand 4 of the second statement
truncates Block 1 at that statement and resumes at Block 1. -/
theorem recoverFromError_localizes_witness :
    ∃ pre post, [2, 3] = pre ++ 3 :: post ∧
      ∃ F, ∀ fuel, F ≤ fuel → ∃ s1,
        recoverFromError fuel blockTree "boom" (some 4) = .thrown (.recoveredError "boom" 1) s1 ∧
        s1.trace = blockTree.trace ∧
        s1.nodes 1 = some { newNode (some 0) "\x7b" "" .Block true false with
          parent := some 0, children := pre } ∧
        (∀ y, (∃ z ∈ 3 :: post, Desc blockTree z y) → s1.nodes y = none) ∧
        (∀ y, y ≠ 1 → ¬ (∃ z ∈ 3 :: post, Desc blockTree z y) →
          s1.nodes y = blockTree.nodes y) :=
  recoverFromError_localizes blockTree "boom" 4 3 1
    { newNode (some 0) "PLUS" "" .Operator false false with parent := some 1, children := [4] }
    { newNode (some 0) "\x7b" "" .Block true false with parent := some 0, children := [2, 3] }
    blockTree_isTree
    (Climb.step 4 3 3 _ _ rfl rfl rfl rfl (Climb.here 3)) rfl rfl rfl rfl

/-- C8. `recoverFromError` never returns normally; in a finite tree, with
enough budget, the call on any live problem node ends by throwing; and when the
walk up through non-Block parents ends at a node `top` without parent, it
throws `RecoveredError` with `top` as resumption point and the state unchanged
if `top` is the Root node, and otherwise an `EvalError` whose message wraps the
original one, as it does for a null problem node. -/
theorem recoverFromError_raises (s : State) (e : String) :
    (∀ fuel x u s1, recoverFromError fuel s e x ≠ .ok u s1) ∧
    (IsTree s → ∀ x xn, s.nodes x = some xn →
      ∃ F, ∀ fuel, F ≤ fuel → ∃ t s1, recoverFromError fuel s e (some x) = .thrown t s1) ∧
    (∀ x top tn, Climb s x top → s.nodes top = some tn → tn.parent = none →
      ∃ F, ∀ fuel, F ≤ fuel → recoverFromError fuel s e (some x) =
        if tn.kind.isRootNode then .thrown (.recoveredError e top) s
        else .thrown (.evalError ("Cannot recover from error '" ++ e ++ "': unknown error")) s) ∧
    (∀ fuel, recoverFromError (fuel + 1) s e none =
      .thrown (.evalError ("Cannot recover from error '" ++ e ++ "': unknown error")) s) := by
  have htop : ∀ x top tn, Climb s x top → s.nodes top = some tn → tn.parent = none →
      ∃ F, ∀ fuel, F ≤ fuel → recoverFromError fuel s e (some x) =
        if tn.kind.isRootNode then .thrown (.recoveredError e top) s
        else .thrown (.evalError ("Cannot recover from error '" ++ e ++ "': unknown error")) s := by
    intro x top tn hclimb htn hpar
    obtain ⟨k, hk⟩ := recoverFromError_climb s e hclimb
    refine ⟨1 + k, ?_⟩
    intro fuel hfuel
    obtain ⟨f, rfl⟩ : ∃ f, fuel = (f + 1) + k := ⟨fuel - k - 1, by omega⟩
    rw [hk (f + 1)]
    exact recoverFromError_top f s e top tn htn hpar
  refine ⟨fun fuel x u s1 => recoverFromError_ne_ok fuel s e x u s1, ?_, htop, fun _ => rfl⟩
  intro htree x xn hx
  rcases htree.climb_total x xn hx with ⟨top, tn, h1, h2, h3⟩ | ⟨c, cn, b, bn, h1, h2, h3, h4, h5⟩
  · obtain ⟨F, hF⟩ := htop x top tn h1 h2 h3
    refine ⟨F, ?_⟩
    intro fuel hfuel
    rw [hF fuel hfuel]
    cases tn.kind.isRootNode
    · exact ⟨_, _, rfl⟩
    · exact ⟨_, _, rfl⟩
  · obtain ⟨bn1, hb1, hmem⟩ := htree.up c cn b h2 h3
    rw [h4] at hb1
    cases hb1
    obtain ⟨pre, post, hch⟩ := List.append_of_mem hmem
    obtain ⟨ht, hht⟩ := htree.height
    obtain ⟨F, hF⟩ := recoverFromError_block ht s e x c b cn bn pre post h1 h2 h3 h4 h5
      (htree.localTree ht hht b bn h4) hch
    refine ⟨F, ?_⟩
    intro fuel hfuel
    obtain ⟨s1, hs1, _⟩ := hF fuel hfuel
    exact ⟨_, s1, hs1⟩

/-- C8, on the sample tree without a Block: from the fragment 2 the walk ends
at the Root, which becomes the resumption point, the tree being unchanged. -/
theorem recoverFromError_raises_witness :
    (∃ F, ∀ fuel, F ≤ fuel → ∃ t s1,
      recoverFromError fuel commandTree "boom" (some 2) = .thrown t s1) ∧
    (∃ F, ∀ fuel, F ≤ fuel → recoverFromError fuel commandTree "boom" (some 2) =
      .thrown (.recoveredError "boom" 0) commandTree) :=
  ⟨(recoverFromError_raises commandTree "boom").2.1 commandTree_isTree 2 _ rfl,
   (recoverFromError_raises commandTree "boom").2.2.1 2 0
     { newNode none "root" "" .RootNode false false with children := [1] }
     (Climb.step 2 1 0 _ _ rfl rfl rfl rfl (Climb.step 1 0 0 _ _ rfl rfl rfl rfl (Climb.here 0)))
     rfl rfl⟩

/-! ## Bottom-up setup -/

theorem markSetup_idem (nd : Node) : markSetup (markSetup nd) = markSetup nd := by
  unfold markSetup
  by_cases h : nd.isSetup = true <;> simp [h]

@[simp] theorem markSetup_parent (nd : Node) : (markSetup nd).parent = nd.parent := by
  unfold markSetup
  split <;> rfl

@[simp] theorem markSetup_children (nd : Node) : (markSetup nd).children = nd.children := by
  unfold markSetup
  split <;> rfl

@[simp] theorem markSetup_kind (nd : Node) : (markSetup nd).kind = nd.kind := by
  unfold markSetup
  split <;> rfl

@[simp] theorem markSetup_isOpen (nd : Node) : (markSetup nd).isOpen = nd.isOpen := by
  unfold markSetup
  split <;> rfl

@[simp] theorem markSetup_isIrrelevant (nd : Node) :
    (markSetup nd).isIrrelevant = nd.isIrrelevant := by
  unfold markSetup
  split <;> rfl

@[simp] theorem markSetup_name (nd : Node) : (markSetup nd).name = nd.name := by
  unfold markSetup
  split <;> rfl

@[simp] theorem markSetup_value (nd : Node) : (markSetup nd).value = nd.value := by
  unfold markSetup
  split <;> rfl

@[simp] theorem markSetup_isInit (nd : Node) : (markSetup nd).isInit = nd.isInit := by
  unfold markSetup
  split <;> rfl

@[simp] theorem markSetup_isSetup (nd : Node) : (markSetup nd).isSetup = true := by
  unfold markSetup
  split
  · assumption
  · rfl

theorem markSetup_isAnalyzed (nd : Node) (h : nd.isSetup = true → nd.isAnalyzed = true) :
    (markSetup nd).isAnalyzed = true := by
  unfold markSetup
  split
  · rename_i hs
    exact h hs
  · rfl

/-- A normally returning `analyzeNode` leaves every node record as it was. -/
theorem analyzeNode_ok_nodes {fuel : Nat} {ext : Ext} {s s1 : State} {x : Nat}
    (h : analyzeNode fuel ext s x = .ok () s1) : s1.nodes = s.nodes := by
  unfold analyzeNode at h
  split at h
  · simp at h
  · split at h
    · simp at h
      rw [← h]
    · split at h
      · simp at h
      · split at h
        · split at h
          · simp at h
          · simp at h
            rw [← h]
            rfl
        · simp at h
          rw [← h]

/-- A normally returning `setupNode` changes only the record of its node, as
`markSetup` describes. -/
theorem setupNode_ok_nodes {fuel : Nat} {ext : Ext} {s s1 : State} {x : Nat}
    (h : setupNode fuel ext s x = .ok () s1) :
    ∀ y, s1.nodes y = if y = x then (s.nodes y).map markSetup else s.nodes y := by
  unfold setupNode at h
  split at h
  · simp at h
  · rename_i nd hx
    split at h
    · rename_i hs
      simp at h
      subst h
      intro y
      by_cases hy : y = x
      · subst hy
        simp [hx, markSetup, hs]
      · simp [hy]
    · rename_i hs
      split at h
      · simp at h
      · split at h
        · simp at h
        · split at h
          · simp at h
          · obtain ⟨_, s2, h1, h2⟩ := Outcome.bind_eq_ok h
            have h3 := analyzeNode_ok_nodes h1
            simp at h2
            subst h2
            intro y
            by_cases hy : y = x
            · subst hy
              simp [h3, hx, markSetup, hs]
            · simp [hy, h3]

/-- With hooks that return normally, `setupNode` returns normally on a node
that is set up already, or is initialized and has a parent. -/
theorem setupNode_succeeds (fuel : Nat) (ext : Ext) (s : State) (x : Nat) (nd : Node)
    (hx : s.nodes x = some nd)
    (hready : nd.isSetup = true ∨ (nd.isInit = true ∧ nd.parent ≠ none))
    (hsetup : ∀ st y, ext.setup st y = none) (han : ∀ st y, ext.analyze st y = none) :
    ∃ s1, setupNode fuel ext s x = .ok () s1 := by
  unfold setupNode
  simp only [hx]
  by_cases hs : nd.isSetup = true
  · exact ⟨s, by simp [hs]⟩
  · rcases hready with h | ⟨hi, hp⟩
    · exact absurd h hs
    · simp only [hs, hi, hp, hsetup]
      simp only [analyzeNode, State.upd_nodes, State.log_nodes, hx, if_true, Option.map_some', han]
      by_cases ha : nd.isAnalyzed = true
      · simp [ha]
      · by_cases hst : ext.isStatement nd.kind = true
        · simp [ha, hi, hst]
        · simp [ha, hi, hst]

/-- A normally returning loop of `setupNode` over `l` marks exactly the nodes
of `l`. -/
theorem setupLoop_ok_nodes {fuel : Nat} {ext : Ext} :
    ∀ (l : List Nat) (s s1 : State), forEach (setupNode fuel ext) s l = .ok () s1 →
      ∀ y, s1.nodes y = if y ∈ l then (s.nodes y).map markSetup else s.nodes y := by
  intro l
  induction l with
  | nil =>
    intro s s1 h y
    simp [forEach] at h
    subst h
    simp
  | cons c cs ih =>
    intro s s1 h y
    simp only [forEach] at h
    obtain ⟨_, s2, h1, h2⟩ := Outcome.bind_eq_ok h
    have e1 := setupNode_ok_nodes h1
    have e2 := ih s2 s1 h2 y
    rw [e2, e1 y]
    by_cases hyc : y = c
    · subst hyc
      by_cases hy : y ∈ cs
      · cases hn : s.nodes y <;> simp [hy, hn, markSetup_idem]
      · simp [hy]
    · by_cases hy : y ∈ cs
      · simp [hy, hyc]
      · simp [hy, hyc]

/-- With hooks that return normally, the loop of `setupNode` returns normally
when every element is live and set up already, or initialized with a parent. -/
theorem setupLoop_succeeds (fuel : Nat) (ext : Ext)
    (hsetup : ∀ st y, ext.setup st y = none) (han : ∀ st y, ext.analyze st y = none) :
    ∀ (l : List Nat) (s : State),
      (∀ c ∈ l, ∃ nd, s.nodes c = some nd ∧
        (nd.isSetup = true ∨ (nd.isInit = true ∧ nd.parent ≠ none))) →
      ∃ s1, forEach (setupNode fuel ext) s l = .ok () s1 := by
  intro l
  induction l with
  | nil => intro s _; exact ⟨s, rfl⟩
  | cons c cs ih =>
    intro s h
    obtain ⟨nd, hc, hr⟩ := h c (List.mem_cons_self c cs)
    obtain ⟨s2, h2⟩ := setupNode_succeeds fuel ext s c nd hc hr hsetup han
    have e1 := setupNode_ok_nodes h2
    obtain ⟨s1, h1⟩ := ih s2 (by
      intro c1 hc1
      obtain ⟨nd1, hn1, hr1⟩ := h c1 (List.mem_cons_of_mem c hc1)
      rw [e1 c1]
      by_cases hcc : c1 = c
      · subst hcc
        refine ⟨markSetup nd1, by simp [hn1], Or.inl (by simp)⟩
      · exact ⟨nd1, by simp [hcc, hn1], hr1⟩)
    exact ⟨s1, by simp only [forEach, h2, Outcome.bind_ok]; exact h1⟩

/-- A normally returning `setupAsParent` marks exactly the node and its
children. -/
theorem setupAsParent_ok_nodes {fuel : Nat} {ext : Ext} {s s1 : State} {x : Nat} {xn : Node}
    (hx : s.nodes x = some xn) (h : setupAsParent fuel ext s x = .ok () s1) :
    Closed s s1 x xn.children := by
  unfold setupAsParent at h
  simp only [hx] at h
  obtain ⟨_, s2, h1, h2⟩ := Outcome.bind_eq_ok h
  have e1 := setupLoop_ok_nodes _ _ _ h1
  have e2 := setupNode_ok_nodes h2
  intro y
  rw [e2 y, e1 y]
  by_cases hyx : y = x
  · subst hyx
    by_cases hy : y ∈ xn.children
    · cases hn : s.nodes y <;> simp [hy, hn, markSetup_idem]
    · simp [hy]
  · simp [hyx]

/-- With hooks that return normally, `setupAsParent` returns normally on a
node that is initialized and has a parent, all of whose children are live and
initialized with a parent. -/
theorem setupAsParent_succeeds (fuel : Nat) (ext : Ext) (s : State) (x : Nat) (xn : Node)
    (hsetup : ∀ st y, ext.setup st y = none) (han : ∀ st y, ext.analyze st y = none)
    (hx : s.nodes x = some xn)
    (hready : nd_ready xn)
    (hkids : ∀ c ∈ xn.children, ∃ nd, s.nodes c = some nd ∧ nd_ready nd) :
    ∃ s1, setupAsParent fuel ext s x = .ok () s1 := by
  unfold setupAsParent
  simp only [hx]
  obtain ⟨s2, h2⟩ := setupLoop_succeeds fuel ext hsetup han xn.children s hkids
  have e1 := setupLoop_ok_nodes _ _ _ h2
  have hx2 : ∃ nd, s2.nodes x = some nd ∧ nd_ready nd := by
    rw [e1 x]
    by_cases hxc : x ∈ xn.children
    · exact ⟨markSetup xn, by simp [hxc, hx], Or.inl (by simp)⟩
    · exact ⟨xn, by simp [hxc, hx], hready⟩
  obtain ⟨nd, hn, hr⟩ := hx2
  obtain ⟨s1, h1⟩ := setupNode_succeeds fuel ext s2 x nd hn hr hsetup han
  exact ⟨s1, by simp only [h2, Outcome.bind_ok]; exact h1⟩

/-! ## Paren elision -/

/-- Deleting a node without children frees just that node. -/
theorem destroy_leaf (fuel : Nat) (s : State) (x : Nat) (nd : Node) (hx : s.nodes x = some nd)
    (hch : nd.children = []) :
    destroy fuel s x = if fuel = 0 then .outOfFuel else .ok () (s.erase x) := by
  cases fuel with
  | zero => rfl
  | succ fuel => simp [destroy, hx, hch, forEach]

/-- The re-parenting loop over live nodes returns normally and rewrites just
their parent links. -/
theorem reparent_spec (op : Nat) :
    ∀ (l : List Nat) (s : State), (∀ i ∈ l, ∃ nd, s.nodes i = some nd) →
      ∃ s1, reparent op s l = .ok () s1 ∧ s1.trace = s.trace ∧
        ∀ y, s1.nodes y =
          if y ∈ l then (s.nodes y).map fun m => { m with parent := some op } else s.nodes y := by
  intro l
  induction l with
  | nil =>
    intro s _
    exact ⟨s, rfl, rfl, by simp⟩
  | cons i rest ih =>
    intro s h
    obtain ⟨nd, hi⟩ := h i (List.mem_cons_self i rest)
    obtain ⟨s1, h1, h2, h3⟩ := ih (s.upd i fun m => { m with parent := some op }) (by
      intro j hj
      obtain ⟨nj, hnj⟩ := h j (List.mem_cons_of_mem i hj)
      by_cases hji : j = i
      · subst hji
        exact ⟨{ nj with parent := some op }, by simp [hnj]⟩
      · exact ⟨nj, by simp [hji, hnj]⟩)
    refine ⟨s1, ?_, by simpa using h2, ?_⟩
    · unfold reparent at h1 ⊢
      simp only [forEach, hi, Outcome.bind_ok]
      exact h1
    · intro y
      rw [h3 y]
      by_cases hyi : y = i
      · subst hyi
        by_cases hy : y ∈ rest
        · simp [hy, hi]
        · simp [hy, hi]
      · by_cases hy : y ∈ rest
        · simp [hy, hyi]
        · simp [hy, hyi]

/-- The pointer surgery of paren elision, on a paren `cur` with parent `par`,
first child `op` (itself without children) and further children `rest`, all
distinct and live: it returns `op`, having freed `cur`, put `op` in the place
of `cur` among the children of `par`, given `op` the children `rest` and the
parent `par`, and pointed the parent links of `rest` at `op`. -/
theorem promote_spec (s : State) (cur par op : Nat) (rest : List Nat) (c o pn : Node)
    (hc : s.nodes cur = some c) (hch : c.children = op :: rest) (hpar : c.parent = some par)
    (ho : s.nodes op = some o) (hoc : o.children = []) (hP : s.nodes par = some pn)
    (h1 : op ≠ cur) (h2 : par ≠ cur) (h3 : par ≠ op) (h4 : cur ∉ rest) (h5 : op ∉ rest)
    (h6 : par ∉ rest) (hrest : ∀ i ∈ rest, ∃ nd, s.nodes i = some nd) :
    ∃ s1, (∀ fuel, promote fuel s cur = if fuel = 0 then .outOfFuel else .ok op s1) ∧
      s1.trace = s.trace ∧
      ∀ y, s1.nodes y =
        if y = cur then none
        else if y = par then some { pn with children := replaceFirst cur op pn.children }
        else if y = op then some { o with parent := some par, children := rest }
        else if y ∈ rest then (s.nodes y).map fun m => { m with parent := some op }
        else s.nodes y := by
  have h1s : cur ≠ op := fun e => h1 e.symm
  have h2s : cur ≠ par := fun e => h2 e.symm
  have h3s : op ≠ par := fun e => h3 e.symm
  obtain ⟨s5, e1, e2, e3⟩ := reparent_spec op rest
    ((((s.upd cur fun m => { m with children := rest }).upd op
      fun m => { m with parent := c.parent }).upd op
      fun m => { m with children := rest }).upd cur fun m => { m with children := [] })
    (by
      intro i hi
      obtain ⟨nd, hn⟩ := hrest i hi
      have hic : i ≠ cur := fun e => h4 (e ▸ hi)
      have hio : i ≠ op := fun e => h5 (e ▸ hi)
      exact ⟨nd, by simp [hic, hio, hn]⟩)
  have e5op : s5.nodes op = some { o with parent := some par, children := rest } := by
    rw [e3 op]
    simp [h5, h1, h1s, ho, hc, hpar]
  have e5par : s5.nodes par = some pn := by
    rw [e3 par]
    simp [h6, h2, h3, hP]
  have e5cur : s5.nodes cur = some { c with children := [] } := by
    rw [e3 cur]
    simp [h4, h1s, hc]
  refine ⟨(s5.upd par fun m => { m with children := replaceFirst cur op m.children }).erase cur,
    ?_, by simpa using e2, ?_⟩
  · intro fuel
    unfold promote
    simp only [hc, hch, State.upd_nodes, h1, h1s, if_true, if_false, ho, Option.map_some',
      hoc, List.length_nil, ne_eq, not_true_eq_false, e1, Outcome.bind_ok, e5op,
      Option.some_bind, e5par]
    rw [destroy_leaf fuel _ cur { c with children := [] } (by simp [h2s, e5cur]) rfl]
    cases fuel <;> simp
  · intro y
    by_cases hy1 : y = cur
    · simp [hy1]
    · by_cases hy2 : y = par
      · subst hy2
        simp [hy1, e5par]
      · by_cases hy3 : y = op
        · subst hy3
          simp [hy1, hy2, e5op]
        · simp only [State.erase_nodes, State.upd_nodes, hy1, hy2, hy3, if_false]
          rw [e3 y]
          by_cases hy4 : y ∈ rest
          · simp [hy4, hy1, hy3]
          · simp [hy4, hy1, hy3]

/-! ## Well-formedness is preserved by insertion -/

theorem OnPath.path_step {s : State} {x y : Nat} (h : OnPath s x y) :
    x = y ∨ ∃ nd p, s.nodes y = some nd ∧ nd.parent = some p ∧ OnPath s x p := by
  cases h with
  | here => exact Or.inl rfl
  | up y p nd h1 h2 h3 => exact Or.inr ⟨nd, p, h1, h2, h3⟩

/-- A path of parent links survives in any state that keeps the parent links
of the nodes at or above its lower end. -/
theorem OnPath.transfer {s s1 : State} {x : Nat} (d : Nat → Nat)
    (hd : ∀ x nd p, s.nodes x = some nd → nd.parent = some p → d p < d x) :
    ∀ y, OnPath s x y →
      (∀ w nd p, d w ≤ d y → s.nodes w = some nd → nd.parent = some p →
        ∃ nd1, s1.nodes w = some nd1 ∧ nd1.parent = some p) →
      OnPath s1 x y := by
  intro y h
  induction h with
  | here => exact fun _ => OnPath.here
  | up y p nd h1 h2 _ ih =>
    intro hkeep
    obtain ⟨nd1, e1, e2⟩ := hkeep y nd p (Nat.le_refl _) h1 h2
    have hlt := hd y nd p h1 h2
    exact OnPath.up y p nd1 e1 e2
      (ih (fun w nw q hw => hkeep w nw q (by omega)))

/-- Attaching a fresh node `n` with final record `nd1` under the focus keeps
the tree well-formed; the new focus `f` is `n`, or stays `cur` when `n` is not
a Brace. -/
theorem WF.attach {s s1 : State} {r cur n f : Nat} {nd1 : Node} (h : WF s r cur)
    (hn : s.nodes n = none) (hat : Attached s s1 cur n nd1)
    (hpar : nd1.parent = some cur) (hkids : nd1.children = []) (hinit : nd1.isInit = true)
    (han : nd1.isSetup = true → nd1.isAnalyzed = true)
    (hopen : nd1.kind.isBrace = true → nd1.isOpen = true)
    (hf : f = n ∨ (f = cur ∧ nd1.kind.isBrace = false)) : WF s1 r f := by
  obtain ⟨c, hc⟩ := h.focus
  have hcn : cur ≠ n := by
    rintro rfl
    rw [hn] at hc
    cases hc
  have e_n : s1.nodes n = some nd1 := by rw [hat n]; simp
  have e_cur : s1.nodes cur = some { c with children := c.children ++ [n] } := by
    rw [hat cur]; simp [hcn, hc]
  have old : ∀ y nd, s.nodes y = some nd → y ≠ n ∧ ∃ nd1, s1.nodes y = some nd1 ∧
      nd1.parent = nd.parent ∧ nd1.kind = nd.kind ∧ nd1.isOpen = nd.isOpen ∧
      nd1.isIrrelevant = nd.isIrrelevant ∧ nd1.isInit = nd.isInit ∧
      nd1.isSetup = nd.isSetup ∧ nd1.isAnalyzed = nd.isAnalyzed ∧
      (∀ z, z ∈ nd.children → z ∈ nd1.children) := by
    intro y nd hy
    have hyn : y ≠ n := by
      rintro rfl
      rw [hn] at hy
      cases hy
    refine ⟨hyn, ?_⟩
    by_cases hyc : y = cur
    · subst hyc
      rw [hc] at hy
      cases hy
      exact ⟨_, e_cur, rfl, rfl, rfl, rfl, rfl, rfl, rfl, fun z hz => List.mem_append_left _ hz⟩
    · exact ⟨nd, by rw [hat y]; simp [hyn, hyc, hy], rfl, rfl, rfl, rfl, rfl, rfl, rfl,
        fun z hz => hz⟩
  have new : ∀ y nd1, s1.nodes y = some nd1 → y ≠ n → ∃ nd, s.nodes y = some nd ∧
      nd1.parent = nd.parent ∧ nd1.kind = nd.kind ∧ nd1.isOpen = nd.isOpen ∧
      nd1.isIrrelevant = nd.isIrrelevant ∧ nd1.isInit = nd.isInit ∧
      nd1.isSetup = nd.isSetup ∧ nd1.isAnalyzed = nd.isAnalyzed ∧
      ((y ≠ cur ∧ nd1.children = nd.children) ∨ (y = cur ∧ nd1.children = nd.children ++ [n])) := by
    intro y nd1 hy hyn
    by_cases hyc : y = cur
    · subst hyc
      rw [e_cur] at hy
      cases hy
      exact ⟨c, hc, rfl, rfl, rfl, rfl, rfl, rfl, rfl, Or.inr ⟨rfl, rfl⟩⟩
    · rw [hat y] at hy
      simp only [hyn, hyc, if_false] at hy
      exact ⟨nd1, hy, rfl, rfl, rfl, rfl, rfl, rfl, rfl, Or.inl ⟨hyc, rfl⟩⟩
  obtain ⟨d, hd⟩ := h.depth
  have path : ∀ x, OnPath s x cur → OnPath s1 x f := by
    intro x hx
    have h1 : OnPath s1 x cur := OnPath.transfer d hd cur hx (by
      intro w nw q _ hw hq
      obtain ⟨_, nw1, e1, e2, _⟩ := old w nw hw
      exact ⟨nw1, e1, e2.trans hq⟩)
    rcases hf with rfl | ⟨rfl, _⟩
    · exact OnPath.up f cur nd1 e_n hpar h1
    · exact h1
  refine ⟨?_, ?_, ?_, ?_, ?_, ?_, ?_, ?_, ?_, ?_, ?_⟩
  · obtain ⟨rn, h1, h2, h3⟩ := h.root
    obtain ⟨_, rn1, e1, e2, e3, _⟩ := old r rn h1
    exact ⟨rn1, e1, e2.trans h2, by rw [e3]; exact h3⟩
  · intro x nd hx hp
    by_cases hxn : x = n
    · subst hxn
      rw [e_n] at hx
      cases hx
      rw [hpar] at hp
      cases hp
    · obtain ⟨nd0, h1, h2, _⟩ := new x nd hx hxn
      exact h.orphan x nd0 h1 (h2.symm.trans hp)
  · intro x nd p hx hp
    by_cases hxn : x = n
    · subst hxn
      rw [e_n] at hx
      cases hx
      rw [hpar] at hp
      cases hp
      exact ⟨_, e_cur, by simp⟩
    · obtain ⟨nd0, h1, h2, _⟩ := new x nd hx hxn
      obtain ⟨pn, h3, h4⟩ := h.up x nd0 p h1 (h2.symm.trans hp)
      obtain ⟨_, pn1, e1, _, _, _, _, _, _, _, e2⟩ := old p pn h3
      exact ⟨pn1, e1, e2 x h4⟩
  · intro p pn x hp hx
    by_cases hpn : p = n
    · subst hpn
      rw [e_n] at hp
      cases hp
      rw [hkids] at hx
      cases hx
    · obtain ⟨pn0, h1, _, _, _, _, _, _, _, h2⟩ := new p pn hp hpn
      have hx0 : x ∈ pn0.children ∨ (p = cur ∧ x = n) := by
        rcases h2 with ⟨_, h2⟩ | ⟨h2a, h2⟩
        · exact Or.inl (h2 ▸ hx)
        · rw [h2] at hx
          rcases List.mem_append.mp hx with hx | hx
          · exact Or.inl hx
          · exact Or.inr ⟨h2a, by simpa using hx⟩
      rcases hx0 with hx0 | ⟨rfl, rfl⟩
      · obtain ⟨xn, h3, h4⟩ := h.down p pn0 x h1 hx0
        obtain ⟨_, xn1, e1, e2, _⟩ := old x xn h3
        exact ⟨xn1, e1, e2.trans h4⟩
      · exact ⟨nd1, e_n, hpar⟩
  · intro p pn hp
    by_cases hpn : p = n
    · subst hpn
      rw [e_n] at hp
      cases hp
      rw [hkids]
      exact List.nodup_nil
    · obtain ⟨pn0, h1, _, _, _, _, _, _, _, h2⟩ := new p pn hp hpn
      have hnd := h.nodup p pn0 h1
      rcases h2 with ⟨_, h2⟩ | ⟨_, h2⟩
      · rw [h2]
        exact hnd
      · rw [h2]
        refine List.Nodup.append hnd (List.nodup_singleton n) ?_
        intro a ha1 ha2
        have : a = n := by simpa using ha2
        subst this
        obtain ⟨an, h3, _⟩ := h.down p pn0 a h1 ha1
        rw [hn] at h3
        cases h3
  · refine ⟨fun y => if y = n then d cur + 1 else d y, ?_⟩
    intro x nd p hx hp
    by_cases hxn : x = n
    · subst hxn
      rw [e_n] at hx
      cases hx
      rw [hpar] at hp
      cases hp
      simp [hcn]
    · obtain ⟨nd0, h1, h2, _⟩ := new x nd hx hxn
      obtain ⟨pn, h3, _⟩ := h.up x nd0 p h1 (h2.symm.trans hp)
      have hpn : p ≠ n := (old p pn h3).1
      simp only [hxn, hpn, if_false]
      exact hd x nd0 p h1 (h2.symm.trans hp)
  · rcases hf with rfl | ⟨rfl, _⟩
    · exact ⟨nd1, e_n⟩
    · exact ⟨_, e_cur⟩
  · intro x nd hx hb
    by_cases hxn : x = n
    · subst hxn
      rw [e_n] at hx
      cases hx
      exact hopen hb
    · obtain ⟨nd0, h1, _, h2, h3, _⟩ := new x nd hx hxn
      rw [h3]
      exact h.closers x nd0 h1 (h2 ▸ hb)
  · intro x nd hx hxr
    by_cases hxn : x = n
    · subst hxn
      rw [e_n] at hx
      cases hx
      exact hinit
    · obtain ⟨nd0, h1, _, _, _, _, h2, _⟩ := new x nd hx hxn
      rw [h2]
      exact h.inited x nd0 h1 hxr
  · intro x nd hx hs
    by_cases hxn : x = n
    · subst hxn
      rw [e_n] at hx
      cases hx
      exact han hs
    · obtain ⟨nd0, h1, _, _, _, _, _, h2, h3, _⟩ := new x nd hx hxn
      rw [h3]
      exact h.analyzed x nd0 h1 (h2 ▸ hs)
  · intro x nd hx hb hi
    by_cases hxn : x = n
    · subst hxn
      rw [e_n] at hx
      cases hx
      rcases hf with rfl | ⟨_, hnb⟩
      · exact OnPath.here
      · rw [hnb] at hb
        cases hb
    · obtain ⟨nd0, h1, _, h2, _, h3, _⟩ := new x nd hx hxn
      exact path x (h.parens x nd0 h1 (h2 ▸ hb) (h3 ▸ hi))

/-- Closing a structural bracket `cur` (marking it and its children as set up)
keeps the tree well-formed, the focus moving to the parent of `cur`. -/
theorem WF.close {s s1 : State} {r cur par : Nat} {c : Node} {kids : List Nat}
    (h : WF s r cur) (hc : s.nodes cur = some c) (hpar : c.parent = some par)
    (hirr : c.isIrrelevant = false) (hcl : Closed s s1 cur kids) : WF s1 r par := by
  have old : ∀ y nd, s.nodes y = some nd → ∃ nd1, s1.nodes y = some nd1 ∧
      nd1.parent = nd.parent ∧ nd1.kind = nd.kind ∧ nd1.isOpen = nd.isOpen ∧
      nd1.isIrrelevant = nd.isIrrelevant ∧ nd1.isInit = nd.isInit ∧
      nd1.children = nd.children ∧ (nd1.isSetup = true → nd1.isAnalyzed = true) := by
    intro y nd hy
    have han := h.analyzed y nd hy
    by_cases hm : y = cur ∨ y ∈ kids
    · refine ⟨markSetup nd, by rw [hcl y]; simp [hm, hy], by simp, by simp, by simp, by simp,
        by simp, by simp, fun _ => markSetup_isAnalyzed nd han⟩
    · exact ⟨nd, by rw [hcl y]; simp [hm, hy], rfl, rfl, rfl, rfl, rfl, rfl, han⟩
  have new : ∀ y nd1, s1.nodes y = some nd1 → ∃ nd, s.nodes y = some nd ∧
      nd1.parent = nd.parent ∧ nd1.kind = nd.kind ∧ nd1.isOpen = nd.isOpen ∧
      nd1.isIrrelevant = nd.isIrrelevant ∧ nd1.isInit = nd.isInit ∧
      nd1.children = nd.children ∧ (nd1.isSetup = true → nd1.isAnalyzed = true) := by
    intro y nd1 hy
    cases hs : s.nodes y with
    | none =>
      rw [hcl y] at hy
      simp [hs] at hy
    | some nd =>
      obtain ⟨nd2, e1, e2⟩ := old y nd hs
      rw [hy] at e1
      cases e1
      exact ⟨nd, rfl, e2⟩
  obtain ⟨d, hd⟩ := h.depth
  obtain ⟨pn, hp, _⟩ := h.up cur c par hc hpar
  refine ⟨?_, ?_, ?_, ?_, ?_, ?_, ?_, ?_, ?_, ?_, ?_⟩
  · obtain ⟨rn, h1, h2, h3⟩ := h.root
    obtain ⟨rn1, e1, e2, e3, _⟩ := old r rn h1
    exact ⟨rn1, e1, e2.trans h2, by rw [e3]; exact h3⟩
  · intro x nd hx hpx
    obtain ⟨nd0, h1, h2, _⟩ := new x nd hx
    exact h.orphan x nd0 h1 (h2.symm.trans hpx)
  · intro x nd p hx hpx
    obtain ⟨nd0, h1, h2, _⟩ := new x nd hx
    obtain ⟨qn, h3, h4⟩ := h.up x nd0 p h1 (h2.symm.trans hpx)
    obtain ⟨qn1, e1, _, _, _, _, _, e2, _⟩ := old p qn h3
    exact ⟨qn1, e1, by rw [e2]; exact h4⟩
  · intro p qn x hq hx
    obtain ⟨qn0, h1, _, _, _, _, _, h2, _⟩ := new p qn hq
    obtain ⟨xn, h3, h4⟩ := h.down p qn0 x h1 (h2 ▸ hx)
    obtain ⟨xn1, e1, e2, _⟩ := old x xn h3
    exact ⟨xn1, e1, e2.trans h4⟩
  · intro p qn hq
    obtain ⟨qn0, h1, _, _, _, _, _, h2, _⟩ := new p qn hq
    rw [h2]
    exact h.nodup p qn0 h1
  · refine ⟨d, ?_⟩
    intro x nd p hx hpx
    obtain ⟨nd0, h1, h2, _⟩ := new x nd hx
    exact hd x nd0 p h1 (h2.symm.trans hpx)
  · obtain ⟨pn1, e1, _⟩ := old par pn hp
    exact ⟨pn1, e1⟩
  · intro x nd hx hb
    obtain ⟨nd0, h1, _, h2, h3, _⟩ := new x nd hx
    rw [h3]
    exact h.closers x nd0 h1 (h2 ▸ hb)
  · intro x nd hx hxr
    obtain ⟨nd0, h1, _, _, _, _, h2, _⟩ := new x nd hx
    rw [h2]
    exact h.inited x nd0 h1 hxr
  · intro x nd hx hs
    obtain ⟨nd0, h1, _, _, _, _, _, _, h2⟩ := new x nd hx
    exact h2 hs
  · intro x nd hx hb hi
    obtain ⟨nd0, h1, _, h2, _, h3, _⟩ := new x nd hx
    have hpath := h.parens x nd0 h1 (h2 ▸ hb) (h3 ▸ hi)
    have hxc : x ≠ cur := by
      rintro rfl
      rw [hc] at h1
      cases h1
      rw [h3, hirr] at hi
      cases hi
    rcases hpath.path_step with e | ⟨cn, p, e1, e2, e3⟩
    · exact absurd e hxc
    · rw [hc] at e1
      cases e1
      rw [hpar] at e2
      cases e2
      exact OnPath.transfer d hd par e3 (by
        intro w nw q _ hw hq
        obtain ⟨nw1, k1, k2, _⟩ := old w nw hw
        exact ⟨nw1, k1, k2.trans hq⟩)

/-- Replacing the first occurrence of `a` rewrites the position where it
first stands. -/
theorem replaceFirst_append (a b : Nat) :
    ∀ (pre post : List Nat), a ∉ pre →
      replaceFirst a b (pre ++ a :: post) = pre ++ b :: post := by
  intro pre
  induction pre with
  | nil => intro post _; simp [replaceFirst]
  | cons i pre ih =>
    intro post h
    have hi : i ≠ a := fun e => h (e ▸ List.mem_cons_self _ _)
    have hp : a ∉ pre := fun m => h (List.mem_cons_of_mem _ m)
    simp [replaceFirst, hi, ih post hp]

/-- The relatives of a node `x` of a well-formed tree that has a parent and a
first child: they are live, linked to `x`, and pairwise distinct. -/
theorem WF.family {s : State} {r cur x par op : Nat} {rest : List Nat} {c : Node}
    (h : WF s r cur) (hc : s.nodes x = some c) (hpar : c.parent = some par)
    (hch : c.children = op :: rest) :
    ∃ pn o pre post, s.nodes par = some pn ∧ pn.children = pre ++ x :: post ∧ x ∉ pre ∧
      x ∉ post ∧ op ∉ pn.children ∧
      s.nodes op = some o ∧ o.parent = some x ∧
      (∀ i ∈ rest, ∃ nd, s.nodes i = some nd ∧ nd.parent = some x) ∧
      op ≠ x ∧ par ≠ x ∧ par ≠ op ∧ x ∉ rest ∧ op ∉ rest ∧ par ∉ rest ∧ rest.Nodup := by
  obtain ⟨d, hd⟩ := h.depth
  obtain ⟨pn, hp, hmem⟩ := h.up x c par hc hpar
  have hkid : ∀ i ∈ op :: rest, ∃ nd, s.nodes i = some nd ∧ nd.parent = some x := by
    intro i hi
    exact h.down x c i hc (hch ▸ hi)
  obtain ⟨o, ho, hop⟩ := hkid op (List.mem_cons_self _ _)
  have hdx : d par < d x := hd x c par hc hpar
  have hdk : ∀ i ∈ op :: rest, d x < d i := by
    intro i hi
    obtain ⟨nd, h1, h2⟩ := hkid i hi
    exact hd i nd x h1 h2
  have hdo := hdk op (List.mem_cons_self _ _)
  have hnd : (op :: rest).Nodup := hch ▸ h.nodup x c hc
  have hndp := h.nodup par pn hp
  obtain ⟨pre, post, hsplit⟩ := List.append_of_mem hmem
  rw [hsplit] at hndp
  have hpre : x ∉ pre := fun m =>
    (List.nodup_append.mp hndp).2.2 m (List.mem_cons_self x post)
  have hpost : x ∉ post := (List.nodup_cons.mp (List.nodup_append.mp hndp).2.1).1
  refine ⟨pn, o, pre, post, hp, hsplit, hpre, hpost, ?_, ho, hop,
    fun i hi => hkid i (List.mem_cons_of_mem _ hi), ?_, ?_, ?_, ?_, ?_, ?_, ?_⟩
  · intro hm
    obtain ⟨o1, e1, e2⟩ := h.down par pn op hp hm
    rw [ho] at e1
    cases e1
    rw [hop] at e2
    cases e2
    omega
  · rintro rfl
    omega
  · rintro rfl
    omega
  · rintro rfl
    omega
  · intro hm
    have := hdk x (List.mem_cons_of_mem _ hm)
    omega
  · exact (List.nodup_cons.mp hnd).1
  · intro hm
    have := hdk par (List.mem_cons_of_mem _ hm)
    omega
  · exact (List.nodup_cons.mp hnd).2

/-- Eliding the paren `cur` in favour of its first child `op` keeps the tree
well-formed, the focus moving to the former parent of `cur`. -/
theorem WF.elide {s s1 : State} {r cur par op : Nat} {rest : List Nat} {c : Node}
    (h : WF s r cur) (hc : s.nodes cur = some c) (hpar : c.parent = some par)
    (hch : c.children = op :: rest)
    (hoc : ∀ o, s.nodes op = some o → o.children = [])
    (hel : Elided s s1 cur par op rest) : WF s1 r par := by
  obtain ⟨pn, o, pre, post, hp, hsplit, hpre, hpost, hop_par, ho, hopar, hrest, n1, n2, n3, n4,
    n5, n6, hndr⟩ := h.family hc hpar hch
  have hoc1 := hoc o ho
  obtain ⟨d, hd⟩ := h.depth
  have n1s : cur ≠ op := fun e => n1 e.symm
  have n2s : cur ≠ par := fun e => n2 e.symm
  have n3s : op ≠ par := fun e => n3 e.symm
  have kid_of_cur : ∀ y nd, s.nodes y = some nd → nd.parent = some cur → y = op ∨ y ∈ rest := by
    intro y nd hy hyp
    obtain ⟨c1, e1, e2⟩ := h.up y nd cur hy hyp
    rw [hc] at e1
    cases e1
    rw [hch] at e2
    exact List.mem_cons.mp e2
  have e_par : s1.nodes par =
      some { pn with children := pre ++ op :: post } := by
    rw [hel par]
    simp [n2, hp, hsplit, replaceFirst_append cur op pre post hpre]
  have e_op : s1.nodes op = some (markSetup { o with parent := some par, children := rest }) := by
    rw [hel op]
    simp [n1, n3s, ho]
  have e_rest : ∀ i nd, i ∈ rest → s.nodes i = some nd →
      s1.nodes i = some (markSetup { nd with parent := some op }) := by
    intro i nd hi hn
    have a1 : i ≠ cur := fun e => n4 (e ▸ hi)
    have a2 : i ≠ par := fun e => n6 (e ▸ hi)
    have a3 : i ≠ op := fun e => n5 (e ▸ hi)
    rw [hel i]
    simp [a1, a2, a3, hi, hn]
  have e_other : ∀ y, y ≠ cur → y ≠ par → y ≠ op → y ∉ rest → s1.nodes y = s.nodes y := by
    intro y a1 a2 a3 a4
    rw [hel y]
    simp [a1, a2, a3, a4]
  -- every node of the new state comes from a node of the old one
  have new : ∀ y nd1, s1.nodes y = some nd1 → y ≠ cur ∧ ∃ nd, s.nodes y = some nd ∧
      nd1.kind = nd.kind ∧ nd1.isOpen = nd.isOpen ∧ nd1.isIrrelevant = nd.isIrrelevant ∧
      nd1.isInit = nd.isInit ∧ (nd1.isSetup = true → nd1.isAnalyzed = true) ∧
      ((y = par ∧ nd1.parent = nd.parent ∧ nd1.children = pre ++ op :: post) ∨
       (y = op ∧ nd1.parent = some par ∧ nd1.children = rest) ∨
       (y ∈ rest ∧ nd1.parent = some op ∧ nd1.children = nd.children) ∨
       (y ≠ par ∧ y ≠ op ∧ y ∉ rest ∧ nd1.parent = nd.parent ∧ nd1.children = nd.children)) := by
    intro y nd1 hy
    have a1 : y ≠ cur := by
      rintro rfl
      rw [hel y] at hy
      simp at hy
    refine ⟨a1, ?_⟩
    by_cases a2 : y = par
    · subst a2
      rw [e_par] at hy
      cases hy
      exact ⟨pn, hp, rfl, rfl, rfl, rfl, h.analyzed y pn hp, Or.inl ⟨rfl, rfl, rfl⟩⟩
    · by_cases a3 : y = op
      · subst a3
        rw [e_op] at hy
        cases hy
        exact ⟨o, ho, by simp, by simp, by simp, by simp,
          fun _ => markSetup_isAnalyzed _ (h.analyzed y o ho),
          Or.inr (Or.inl ⟨rfl, by simp, by simp⟩)⟩
      · by_cases a4 : y ∈ rest
        · obtain ⟨nd, hn, _⟩ := hrest y a4
          rw [e_rest y nd a4 hn] at hy
          cases hy
          exact ⟨nd, hn, by simp, by simp, by simp, by simp,
            fun _ => markSetup_isAnalyzed _ (h.analyzed y nd hn),
            Or.inr (Or.inr (Or.inl ⟨a4, by simp, by simp⟩))⟩
        · rw [e_other y a1 a2 a3 a4] at hy
          exact ⟨nd1, hy, rfl, rfl, rfl, rfl, h.analyzed y nd1 hy,
            Or.inr (Or.inr (Or.inr ⟨a2, a3, a4, rfl, rfl⟩))⟩
  -- a node other than `cur` whose parent is not `cur` keeps its parent link
  have parent_keep : ∀ z zn p, s.nodes z = some zn → z ≠ cur → zn.parent = some p → p ≠ cur →
      ∃ zn1, s1.nodes z = some zn1 ∧ zn1.parent = some p := by
    intro z zn p hz a1 hzp hpc
    have a3 : z ≠ op := by
      rintro rfl
      rw [ho] at hz
      cases hz
      rw [hopar] at hzp
      cases hzp
      exact hpc rfl
    have a4 : z ∉ rest := by
      intro hm
      obtain ⟨nd, e1, e2⟩ := hrest z hm
      rw [hz] at e1
      cases e1
      rw [e2] at hzp
      cases hzp
      exact hpc rfl
    by_cases a2 : z = par
    · subst a2
      rw [hp] at hz
      cases hz
      exact ⟨_, e_par, hzp⟩
    · exact ⟨zn, by rw [e_other z a1 a2 a3 a4]; exact hz, hzp⟩
  -- a node other than `cur` and `op` keeps its children other than `cur`
  have kids_keep : ∀ p qn z, s.nodes p = some qn → p ≠ cur → p ≠ op → z ∈ qn.children →
      z ≠ cur → ∃ qn1, s1.nodes p = some qn1 ∧ z ∈ qn1.children := by
    intro p qn z hq a1 a3 hz hzc
    by_cases a2 : p = par
    · subst a2
      rw [hp] at hq
      cases hq
      refine ⟨_, e_par, ?_⟩
      rw [hsplit] at hz
      simp only [List.mem_append, List.mem_cons] at hz ⊢
      rcases hz with hz | hz | hz
      · exact Or.inl hz
      · exact absurd hz hzc
      · exact Or.inr (Or.inr hz)
    · by_cases a4 : p ∈ rest
      · exact ⟨_, e_rest p qn a4 hq, by simpa using hz⟩
      · exact ⟨qn, by rw [e_other p a1 a2 a3 a4]; exact hq, hz⟩
  have dcur : d par < d cur := hd cur c par hc hpar
  have dop : d cur < d op := hd op o cur ho hopar
  have drest : ∀ i ∈ rest, d cur < d i := by
    intro i hi
    obtain ⟨nd, e1, e2⟩ := hrest i hi
    exact hd i nd cur e1 e2
  refine ⟨?_, ?_, ?_, ?_, ?_, ?_, ?_, ?_, ?_, ?_, ?_⟩
  · obtain ⟨rn, h1, h2, h3⟩ := h.root
    have hrc : r ≠ cur := by
      rintro rfl
      rw [hc] at h1
      cases h1
      rw [hpar] at h2
      cases h2
    have hro : r ≠ op := by
      rintro rfl
      rw [ho] at h1
      cases h1
      rw [hopar] at h2
      cases h2
    have hrr : r ∉ rest := by
      intro hm
      obtain ⟨nd, e1, e2⟩ := hrest r hm
      rw [h1] at e1
      cases e1
      rw [e2] at h2
      cases h2
    by_cases hrp : r = par
    · subst hrp
      rw [hp] at h1
      cases h1
      exact ⟨_, e_par, h2, h3⟩
    · exact ⟨rn, by rw [e_other r hrc hrp hro hrr]; exact h1, h2, h3⟩
  · intro x nd hx hpx
    obtain ⟨_, nd0, h1, _, _, _, _, _, hcase⟩ := new x nd hx
    rcases hcase with ⟨_, e1, _⟩ | ⟨_, e1, _⟩ | ⟨_, e1, _⟩ | ⟨_, _, _, e1, _⟩
    · exact h.orphan x nd0 h1 (e1.symm.trans hpx)
    · rw [e1] at hpx
      cases hpx
    · rw [e1] at hpx
      cases hpx
    · exact h.orphan x nd0 h1 (e1.symm.trans hpx)
  · intro x nd p hx hpx
    obtain ⟨hxc, nd0, h1, _, _, _, _, _, hcase⟩ := new x nd hx
    have generic : nd0.parent = some p → p ≠ cur → ∃ qn1, s1.nodes p = some qn1 ∧ x ∈ qn1.children := by
      intro hp0 hpc
      obtain ⟨qn, h3, h4⟩ := h.up x nd0 p h1 hp0
      have hpo : p ≠ op := by
        rintro rfl
        rw [ho] at h3
        cases h3
        rw [hoc1] at h4
        cases h4
      exact kids_keep p qn x h3 hpc hpo h4 hxc
    rcases hcase with ⟨rfl, e1, _⟩ | ⟨rfl, e1, _⟩ | ⟨hm, e1, _⟩ | ⟨a2, a3, a4, e1, _⟩
    · apply generic (e1.symm.trans hpx)
      rintro rfl
      have := hd x nd0 p h1 (e1.symm.trans hpx)
      omega
    · rw [e1] at hpx
      cases hpx
      exact ⟨_, e_par, by simp⟩
    · rw [e1] at hpx
      cases hpx
      exact ⟨_, e_op, by simpa using hm⟩
    · apply generic (e1.symm.trans hpx)
      rintro rfl
      rcases kid_of_cur x nd0 h1 (e1.symm.trans hpx) with e | e
      · exact a3 e
      · exact a4 e
  · intro p qn x hq hx
    obtain ⟨hpc, qn0, h1, _, _, _, _, _, hcase⟩ := new p qn hq
    have generic : x ∈ qn0.children → x ≠ cur →
        ∃ cn, s1.nodes x = some cn ∧ cn.parent = some p := by
      intro hx0 hxc
      obtain ⟨xn, h3, h4⟩ := h.down p qn0 x h1 hx0
      exact parent_keep x xn p h3 hxc h4 hpc
    have notcur : x ∈ qn0.children → p ≠ par → x ≠ cur := by
      rintro hx0 hpp rfl
      obtain ⟨xn, h3, h4⟩ := h.down p qn0 x h1 hx0
      rw [hc] at h3
      cases h3
      rw [hpar] at h4
      cases h4
      exact hpp rfl
    rcases hcase with ⟨rfl, _, e2⟩ | ⟨rfl, _, e2⟩ | ⟨hm, _, e2⟩ | ⟨a2, _, _, _, e2⟩
    · rw [hp] at h1
      cases h1
      rw [e2] at hx
      simp only [List.mem_append, List.mem_cons] at hx
      rcases hx with hx | rfl | hx
      · exact generic (by rw [hsplit]; simp [hx]) (fun e => hpre (e ▸ hx))
      · exact ⟨_, e_op, by simp⟩
      · exact generic (by rw [hsplit]; simp [hx]) (fun e => hpost (e ▸ hx))
    · rw [e2] at hx
      obtain ⟨nd, hn, _⟩ := hrest x hx
      exact ⟨_, e_rest x nd hx hn, by simp⟩
    · rw [e2] at hx
      exact generic hx (notcur hx (fun e => n6 (e ▸ hm)))
    · rw [e2] at hx
      exact generic hx (notcur hx a2)
  · intro p qn hq
    obtain ⟨_, qn0, h1, _, _, _, _, _, hcase⟩ := new p qn hq
    rcases hcase with ⟨rfl, _, e2⟩ | ⟨rfl, _, e2⟩ | ⟨_, _, e2⟩ | ⟨_, _, _, _, e2⟩
    · rw [e2]
      have hnd := h.nodup p pn hp
      rw [hsplit] at hnd hop_par
      have hnd2 := List.nodup_append.mp hnd
      refine List.nodup_append.mpr ⟨hnd2.1, ?_, ?_⟩
      · refine List.nodup_cons.mpr ⟨?_, (List.nodup_cons.mp hnd2.2.1).2⟩
        intro hm
        exact hop_par (by simp [hm])
      · intro a ha hb
        rcases List.mem_cons.mp hb with rfl | hb
        · exact hop_par (by simp [ha])
        · exact hnd2.2.2 ha (List.mem_cons_of_mem _ hb)
    · rw [e2]
      exact hndr
    · rw [e2]
      exact h.nodup p qn0 h1
    · rw [e2]
      exact h.nodup p qn0 h1
  · refine ⟨fun y => if y = op then d cur else d y, ?_⟩
    intro x nd p hx hpx
    obtain ⟨hxc, nd0, h1, _, _, _, _, _, hcase⟩ := new x nd hx
    have generic : nd0.parent = some p → x ≠ op →
        (if p = op then d cur else d p) < (if x = op then d cur else d x) := by
      intro hp0 hxo
      obtain ⟨qn, h3, h4⟩ := h.up x nd0 p h1 hp0
      have hpo : p ≠ op := by
        rintro rfl
        rw [ho] at h3
        cases h3
        rw [hoc1] at h4
        cases h4
      simp only [hpo, hxo, if_false]
      exact hd x nd0 p h1 hp0
    rcases hcase with ⟨rfl, e1, _⟩ | ⟨rfl, e1, _⟩ | ⟨hm, e1, _⟩ | ⟨a2, a3, a4, e1, _⟩
    · exact generic (e1.symm.trans hpx) n3
    · rw [e1] at hpx
      cases hpx
      simp [n3, dcur]
    · rw [e1] at hpx
      cases hpx
      have a3 : x ≠ op := fun e => n5 (e ▸ hm)
      simp only [a3, if_true, if_false]
      exact drest x hm
    · exact generic (e1.symm.trans hpx) a3
  · exact ⟨_, e_par⟩
  · intro x nd hx hb
    obtain ⟨_, nd0, h1, e1, e2, _⟩ := new x nd hx
    rw [e2]
    exact h.closers x nd0 h1 (e1 ▸ hb)
  · intro x nd hx hxr
    obtain ⟨_, nd0, h1, _, _, _, e1, _⟩ := new x nd hx
    rw [e1]
    exact h.inited x nd0 h1 hxr
  · intro x nd hx hs
    obtain ⟨_, nd0, h1, _, _, _, _, e1, _⟩ := new x nd hx
    exact e1 hs
  · intro x nd hx hb hi
    obtain ⟨hxc, nd0, h1, e1, _, e2, _⟩ := new x nd hx
    have hpath := h.parens x nd0 h1 (e1 ▸ hb) (e2 ▸ hi)
    rcases hpath.path_step with e | ⟨cn, p, k1, k2, k3⟩
    · exact absurd e hxc
    · rw [hc] at k1
      cases k1
      rw [hpar] at k2
      cases k2
      refine OnPath.transfer d hd par k3 ?_
      intro w nw q hw hnw hq
      have hwc : w ≠ cur := by
        rintro rfl
        omega
      have hqc : q ≠ cur := by
        rintro rfl
        rcases kid_of_cur w nw hnw hq with rfl | hm
        · omega
        · have := drest w hm
          omega
      exact parent_keep w nw q hnw hwc hq hqc

/-! ## The three ways `insertNode` returns normally -/

/-- The state after `setupAsParent` on `top` and `delete` of the leaf `n`. -/
theorem finishClose_nodes {fuel : Nat} {ext : Ext} {s s2 : State} {top n : Nat} {tn nd : Node}
    (ht : s.nodes top = some tn) (hn : s.nodes n = some nd) (hleaf : nd.children = [])
    (hnt : n ≠ top) (hnk : n ∉ tn.children) (h2 : setupAsParent fuel ext s top = .ok () s2) :
    destroy fuel s2 n = (if fuel = 0 then .outOfFuel else .ok () (s2.erase n)) ∧
    ∀ y, (s2.erase n).nodes y =
      if y = n then none
      else if y = top ∨ y ∈ tn.children then (s.nodes y).map markSetup else s.nodes y := by
  have hcl := setupAsParent_ok_nodes ht h2
  have hn2 : s2.nodes n = some nd := by
    rw [hcl n]
    simp [hnt, hnk, hn]
  refine ⟨destroy_leaf fuel s2 n nd hn2 hleaf, ?_⟩
  intro y
  by_cases hy : y = n
  · simp [hy]
  · simp only [State.erase_nodes, hy, if_false]
    exact hcl y

/-- A normally returning `finishClose` returns the parent it was given, after
`setupAsParent` on `top` returned normally and the closing brace was freed. -/
theorem finishClose_ok {fuel : Nat} {ext : Ext} {s s1 : State} {top n par p : Nat}
    {tn nd : Node} (ht : s.nodes top = some tn) (hn : s.nodes n = some nd)
    (hleaf : nd.children = []) (hnt : n ≠ top) (hnk : n ∉ tn.children)
    (h : finishClose fuel ext s top n par = .ok p s1) :
    p = par ∧ fuel ≠ 0 ∧ ∀ y, s1.nodes y =
      if y = n then none
      else if y = top ∨ y ∈ tn.children then (s.nodes y).map markSetup else s.nodes y := by
  unfold finishClose at h
  cases h2 : setupAsParent fuel ext s top with
  | ok u s2 =>
    obtain ⟨e1, e2⟩ := finishClose_nodes ht hn hleaf hnt hnk h2
    simp only [h2, e1] at h
    by_cases hf : fuel = 0
    · simp [hf] at h
    · simp only [hf, if_false, Outcome.bind_ok, Outcome.ok.injEq] at h
      obtain ⟨rfl, rfl⟩ := h
      exact ⟨rfl, hf, e2⟩
  | thrown t s2 =>
    rw [h2] at h
    cases t with
    | evalError e =>
      simp only at h
      obtain ⟨u, s3, h3, _⟩ := Outcome.bind_eq_ok h
      exact absurd h3 (recoverFromError_ne_ok _ _ _ _ _ _)
    | recoveredError e pos => simp at h
  | undefined =>
    rw [h2] at h
    simp at h
  | outOfFuel =>
    rw [h2] at h
    simp at h

/-- With hooks that return normally, `finishClose` returns normally. -/
theorem finishClose_succeeds (fuel : Nat) (ext : Ext) (s : State) (top n par : Nat)
    (tn nd : Node) (hsetup : ∀ st y, ext.setup st y = none)
    (han : ∀ st y, ext.analyze st y = none) (ht : s.nodes top = some tn)
    (hready : nd_ready tn)
    (hkids : ∀ c ∈ tn.children, ∃ cn, s.nodes c = some cn ∧ nd_ready cn)
    (hn : s.nodes n = some nd) (hleaf : nd.children = []) (hnt : n ≠ top)
    (hnk : n ∉ tn.children) :
    ∃ s1, finishClose (fuel + 1) ext s top n par = .ok par s1 := by
  obtain ⟨s2, h2⟩ := setupAsParent_succeeds (fuel + 1) ext s top tn hsetup han ht hready hkids
  obtain ⟨e1, _⟩ := finishClose_nodes ht hn hleaf hnt hnk h2
  refine ⟨s2.erase n, ?_⟩
  unfold finishClose
  simp only [h2, e1]
  simp

/-- A normally returning `initNode` sets the inherited scope and the
initialized marker of its node, which has a live parent. -/
theorem initNode_ok {ext : Ext} {s s1 : State} {x : Nat} (h : initNode ext s x = .ok () s1) :
    ∃ nd sc, s.nodes x = some nd ∧
      ∀ y, s1.nodes y =
        if y = x then some { nd with parentScope := sc, isInit := true } else s.nodes y := by
  unfold initNode at h
  split at h
  · simp at h
  · rename_i nd hx
    split at h
    · simp at h
    · split at h
      · simp at h
      · rename_i p hp pn hpn
        simp only [Outcome.ok.injEq, true_and] at h
        subst h
        refine ⟨nd, (match ext.getScope pn with
          | some g => some g
          | none => pn.parentScope), hx, ?_⟩
        intro y
        by_cases hy : y = x
        · subst hy
          simp [hx]
        · simp [hy]

/-- A normally returning `promote` found a first child, and that child had no
children of its own. -/
theorem promote_ok_inv {fuel : Nat} {s s1 : State} {cur x : Nat} {c : Node}
    (hc : s.nodes cur = some c) (h : promote fuel s cur = .ok x s1) :
    ∃ op rest, c.children = op :: rest ∧
      (op ≠ cur → ∀ o, s.nodes op = some o → o.children = []) := by
  unfold promote at h
  simp only [hc] at h
  cases hch : c.children with
  | nil => simp [hch] at h
  | cons op rest =>
    refine ⟨op, rest, rfl, ?_⟩
    intro hne o ho
    have hne2 : cur ≠ op := fun e => hne e.symm
    simp only [hch, State.upd_nodes, hne, if_false, if_true, ho, Option.map_some'] at h
    by_contra hcon
    have hlen : o.children.length ≠ 0 := by
      intro e
      exact hcon (List.length_eq_zero.mp e)
    simp [hlen] at h

/-- The first two branches of `insertNode`, read backwards: if attaching the
fresh node `n` under `cur` and initializing it returns normally, the resulting
state is the old one with `n` attached. -/
theorem attach_ok {ext : Ext} {s s1 : State} {cur n v cur1 : Nat} {c nd : Node}
    (hc : s.nodes cur = some c) (hn : s.nodes n = none)
    (hok : (initNode ext (addChild ((s.set n nd).upd n fun m => { m with parent := some cur })
      cur n) n).bind (fun _ s2 => Outcome.ok v s2) = .ok cur1 s1) :
    cur1 = v ∧ ∃ sc, Attached s s1 cur n
      { nd with parent := some cur, parentScope := sc, isInit := true } := by
  have hcn : cur ≠ n := by
    rintro rfl
    rw [hn] at hc
    cases hc
  obtain ⟨_, s2, h1, h2⟩ := Outcome.bind_eq_ok hok
  simp only [Outcome.ok.injEq] at h2
  obtain ⟨rfl, rfl⟩ := h2
  obtain ⟨ndx, sc, e1, e2⟩ := initNode_ok h1
  have e3 : ndx = { nd with parent := some cur } := by
    simp [addChild, hcn.symm] at e1
    exact e1.symm
  subst e3
  refine ⟨rfl, sc, ?_⟩
  intro y
  rw [e2 y]
  by_cases hy : y = n
  · simp [hy]
  · by_cases hyc : y = cur
    · subst hyc
      simp [hy, addChild, hc]
    · simp [hy, hyc, addChild]

/-- How a call of `insertNode` on a well-formed tree and a freshly allocated
childless node `n` can return normally: `n` was attached (it is not a closing
Brace), or it closed the structural bracket at the focus, or it closed the
irrelevant paren at the focus, which was elided. -/
theorem insertNode_step {ext : Ext} {s s1 : State} {r cur n fuel cur1 : Nat} {nd : Node}
    (h : WF s r cur) (hn : s.nodes n = none) (hleaf : nd.children = [])
    (hok : insertNode fuel ext (s.set n nd) (some cur) (some n) = .ok cur1 s1) :
    ((nd.kind.isBrace = false ∨ nd.isOpen = true) ∧
      cur1 = (if nd.kind.isBrace then n else cur) ∧
      ∃ sc, Attached s s1 cur n { nd with parent := some cur, parentScope := sc, isInit := true }) ∨
    (nd.kind.isBrace = true ∧ nd.isOpen = false ∧ fuel ≠ 0 ∧
      ∃ c, s.nodes cur = some c ∧ c.parent = some cur1 ∧ c.kind.isBrace = true ∧
        ext.matchesCloseBrace c nd = true ∧
        ((c.isIrrelevant = false ∧ Closed s s1 cur c.children) ∨
         (c.isIrrelevant = true ∧ ∃ op rest, c.children = op :: rest ∧
           (∀ o, s.nodes op = some o → o.children = []) ∧ Elided s s1 cur cur1 op rest))) := by
  obtain ⟨c, hc⟩ := h.focus
  have hcn : cur ≠ n := by
    rintro rfl
    rw [hn] at hc
    cases hc
  have live : ∀ y yn, s.nodes y = some yn → y ≠ n := by
    rintro y yn hy rfl
    rw [hn] at hy
    cases hy
  have e0 : ∀ y, y ≠ n → (s.set n nd).nodes y = s.nodes y := by
    intro y hy
    simp [hy]
  have e0n : (s.set n nd).nodes n = some nd := by simp
  have e0c : (s.set n nd).nodes cur = some c := by rw [e0 cur hcn]; exact hc
  unfold insertNode at hok
  simp only [e0c, e0n] at hok
  by_cases hb : nd.kind.isBrace = true
  · by_cases ho : nd.isOpen = true
    · left
      simp only [hb, ho, Bool.not_true, Bool.false_eq_true, if_false, if_true] at hok
      obtain ⟨e1, sc, e2⟩ := attach_ok hc hn hok
      exact ⟨Or.inr ho, by simp [hb, e1], sc, e2⟩
    · right
      have ho1 : nd.isOpen = false := by simpa using ho
      simp only [hb, ho1, Bool.not_true, Bool.false_eq_true, if_false] at hok
      cases hpar : c.parent with
      | none => simp [hpar] at hok
      | some par =>
        simp only [hpar] at hok
        by_cases hcb : c.kind.isBrace = true
        · by_cases hm : ext.matchesCloseBrace c nd = true
          · simp only [hcb, hm, Bool.not_true, Bool.false_eq_true, if_false] at hok
            have hkids : ∀ i ∈ c.children, i ≠ n := by
              intro i hi
              obtain ⟨cn, e1, _⟩ := h.down cur c i hc hi
              exact live i cn e1
            by_cases hirr : c.isIrrelevant = true
            · simp only [hirr, if_true] at hok
              obtain ⟨op1, s2, hp1, hf1⟩ := Outcome.bind_eq_ok hok
              obtain ⟨op, rest, hch, hoc⟩ := promote_ok_inv e0c hp1
              obtain ⟨pn, o, pre, post, hp, hsplit, hpre, hpost, hop_par, hop, hopar, hrest, n1,
                n2, n3, n4, n5, n6, hndr⟩ := h.family hc hpar hch
              have hon : op ≠ n := live op o hop
              have hpn : par ≠ n := live par pn hp
              have hrn : ∀ i ∈ rest, i ≠ n := fun i hi => hkids i (hch ▸ List.mem_cons_of_mem _ hi)
              have hoc1 : o.children = [] := hoc n1 o (by rw [e0 op hon]; exact hop)
              obtain ⟨s3, k1, _, k3⟩ := promote_spec (s.set n nd) cur par op rest c o pn e0c hch
                hpar (by rw [e0 op hon]; exact hop) hoc1 (by rw [e0 par hpn]; exact hp)
                n1 n2 n3 n4 n5 n6 (by
                  intro i hi
                  obtain ⟨ni, e1, _⟩ := hrest i hi
                  exact ⟨ni, by rw [e0 i (hrn i hi)]; exact e1⟩)
              have hfuel : fuel ≠ 0 := by
                intro e
                rw [k1 fuel] at hp1
                simp [e] at hp1
              rw [k1 fuel] at hp1
              simp only [hfuel, if_false, Outcome.ok.injEq] at hp1
              obtain ⟨rfl, rfl⟩ := hp1
              have k3op : s3.nodes op = some { o with parent := some par, children := rest } := by
                rw [k3 op]
                simp [n1, n3.symm]
              have k3n : s3.nodes n = some nd := by
                rw [k3 n]
                have a4 : n ∉ rest := fun hm => hrn n hm rfl
                simp [hcn.symm, hpn.symm, hon.symm, a4]
              obtain ⟨e1, _, e3⟩ := finishClose_ok k3op k3n hleaf hon.symm
                (fun hm => hrn n hm rfl) hf1
              subst e1
              refine ⟨hb, ho1, hfuel, c, hc, hpar, hcb, hm, Or.inr ⟨hirr, op, rest, hch, ?_, ?_⟩⟩
              · intro o1 ho1
                rw [hop] at ho1
                cases ho1
                exact hoc1
              · intro y
                rw [e3 y]
                by_cases hy : y = n
                · subst hy
                  have a4 : y ∉ rest := fun hm => hrn y hm rfl
                  simp [hcn.symm, hpn.symm, hon.symm, a4, hn]
                · by_cases a1 : y = cur
                  · rw [a1, k3 cur]
                    simp [hcn, n1.symm, n4]
                  · by_cases a2 : y = cur1
                    · have e5 : s3.nodes cur1 = some
                          { pn with children := replaceFirst cur op pn.children } := by
                        rw [k3 cur1]
                        simp [n2]
                      rw [a2, e5]
                      simp [hpn, n2, n3, n6, hp]
                    · by_cases a3 : y = op
                      · rw [a3, k3op]
                        simp [hon, n1, n3.symm, hop]
                      · by_cases a4 : y ∈ rest
                        · obtain ⟨ni, e5, _⟩ := hrest y a4
                          rw [k3 y]
                          simp [hy, a1, a2, a3, a4, e5]
                        · rw [k3 y]
                          simp [hy, a1, a2, a3, a4]
            · have hirr1 : c.isIrrelevant = false := by simpa using hirr
              simp only [hirr1, Bool.false_eq_true, if_false] at hok
              obtain ⟨e1, hfuel, e3⟩ := finishClose_ok e0c e0n hleaf hcn.symm
                (fun hm => hkids n hm rfl) hok
              subst e1
              refine ⟨hb, ho1, hfuel, c, hc, hpar, hcb, hm, Or.inl ⟨hirr1, ?_⟩⟩
              intro y
              rw [e3 y]
              by_cases hy : y = n
              · subst hy
                have a4 : y ∉ c.children := fun hm => hkids y hm rfl
                simp [hcn.symm, a4, hn]
              · simp [hy]
          · simp [hcb, hm] at hok
        · simp [hcb] at hok
  · left
    have hb1 : nd.kind.isBrace = false := by simpa using hb
    simp only [hb1, Bool.not_false, if_true] at hok
    obtain ⟨e1, sc, e2⟩ := attach_ok hc hn hok
    exact ⟨Or.inl hb1, by simp [hb1, e1], sc, e2⟩

/-! ## C5, C6: invariants of building -/

/-- A lone root is a well-formed tree. -/
theorem loneRoot_wf (r : Nat) (name : String) : WF (loneRoot r name) r r := by
  have live : ∀ x nd, (loneRoot r name).nodes x = some nd →
      x = r ∧ nd = newNode none name "" .RootNode false false := by
    intro x nd hx
    by_cases hxr : x = r
    · simp [loneRoot, hxr] at hx
      exact ⟨hxr, hx.symm⟩
    · simp [loneRoot, hxr] at hx
  have hr : (loneRoot r name).nodes r = some (newNode none name "" .RootNode false false) := by
    simp [loneRoot]
  refine ⟨⟨_, hr, rfl, rfl⟩, ?_, ?_, ?_, ?_, ⟨fun _ => 0, ?_⟩, ⟨_, hr⟩, ?_, ?_, ?_, ?_⟩
  · intro x nd hx _
    exact (live x nd hx).1
  · intro x nd p hx hp
    obtain ⟨_, rfl⟩ := live x nd hx
    simp [newNode] at hp
  · intro p pn c hp hc
    obtain ⟨_, rfl⟩ := live p pn hp
    simp [newNode] at hc
  · intro p pn hp
    obtain ⟨_, rfl⟩ := live p pn hp
    simp [newNode]
  · intro x nd p hx hp
    obtain ⟨_, rfl⟩ := live x nd hx
    simp [newNode] at hp
  · intro x nd hx hb
    obtain ⟨_, rfl⟩ := live x nd hx
    simp [newNode, Kind.isBrace] at hb
  · intro x nd hx hxr
    exact absurd (live x nd hx).1 hxr
  · intro x nd hx hs
    obtain ⟨_, rfl⟩ := live x nd hx
    simp [newNode] at hs
  · intro x nd hx hb
    obtain ⟨_, rfl⟩ := live x nd hx
    simp [newNode, Kind.isBrace] at hb

/-- A normally returning `insertNode` of a freshly constructed node on a
well-formed tree leaves a well-formed tree around the returned focus. -/
theorem WF.step {ext : Ext} {s s1 : State} {r cur n fuel cur1 : Nat} {nroot : Option Nat}
    {name value : String} {kind : Kind} {isOpen isIrrelevant : Bool}
    (h : WF s r cur) (hn : s.nodes n = none)
    (hok : insertNode fuel ext (s.set n (newNode nroot name value kind isOpen isIrrelevant))
      (some cur) (some n) = .ok cur1 s1) : WF s1 r cur1 := by
  rcases insertNode_step h hn rfl hok with ⟨hk, e1, sc, hat⟩ |
    ⟨_, _, _, c, hc, hpar, _, _, ⟨hirr, hcl⟩ | ⟨_, op, rest, hch, hoc, hel⟩⟩
  · refine h.attach hn hat rfl rfl rfl (by simp [newNode]) ?_ ?_
    · intro hb
      rcases hk with hk | hk
      · simp only at hb
        rw [hk] at hb
        cases hb
      · exact hk
    · by_cases hb : (newNode nroot name value kind isOpen isIrrelevant).kind.isBrace = true
      · left
        simp [e1, hb]
      · right
        have hb1 : (newNode nroot name value kind isOpen isIrrelevant).kind.isBrace = false := by
          simpa using hb
        exact ⟨by simp [e1, hb1], hb1⟩
  · exact h.close hc hpar hirr hcl
  · exact h.elide hc hpar hch hoc hel

/-- Every state the builder reaches is a well-formed tree. -/
theorem Built.wf {ext : Ext} {r : Nat} {rootName : String} {hist : List (Nat × Node)}
    {s : State} {cur : Nat} (h : Built ext r rootName hist s cur) : WF s r cur := by
  induction h with
  | start => exact loneRoot_wf r rootName
  | insert hist s cur fuel n nroot name value kind isOpen isIrrelevant s1 cur1 _ hn hok ih =>
    exact ih.step hn hok

/-- In a well-formed tree every node reached from the root is live. -/
theorem WF.desc_live {s : State} {r cur x : Nat} (h : WF s r cur) (hx : Desc s r x) :
    ∃ nd, s.nodes x = some nd := by
  rcases hx.last_step with rfl | ⟨p, pn, _, hp, hc⟩
  · obtain ⟨rn, h1, _⟩ := h.root
    exact ⟨rn, h1⟩
  · obtain ⟨cn, h1, _⟩ := h.down p pn x hp hc
    exact ⟨cn, h1⟩

/-- In a well-formed tree every live node is reached from the root. -/
theorem WF.live_desc {s : State} {r cur : Nat} (h : WF s r cur) :
    ∀ x nd, s.nodes x = some nd → Desc s r x := by
  obtain ⟨d, hd⟩ := h.depth
  have key : ∀ (k x : Nat), d x = k → ∀ nd, s.nodes x = some nd → Desc s r x := by
    intro k
    induction k using Nat.strong_induction_on with
    | _ k ih =>
      intro x hk nd hx
      cases hp : nd.parent with
      | none =>
        rw [h.orphan x nd hx hp]
        exact Desc.self
      | some p =>
        obtain ⟨pn, h1, h2⟩ := h.up x nd p hx hp
        have hlt := hd x nd p hx hp
        exact Desc.child p x pn (ih (d p) (by omega) p rfl pn h1) h1 h2
  exact fun x nd hx => key (d x) x rfl nd hx

/-- The sample insertions are steps of the builder: after `\x7b`. -/
theorem sample_built_1 : Built stdExt 0 "root" (sampleHist 1) (sampleState 1) 1 :=
  Built.insert (sampleHist 0) (sampleState 0) 0 1 1 (some 0) "\x7b" "" .Block true false
    (sampleState 1) 1 Built.start rfl rfl

/-- After `\x7b (`. -/
theorem sample_built_2 : Built stdExt 0 "root" (sampleHist 2) (sampleState 2) 2 :=
  Built.insert (sampleHist 1) (sampleState 1) 1 1 2 (some 0) "(" "" .Brace true true
    (sampleState 2) 2 sample_built_1 rfl rfl

/-- After `\x7b ( PLUS`. -/
theorem sample_built_3 : Built stdExt 0 "root" (sampleHist 3) (sampleState 3) 2 :=
  Built.insert (sampleHist 2) (sampleState 2) 2 1 3 (some 0) "PLUS" "" .Operator false false
    (sampleState 3) 2 sample_built_2 rfl rfl

/-- After `\x7b ( PLUS a`. -/
theorem sample_built_4 : Built stdExt 0 "root" (sampleHist 4) (sampleState 4) 2 :=
  Built.insert (sampleHist 3) (sampleState 3) 2 1 4 (some 0) "ID" "a" .Variable false false
    (sampleState 4) 2 sample_built_3 rfl rfl

/-- After `\x7b ( PLUS a b`. -/
theorem sample_built_5 : Built stdExt 0 "root" (sampleHist 5) (sampleState 5) 2 :=
  Built.insert (sampleHist 4) (sampleState 4) 2 1 5 (some 0) "ID" "b" .Variable false false
    (sampleState 5) 2 sample_built_4 rfl rfl

/-- After `\x7b ( PLUS a b )`. -/
theorem sample_built_6 : Built stdExt 0 "root" (sampleHist 6) (sampleState 6) 1 :=
  Built.insert (sampleHist 5) (sampleState 5) 2 1 6 (some 0) ")" "" .Brace false false
    (sampleState 6) 1 sample_built_5 rfl rfl

/-- After `\x7b ( PLUS a b ) \x7d`. -/
theorem sample_built_7 : Built stdExt 0 "root" (sampleHist 7) (sampleState 7) 0 :=
  Built.insert (sampleHist 6) (sampleState 6) 1 1 7 (some 0) "\x7d" "" .Brace false false
    (sampleState 7) 0 sample_built_6 rfl rfl

/-- C5. In every state the builder reaches from a lone root: the root has no
parent; every other node of the tree (reached from the root through child
sequences) is live, has a parent link to a node of the tree whose child
sequence holds it exactly once, and is in no other child sequence; the focus is
a node of the tree; and no node of the tree is a closing Brace. -/
theorem built_tree_wellformed (ext : Ext) (r : Nat) (rootName : String)
    (hist : List (Nat × Node)) (s : State) (cur : Nat)
    (h : Built ext r rootName hist s cur) :
    (∃ rn, s.nodes r = some rn ∧ rn.parent = none) ∧
    (∀ x, Desc s r x → x ≠ r → ∃ nd p pn, s.nodes x = some nd ∧ nd.parent = some p ∧
      s.nodes p = some pn ∧ Desc s r p ∧ pn.children.count x = 1 ∧
      ∀ q qn, s.nodes q = some qn → x ∈ qn.children → q = p) ∧
    (Desc s r cur ∧ ∃ c, s.nodes cur = some c) ∧
    (∀ x nd, Desc s r x → s.nodes x = some nd → nd.kind.isBrace = true → nd.isOpen = true) := by
  have w := h.wf
  refine ⟨?_, ?_, ?_, ?_⟩
  · obtain ⟨rn, h1, h2, _⟩ := w.root
    exact ⟨rn, h1, h2⟩
  · intro x hx hxr
    obtain ⟨nd, hn⟩ := w.desc_live hx
    cases hp : nd.parent with
    | none => exact absurd (w.orphan x nd hn hp) hxr
    | some p =>
      obtain ⟨pn, h1, h2⟩ := w.up x nd p hn hp
      refine ⟨nd, p, pn, hn, hp, h1, w.live_desc p pn h1,
        List.count_eq_one_of_mem (w.nodup p pn h1) h2, ?_⟩
      intro q qn hq hxq
      obtain ⟨nd1, e1, e2⟩ := w.down q qn x hq hxq
      rw [hn] at e1
      cases e1
      rw [hp] at e2
      cases e2
      rfl
  · obtain ⟨c, hc⟩ := w.focus
    exact ⟨w.live_desc cur c hc, c, hc⟩
  · intro x nd _ hn hb
    exact w.closers x nd hn hb

/-- C5, on the state after the sample token stream. -/
theorem built_tree_wellformed_witness :
    (∃ rn, (sampleState 7).nodes 0 = some rn ∧ rn.parent = none) ∧
    (∀ x, Desc (sampleState 7) 0 x → x ≠ 0 → ∃ nd p pn, (sampleState 7).nodes x = some nd ∧
      nd.parent = some p ∧ (sampleState 7).nodes p = some pn ∧ Desc (sampleState 7) 0 p ∧
      pn.children.count x = 1 ∧
      ∀ q qn, (sampleState 7).nodes q = some qn → x ∈ qn.children → q = p) ∧
    (Desc (sampleState 7) 0 0 ∧ ∃ c, (sampleState 7).nodes 0 = some c) ∧
    (∀ x nd, Desc (sampleState 7) 0 x → (sampleState 7).nodes x = some nd →
      nd.kind.isBrace = true → nd.isOpen = true) :=
  built_tree_wellformed stdExt 0 "root" (sampleHist 7) (sampleState 7) 0 sample_built_7

theorem SameTag.tag_refl (a : Node) : SameTag a a := ⟨rfl, rfl, rfl, rfl, rfl⟩

theorem SameTag.tag_trans {a b c : Node} (h1 : SameTag a b) (h2 : SameTag b c) : SameTag a c :=
  ⟨h2.1.trans h1.1, h2.2.1.trans h1.2.1, h2.2.2.1.trans h1.2.2.1,
    h2.2.2.2.1.trans h1.2.2.2.1, h2.2.2.2.2.trans h1.2.2.2.2⟩

theorem SameTag.markSetup (a : Node) : SameTag a (markSetup a) :=
  ⟨by simp, by simp, by simp, by simp, by simp⟩

/-- A normally returning `insertNode` frees no node of the tree except an
irrelevant Brace, changes no construction-time attribute, and keeps the new
node when that is an opening Brace. -/
theorem WF.step_keeps {ext : Ext} {s s1 : State} {r cur n fuel cur1 : Nat} {nd : Node}
    (h : WF s r cur) (hn : s.nodes n = none) (hleaf : nd.children = [])
    (hok : insertNode fuel ext (s.set n nd) (some cur) (some n) = .ok cur1 s1) :
    (∀ y yn, s.nodes y = some yn → yn.isIrrelevant = false →
      ∃ yn1, s1.nodes y = some yn1 ∧ SameTag yn yn1) ∧
    (nd.kind.isBrace = true → nd.isOpen = true → ∃ nd1, s1.nodes n = some nd1 ∧ SameTag nd nd1) := by
  have live : ∀ y yn, s.nodes y = some yn → y ≠ n := by
    rintro y yn hy rfl
    rw [hn] at hy
    cases hy
  rcases insertNode_step h hn hleaf hok with ⟨_, _, sc, hat⟩ |
    ⟨hb, ho, _, c, hc, hpar, _, _, ⟨_, hcl⟩ | ⟨hirr, op, rest, hch, hoc, hel⟩⟩
  · constructor
    · intro y yn hy _
      have hyn := live y yn hy
      by_cases hyc : y = cur
      · refine ⟨{ yn with children := yn.children ++ [n] }, ?_, ⟨rfl, rfl, rfl, rfl, rfl⟩⟩
        subst hyc
        rw [hat y]
        simp [hyn, hy]
      · exact ⟨yn, by rw [hat y]; simp [hyn, hyc, hy], SameTag.tag_refl _⟩
    · intro _ _
      exact ⟨{ nd with parent := some cur, parentScope := sc, isInit := true },
        by rw [hat n]; simp, ⟨rfl, rfl, rfl, rfl, rfl⟩⟩
  · constructor
    · intro y yn hy _
      by_cases hm : y = cur ∨ y ∈ c.children
      · exact ⟨markSetup yn, by rw [hcl y]; simp [hm, hy], SameTag.markSetup yn⟩
      · exact ⟨yn, by rw [hcl y]; simp [hm, hy], SameTag.tag_refl _⟩
    · intro _ ho1
      rw [ho] at ho1
      cases ho1
  · constructor
    · intro y yn hy hyirr
      have a1 : y ≠ cur := by
        rintro rfl
        rw [hc] at hy
        cases hy
        rw [hirr] at hyirr
        cases hyirr
      by_cases a2 : y = cur1
      · refine ⟨{ yn with children := replaceFirst cur op yn.children }, ?_,
          ⟨rfl, rfl, rfl, rfl, rfl⟩⟩
        rw [hel y]
        simp only [a1, if_false]
        rw [a2] at hy ⊢
        simp [hy]
      · by_cases a3 : y = op
        · refine ⟨markSetup { yn with parent := some cur1, children := rest }, ?_,
            SameTag.markSetup { yn with parent := some cur1, children := rest }⟩
          rw [hel y]
          simp only [a1, a2, if_false]
          rw [a3] at hy ⊢
          simp [hy]
        · by_cases a4 : y ∈ rest
          · refine ⟨markSetup { yn with parent := some op }, ?_,
              SameTag.markSetup { yn with parent := some op }⟩
            rw [hel y]
            simp [a1, a2, a3, a4, hy]
          · exact ⟨yn, by rw [hel y]; simp [a1, a2, a3, a4, hy], SameTag.tag_refl _⟩
    · intro _ ho1
      rw [ho] at ho1
      cases ho1

/-- Every non-irrelevant opening Brace the builder inserted is still live, with
the attributes it was constructed with. -/
theorem Built.kept {ext : Ext} {r : Nat} {rootName : String} {hist : List (Nat × Node)}
    {s : State} {cur : Nat} (h : Built ext r rootName hist s cur) :
    ∀ n nd, (n, nd) ∈ hist → nd.kind.isBrace = true → nd.isOpen = true →
      nd.isIrrelevant = false → ∃ nd1, s.nodes n = some nd1 ∧ SameTag nd nd1 := by
  induction h with
  | start =>
    intro n nd hm
    cases hm
  | insert hist s cur fuel n nroot name value kind isOpen isIrrelevant s1 cur1 hb hn hok ih =>
    intro m md hm hbr hop hirr
    obtain ⟨k1, k2⟩ := hb.wf.step_keeps hn rfl hok
    rcases List.mem_cons.mp hm with e | hm
    · cases e
      exact k2 hbr hop
    · obtain ⟨md1, e1, e2⟩ := ih m md hm hbr hop hirr
      obtain ⟨md2, e3, e4⟩ := k1 m md1 e1 (e2.2.2.2.2.trans hirr)
      exact ⟨md2, e3, e2.tag_trans e4⟩

/-- C6. In every state the builder reaches from a lone root: every irrelevant
Brace in the tree is the focus or an ancestor of the focus; hence when the focus
is the root the tree holds no irrelevant Brace; and every opening Brace that is
not irrelevant and was inserted is still a node of the tree, with the name,
value and kind it was constructed with. -/
theorem parens_disappear (ext : Ext) (r : Nat) (rootName : String)
    (hist : List (Nat × Node)) (s : State) (cur : Nat)
    (h : Built ext r rootName hist s cur) :
    (∀ x nd, Desc s r x → s.nodes x = some nd → nd.kind.isBrace = true →
      nd.isIrrelevant = true → OnPath s x cur) ∧
    (cur = r → ∀ x nd, Desc s r x → s.nodes x = some nd →
      ¬ (nd.kind.isBrace = true ∧ nd.isIrrelevant = true)) ∧
    (∀ n nd, (n, nd) ∈ hist → nd.kind.isBrace = true → nd.isOpen = true →
      nd.isIrrelevant = false → Desc s r n ∧ ∃ nd1, s.nodes n = some nd1 ∧ SameTag nd nd1) := by
  have w := h.wf
  refine ⟨fun x nd _ hx hb hi => w.parens x nd hx hb hi, ?_, ?_⟩
  · rintro rfl x nd _ hx ⟨hb, hi⟩
    obtain ⟨rn, h1, h2, h3⟩ := w.root
    rcases (w.parens x nd hx hb hi).path_step with rfl | ⟨cn, p, e1, e2, _⟩
    · rw [h1] at hx
      cases hx
      rw [h3] at hb
      cases hb
    · rw [h1] at e1
      cases e1
      rw [h2] at e2
      cases e2
  · intro n nd hm hb ho hi
    obtain ⟨nd1, e1, e2⟩ := h.kept n nd hm hb ho hi
    exact ⟨w.live_desc n nd1 e1, nd1, e1, e2⟩

/-- C6, on the state after the sample token stream, whose focus is the root. -/
theorem parens_disappear_witness :
    (∀ x nd, Desc (sampleState 7) 0 x → (sampleState 7).nodes x = some nd →
      nd.kind.isBrace = true → nd.isIrrelevant = true → OnPath (sampleState 7) x 0) ∧
    (0 = 0 → ∀ x nd, Desc (sampleState 7) 0 x → (sampleState 7).nodes x = some nd →
      ¬ (nd.kind.isBrace = true ∧ nd.isIrrelevant = true)) ∧
    (∀ n nd, (n, nd) ∈ sampleHist 7 → nd.kind.isBrace = true → nd.isOpen = true →
      nd.isIrrelevant = false →
      Desc (sampleState 7) 0 n ∧ ∃ nd1, (sampleState 7).nodes n = some nd1 ∧ SameTag nd nd1) :=
  parens_disappear stdExt 0 "root" (sampleHist 7) (sampleState 7) 0 sample_built_7

/-! ## C1, C3: closing a bracket -/

/-- In a well-formed tree a node with a parent, and its children, are ready
for `setupNode`. -/
theorem WF.ready {s : State} {r cur x par : Nat} {c : Node} (h : WF s r cur)
    (hc : s.nodes x = some c) (hpar : c.parent = some par) :
    nd_ready c ∧ ∀ k ∈ c.children, ∃ kn, s.nodes k = some kn ∧ nd_ready kn := by
  have hroot : ∀ y yn p, s.nodes y = some yn → yn.parent = some p → y ≠ r := by
    rintro y yn p hy hp rfl
    obtain ⟨rn, h1, h2, _⟩ := h.root
    rw [hy] at h1
    cases h1
    rw [hp] at h2
    cases h2
  refine ⟨Or.inr ⟨h.inited x c hc (hroot x c par hc hpar), by simp [hpar]⟩, ?_⟩
  intro k hk
  obtain ⟨kn, h1, h2⟩ := h.down x c k hc hk
  exact ⟨kn, h1, Or.inr ⟨h.inited k kn h1 (hroot k kn x h1 h2), by simp [h2]⟩⟩

/-- With hooks that return normally, closing a structural bracket returns the
parent of the focus. -/
theorem insertNode_close_returns {ext : Ext} {s : State} {r cur n par : Nat} {c nd : Node}
    (fuel : Nat) (h : WF s r cur) (hn : s.nodes n = none) (hb : nd.kind.isBrace = true)
    (ho : nd.isOpen = false) (hleaf : nd.children = []) (hc : s.nodes cur = some c)
    (hpar : c.parent = some par) (hcb : c.kind.isBrace = true)
    (hirr : c.isIrrelevant = false) (hm : ext.matchesCloseBrace c nd = true)
    (hsetup : ∀ st y, ext.setup st y = none) (han : ∀ st y, ext.analyze st y = none) :
    ∃ s1, insertNode (fuel + 1) ext (s.set n nd) (some cur) (some n) = .ok par s1 := by
  have live : ∀ y yn, s.nodes y = some yn → y ≠ n := by
    rintro y yn hy rfl
    rw [hn] at hy
    cases hy
  have hcn := live cur c hc
  have e0c : (s.set n nd).nodes cur = some c := by simp [hcn, hc]
  have e0n : (s.set n nd).nodes n = some nd := by simp
  obtain ⟨hr, hk⟩ := h.ready hc hpar
  obtain ⟨s1, h1⟩ := finishClose_succeeds fuel ext (s.set n nd) cur n par c nd hsetup han e0c hr
    (by
      intro k hkm
      obtain ⟨kn, e1, e2⟩ := hk k hkm
      exact ⟨kn, by simp [live k kn e1, e1], e2⟩)
    e0n hleaf hcn.symm (by
      intro hm1
      obtain ⟨kn, e1, _⟩ := hk n hm1
      exact live n kn e1 rfl)
  refine ⟨s1, ?_⟩
  unfold insertNode
  simp only [e0c, e0n, hb, ho, hpar, hcb, hm, hirr, Bool.not_true, Bool.false_eq_true, if_false]
  exact h1

/-- With hooks that return normally, closing an irrelevant paren whose first
child has no children returns the parent of the focus. -/
theorem insertNode_elide_returns {ext : Ext} {s : State} {r cur n par op : Nat}
    {rest : List Nat} {c nd : Node}
    (fuel : Nat) (h : WF s r cur) (hn : s.nodes n = none) (hb : nd.kind.isBrace = true)
    (ho : nd.isOpen = false) (hleaf : nd.children = []) (hc : s.nodes cur = some c)
    (hpar : c.parent = some par) (hcb : c.kind.isBrace = true)
    (hirr : c.isIrrelevant = true) (hm : ext.matchesCloseBrace c nd = true)
    (hch : c.children = op :: rest) (hoc : ∀ o, s.nodes op = some o → o.children = [])
    (hsetup : ∀ st y, ext.setup st y = none) (han : ∀ st y, ext.analyze st y = none) :
    ∃ s1, insertNode (fuel + 1) ext (s.set n nd) (some cur) (some n) = .ok par s1 := by
  have live : ∀ y yn, s.nodes y = some yn → y ≠ n := by
    rintro y yn hy rfl
    rw [hn] at hy
    cases hy
  have hcn := live cur c hc
  have e0 : ∀ y, y ≠ n → (s.set n nd).nodes y = s.nodes y := by
    intro y hy
    simp [hy]
  have e0c : (s.set n nd).nodes cur = some c := by simp [hcn, hc]
  have e0n : (s.set n nd).nodes n = some nd := by simp
  obtain ⟨pn, o, pre, post, hp, hsplit, hpre, hpost, hop_par, hop, hopar, hrest, n1,
    n2, n3, n4, n5, n6, hndr⟩ := h.family hc hpar hch
  have hon : op ≠ n := live op o hop
  have hpn : par ≠ n := live par pn hp
  have hrn : ∀ i ∈ rest, i ≠ n := by
    intro i hi
    obtain ⟨ni, e1, _⟩ := hrest i hi
    exact live i ni e1
  obtain ⟨s3, k1, _, k3⟩ := promote_spec (s.set n nd) cur par op rest c o pn e0c hch
    hpar (by rw [e0 op hon]; exact hop) (hoc o hop) (by rw [e0 par hpn]; exact hp)
    n1 n2 n3 n4 n5 n6 (by
      intro i hi
      obtain ⟨ni, e1, _⟩ := hrest i hi
      exact ⟨ni, by rw [e0 i (hrn i hi)]; exact e1⟩)
  have k3op : s3.nodes op = some { o with parent := some par, children := rest } := by
    rw [k3 op]
    simp [n1, n3.symm]
  have k3n : s3.nodes n = some nd := by
    rw [k3 n]
    have a4 : n ∉ rest := fun hm => hrn n hm rfl
    simp [hcn.symm, hpn.symm, hon.symm, a4]
  obtain ⟨hro, _⟩ := h.ready hop hopar
  have hro1 : nd_ready { o with parent := some par, children := rest } := by
    rcases hro with hs | ⟨hi, _⟩
    · exact Or.inl hs
    · exact Or.inr ⟨hi, by simp⟩
  obtain ⟨s1, h1⟩ := finishClose_succeeds fuel ext s3 op n par _ nd hsetup han k3op hro1
    (by
      intro k hkm
      have hkm1 : k ∈ rest := hkm
      obtain ⟨kn, e1, e2⟩ := hrest k hkm1
      obtain ⟨hrk, _⟩ := h.ready e1 e2
      refine ⟨{ kn with parent := some op }, ?_, ?_⟩
      · rw [k3 k]
        have a1 : k ≠ cur := fun e => n4 (e ▸ hkm1)
        have a2 : k ≠ par := fun e => n6 (e ▸ hkm1)
        have a3 : k ≠ op := fun e => n5 (e ▸ hkm1)
        simp [a1, a2, a3, hkm1, hrn k hkm1, e1]
      · rcases hrk with hs | ⟨hi, _⟩
        · exact Or.inl hs
        · exact Or.inr ⟨hi, by simp⟩)
    k3n hleaf hon.symm (fun hm1 => hrn n hm1 rfl)
  refine ⟨s1, ?_⟩
  unfold insertNode
  simp only [e0c, e0n, hb, ho, hpar, hcb, hm, hirr, Bool.not_true, Bool.false_eq_true, if_false,
    if_true, k1 (fuel + 1), Nat.succ_ne_zero, Outcome.bind_ok]
  exact h1

/-- C3. On a well-formed tree whose focus `cur` is a Brace with parent `par`
(so not the Root), not irrelevant, and matching the freshly allocated childless
closing Brace `n`, and with setup and analysis hooks that return normally:
`insertNode` returns `par`; the record of `par` is untouched (so `cur` keeps its
place among the children of `par`); `cur` keeps its parent and its children, in
order; `cur` and each of its children are marked set up and analyzed; the
closing Brace is freed and is in no child sequence; every other node is
unchanged; and the tree is well-formed around the new focus. -/
theorem insertNode_close_structural (fuel : Nat) (ext : Ext) (s : State) (r cur n par : Nat)
    (c nd : Node) (h : WF s r cur) (hn : s.nodes n = none) (hb : nd.kind.isBrace = true)
    (ho : nd.isOpen = false) (hleaf : nd.children = []) (hc : s.nodes cur = some c)
    (hpar : c.parent = some par) (hcb : c.kind.isBrace = true)
    (hirr : c.isIrrelevant = false) (hm : ext.matchesCloseBrace c nd = true)
    (hsetup : ∀ st y, ext.setup st y = none) (han : ∀ st y, ext.analyze st y = none) :
    ∃ s1, insertNode (fuel + 1) ext (s.set n nd) (some cur) (some n) = .ok par s1 ∧
      s1.nodes par = s.nodes par ∧
      (∃ c1, s1.nodes cur = some c1 ∧ c1.parent = some par ∧ c1.children = c.children ∧
        c1.isSetup = true ∧ c1.isAnalyzed = true) ∧
      (∀ k ∈ c.children, ∃ k1, s1.nodes k = some k1 ∧ k1.parent = some cur ∧
        k1.isSetup = true ∧ k1.isAnalyzed = true) ∧
      (s1.nodes n = none ∧ ∀ y yn, s1.nodes y = some yn → n ∉ yn.children) ∧
      (∀ y, y ≠ cur → y ∉ c.children → s1.nodes y = s.nodes y) ∧
      WF s1 r par := by
  obtain ⟨s1, hok⟩ := insertNode_close_returns fuel h hn hb ho hleaf hc hpar hcb hirr hm hsetup han
  have hcl : Closed s s1 cur c.children := by
    rcases insertNode_step h hn hleaf hok with ⟨hk, _⟩ |
      ⟨_, _, _, c1, hc1, _, _, _, ⟨_, hcl⟩ | ⟨hirr1, _⟩⟩
    · rcases hk with hk | hk
      · rw [hk] at hb
        cases hb
      · rw [hk] at ho
        cases ho
    · rw [hc] at hc1
      cases hc1
      exact hcl
    · rw [hc] at hc1
      cases hc1
      rw [hirr] at hirr1
      cases hirr1
  have w1 : WF s1 r par := h.close hc hpar hirr hcl
  obtain ⟨d, hd⟩ := h.depth
  have hdp := hd cur c par hc hpar
  have hpc : par ≠ cur := by
    rintro rfl
    omega
  have hpk : par ∉ c.children := by
    intro hmem
    obtain ⟨pn, e1, e2⟩ := h.down cur c par hc hmem
    have := hd par pn cur e1 e2
    omega
  have hnc : n ≠ cur := by
    rintro rfl
    rw [hn] at hc
    cases hc
  have hnk : n ∉ c.children := by
    intro hmem
    obtain ⟨kn, e1, _⟩ := h.down cur c n hc hmem
    rw [hn] at e1
    cases e1
  have e_n : s1.nodes n = none := by
    rw [hcl n]
    simp [hnc, hnk, hn]
  refine ⟨s1, hok, ?_, ?_, ?_, ⟨e_n, ?_⟩, ?_, w1⟩
  · rw [hcl par]
    simp [hpc, hpk]
  · exact ⟨markSetup c, by rw [hcl cur]; simp [hc], by simp [hpar], by simp, by simp,
      markSetup_isAnalyzed c (h.analyzed cur c hc)⟩
  · intro k hk
    obtain ⟨kn, e1, e2⟩ := h.down cur c k hc hk
    exact ⟨markSetup kn, by rw [hcl k]; simp [hk, e1], by simp [e2], by simp,
      markSetup_isAnalyzed kn (h.analyzed k kn e1)⟩
  · intro y yn hy hmem
    obtain ⟨nn, e1, _⟩ := w1.down y yn n hy hmem
    rw [e_n] at e1
    cases e1
  · intro y h1 h2
    rw [hcl y]
    simp [h1, h2]

/-- C3, closing the Block of the sample stream: the focus returns to the root
and the Block keeps its child `PLUS`. -/
theorem insertNode_close_structural_witness :
    ∃ s1, insertNode 1 stdExt ((sampleState 6).set 7 (sampleNode 7)) (some 1) (some 7) =
        .ok 0 s1 ∧
      s1.nodes 0 = (sampleState 6).nodes 0 ∧
      (∃ c1, s1.nodes 1 = some c1 ∧ c1.parent = some 0 ∧ c1.children = [3] ∧
        c1.isSetup = true ∧ c1.isAnalyzed = true) ∧
      (∀ k ∈ [3], ∃ k1, s1.nodes k = some k1 ∧ k1.parent = some 1 ∧
        k1.isSetup = true ∧ k1.isAnalyzed = true) ∧
      (s1.nodes 7 = none ∧ ∀ y yn, s1.nodes y = some yn → 7 ∉ yn.children) ∧
      (∀ y, y ≠ 1 → y ∉ [3] → s1.nodes y = (sampleState 6).nodes y) ∧
      WF s1 0 0 :=
  insertNode_close_structural 0 stdExt (sampleState 6) 0 1 7 0
    { newNode (some 0) "\x7b" "" .Block true false with
      parent := some 0, isInit := true, children := [3] }
    (sampleNode 7) sample_built_6.wf rfl rfl rfl rfl rfl rfl rfl rfl rfl
    (fun _ _ => rfl) (fun _ _ => rfl)

/-- C1. On a well-formed tree whose focus `cur` is an irrelevant Brace, child
of `par` at the position after `pre`, with children `op :: rest` where `op` has
no children, matching the freshly allocated childless closing Brace `n`, and
with setup and analysis hooks that return normally: `insertNode` returns `par`;
the children of `par` are as before except that `op` stands where `cur` stood;
`op` has parent `par` and exactly the children `rest`, each of which has parent
`op` and its own children as before; `cur` and `n` are freed and are in no child
sequence; every other node is unchanged; and the tree is well-formed around the
new focus. -/
theorem insertNode_paren_elision (fuel : Nat) (ext : Ext) (s : State) (r cur n par op : Nat)
    (rest pre post : List Nat) (c nd o pn : Node) (h : WF s r cur) (hn : s.nodes n = none)
    (hb : nd.kind.isBrace = true) (ho : nd.isOpen = false) (hleaf : nd.children = [])
    (hc : s.nodes cur = some c) (hpar : c.parent = some par) (hcb : c.kind.isBrace = true)
    (hirr : c.isIrrelevant = true) (hm : ext.matchesCloseBrace c nd = true)
    (hch : c.children = op :: rest) (hop : s.nodes op = some o) (hoc : o.children = [])
    (hp : s.nodes par = some pn) (hsplit : pn.children = pre ++ cur :: post)
    (hsetup : ∀ st y, ext.setup st y = none) (han : ∀ st y, ext.analyze st y = none) :
    ∃ s1, insertNode (fuel + 1) ext (s.set n nd) (some cur) (some n) = .ok par s1 ∧
      s1.nodes par = some { pn with children := pre ++ op :: post } ∧
      (∃ o1, s1.nodes op = some o1 ∧ o1.parent = some par ∧ o1.children = rest ∧
        SameTag o o1) ∧
      (∀ k ∈ rest, ∃ kn k1, s.nodes k = some kn ∧ s1.nodes k = some k1 ∧
        k1.parent = some op ∧ k1.children = kn.children ∧ SameTag kn k1) ∧
      (s1.nodes cur = none ∧ s1.nodes n = none ∧
        ∀ y yn, s1.nodes y = some yn → cur ∉ yn.children ∧ n ∉ yn.children) ∧
      (∀ y, y ≠ cur → y ≠ par → y ≠ op → y ∉ rest → s1.nodes y = s.nodes y) ∧
      WF s1 r par := by
  have hoc1 : ∀ o1, s.nodes op = some o1 → o1.children = [] := by
    intro o1 e
    rw [hop] at e
    cases e
    exact hoc
  obtain ⟨s1, hok⟩ := insertNode_elide_returns fuel h hn hb ho hleaf hc hpar hcb hirr hm hch
    hoc1 hsetup han
  have hel : Elided s s1 cur par op rest := by
    rcases insertNode_step h hn hleaf hok with ⟨hk, _⟩ |
      ⟨_, _, _, c1, hc1, _, _, _, ⟨hirr1, _⟩ | ⟨_, op1, rest1, hch1, _, hel⟩⟩
    · rcases hk with hk | hk
      · rw [hk] at hb
        cases hb
      · rw [hk] at ho
        cases ho
    · rw [hc] at hc1
      cases hc1
      rw [hirr] at hirr1
      cases hirr1
    · rw [hc] at hc1
      cases hc1
      rw [hch] at hch1
      cases hch1
      exact hel
  have w1 : WF s1 r par := h.elide hc hpar hch hoc1 hel
  obtain ⟨pn1, o1, pre1, post1, hp1, _, _, _, _, _, _, hrest, n1, n2, n3, n4, n5, n6, _⟩ :=
    h.family hc hpar hch
  have hpre : cur ∉ pre := by
    have hnd := h.nodup par pn hp
    rw [hsplit] at hnd
    exact fun hmem => (List.nodup_append.mp hnd).2.2 hmem (List.mem_cons_self cur post)
  have live : ∀ y yn, s.nodes y = some yn → y ≠ n := by
    rintro y yn hy rfl
    rw [hn] at hy
    cases hy
  have e_cur : s1.nodes cur = none := by
    rw [hel cur]
    simp
  have e_n : s1.nodes n = none := by
    rw [hel n]
    have a4 : n ∉ rest := by
      intro hmem
      obtain ⟨kn, e1, _⟩ := hrest n hmem
      exact live n kn e1 rfl
    simp [(live cur c hc).symm, (live par pn hp).symm, (live op o hop).symm, a4, hn]
  refine ⟨s1, hok, ?_, ?_, ?_, ⟨e_cur, e_n, ?_⟩, ?_, w1⟩
  · rw [hel par]
    simp [n2, hp, hsplit, replaceFirst_append cur op pre post hpre]
  · exact ⟨markSetup { o with parent := some par, children := rest },
      by rw [hel op]; simp [n1, n3.symm, hop], by simp, by simp,
      SameTag.markSetup { o with parent := some par, children := rest }⟩
  · intro k hk
    obtain ⟨kn, e1, _⟩ := hrest k hk
    have a1 : k ≠ cur := fun e => n4 (e ▸ hk)
    have a2 : k ≠ par := fun e => n6 (e ▸ hk)
    have a3 : k ≠ op := fun e => n5 (e ▸ hk)
    exact ⟨kn, markSetup { kn with parent := some op }, e1,
      by rw [hel k]; simp [a1, a2, a3, hk, e1], by simp, by simp,
      SameTag.markSetup { kn with parent := some op }⟩
  · intro y yn hy
    constructor
    · intro hmem
      obtain ⟨cn, e1, _⟩ := w1.down y yn cur hy hmem
      rw [e_cur] at e1
      cases e1
    · intro hmem
      obtain ⟨nn, e1, _⟩ := w1.down y yn n hy hmem
      rw [e_n] at e1
      cases e1
  · intro y a1 a2 a3 a4
    rw [hel y]
    simp [a1, a2, a3, a4]

/-- C1, on the tokens `( PLUS a b )` inside the Block of the sample stream:
the Block's only child becomes `PLUS`, with the operands as its children. -/
theorem insertNode_paren_elision_witness :
    ∃ s1, insertNode 1 stdExt ((sampleState 5).set 6 (sampleNode 6)) (some 2) (some 6) =
        .ok 1 s1 ∧
      s1.nodes 1 = some { newNode (some 0) "\x7b" "" .Block true false with
        parent := some 0, isInit := true, children := [] ++ 3 :: [] } ∧
      (∃ o1, s1.nodes 3 = some o1 ∧ o1.parent = some 1 ∧ o1.children = [4, 5] ∧
        SameTag { newNode (some 0) "PLUS" "" .Operator false false with
          parent := some 2, isInit := true } o1) ∧
      (∀ k ∈ [4, 5], ∃ kn k1, (sampleState 5).nodes k = some kn ∧ s1.nodes k = some k1 ∧
        k1.parent = some 3 ∧ k1.children = kn.children ∧ SameTag kn k1) ∧
      (s1.nodes 2 = none ∧ s1.nodes 6 = none ∧
        ∀ y yn, s1.nodes y = some yn → 2 ∉ yn.children ∧ 6 ∉ yn.children) ∧
      (∀ y, y ≠ 2 → y ≠ 1 → y ≠ 3 → y ∉ [4, 5] → s1.nodes y = (sampleState 5).nodes y) ∧
      WF s1 0 1 :=
  insertNode_paren_elision 0 stdExt (sampleState 5) 0 2 6 1 3 [4, 5] [] []
    { newNode (some 0) "(" "" .Brace true true with
      parent := some 1, isInit := true, children := [3, 4, 5] }
    (sampleNode 6)
    { newNode (some 0) "PLUS" "" .Operator false false with parent := some 2, isInit := true }
    { newNode (some 0) "\x7b" "" .Block true false with
      parent := some 0, isInit := true, children := [2] }
    sample_built_5.wf rfl rfl rfl rfl rfl rfl rfl rfl rfl rfl rfl rfl rfl rfl
    (fun _ _ => rfl) (fun _ _ => rfl)

/-! ## The tokenizer -/

theorem tokLoop_append (ast : List Char) (l1 l2 : List Char) :
    ∀ (i : Nat) (st : TokState),
      tokLoop ast i (l1 ++ l2) st =
        match tokLoop ast i l1 st with
        | .error msg => .error msg
        | .ok st1 => tokLoop ast (i + l1.length) l2 st1 := by
  induction l1 with
  | nil => intro i st; simp [tokLoop]
  | cons c l ih =>
    intro i st
    simp only [List.cons_append, tokLoop, List.length_cons]
    cases h : tokStep ast i c st with
    | error msg => rfl
    | ok st1 =>
      have e : i + 1 + l.length = i + (l.length + 1) := by omega
      have := ih (i + 1) st1
      rw [e] at this
      exact this

/-- The loop only looks backwards: two inputs that agree on the characters
read so far drive it the same way. -/
theorem tokStep_agree (ast1 ast2 : List Char) (i : Nat) (c : Char) (st : TokState)
    (h : ∀ j, j < i → ast1[j]? = ast2[j]?) :
    tokStep ast1 i c st = tokStep ast2 i c st := by
  have h1 : (1 ≤ i ∧ ast1[i - 1]? = some ':') = (1 ≤ i ∧ ast2[i - 1]? = some ':') := by
    by_cases hi : 1 ≤ i
    · rw [h (i - 1) (by omega)]
    · simp [hi]
  have h2 : (2 ≤ i ∧ ast1[i - 1]? = some '\x27' ∧ ast1[i - 2]? = some ':') =
      (2 ≤ i ∧ ast2[i - 1]? = some '\x27' ∧ ast2[i - 2]? = some ':') := by
    by_cases hi : 2 ≤ i
    · rw [h (i - 1) (by omega), h (i - 2) (by omega)]
    · simp [hi]
  unfold tokStep tokStepCode
  simp only [h1, h2]

theorem tokLoop_agree (ast1 ast2 : List Char) (l : List Char) :
    ∀ (i : Nat) (st : TokState), (∀ j, j < i + l.length → ast1[j]? = ast2[j]?) →
      tokLoop ast1 i l st = tokLoop ast2 i l st := by
  induction l with
  | nil => intro i st _; rfl
  | cons c l ih =>
    intro i st h
    simp only [tokLoop]
    rw [tokStep_agree ast1 ast2 i c st (fun j hj => h j (by simp; omega))]
    cases tokStep ast2 i c st with
    | error msg => rfl
    | ok st1 =>
      exact ih (i + 1) st1 (fun j hj => h j (by simp at hj ⊢; omega))

/-- One more character of the input is one more iteration of the loop. -/
theorem tokPrefix_succ (ast : List Char) (k : Nat) (hk : k < ast.length) :
    tokPrefix ast (k + 1) =
      match tokPrefix ast k with
      | .error msg => .error msg
      | .ok st => tokStep ast k (ast.get ⟨k, hk⟩) st := by
  unfold tokPrefix
  have e : ast.take (k + 1) = ast.take k ++ [ast.get ⟨k, hk⟩] := by
    rw [List.take_succ, List.getElem?_eq_getElem hk]
    rfl
  rw [e, tokLoop_append]
  cases h : tokLoop ast 0 (List.take k ast) TokState.start with
  | error msg => rfl
  | ok st =>
    have hl : 0 + (List.take k ast).length = k := by
      rw [List.length_take]; omega
    rw [hl]
    show (match tokStep ast k (ast.get ⟨k, hk⟩) st with
      | Except.error msg => Except.error msg
      | Except.ok st1 => tokLoop ast (k + 1) [] st1) = tokStep ast k (ast.get ⟨k, hk⟩) st
    cases tokStep ast k (ast.get ⟨k, hk⟩) st <;> rfl

theorem tokPrefix_length (ast : List Char) : tokPrefix ast ast.length = tokRun ast := by
  simp [tokPrefix, tokRun]

theorem String.mk_data_append_nil (w : String) : String.mk (w.data ++ []) = w := by
  cases w; simp

/-- Inside an open `cmd` token of CMD mode every character other than a
bracket or a brace is appended to the value. -/
theorem tokLoop_cmd_text (ast : List Char) (l : List Char) :
    ∀ (i : Nat) (st : TokState), st.mode = .CMD → st.inToken = true → st.inValue = true →
      (∀ c ∈ l, c ≠ '[' ∧ c ≠ ']' ∧ c ≠ '\x7b' ∧ c ≠ '\x7d') →
      tokLoop ast i l st =
        .ok { st with current := { st.current with
                value := String.mk (st.current.value.data ++ l) } } := by
  induction l with
  | nil =>
    intro i st _ _ _ _
    simp [tokLoop, String.mk_data_append_nil]
  | cons c l ih =>
    intro i st hm ht hv hl
    obtain ⟨c1, c2, c3, c4⟩ := hl c (List.mem_cons_self _ _)
    have hstep : tokStep ast i c st =
        .ok { st with current := { st.current with value := st.current.value.push c } } := by
      simp [tokStep, tokStepNone, tokStepCmd, tokStepCode, hm, ht, hv, c1, c2, c3, c4]
    simp only [tokLoop, hstep]
    refine (ih (i + 1)
      { st with current := { st.current with value := st.current.value.push c } } hm ht hv
      (fun d hd => hl d (List.mem_cons_of_mem _ hd))).trans ?_
    simp [String.push]

/-- C14. A command list holding plain text: for every non-empty string `s`
without `[`, `]`, opening or closing brace, `tokenize` of `[` `s` `]` succeeds
with exactly the three tokens `[`, `cmd` with value `s` verbatim, `]`. -/
theorem tokenize_command_text (s : String) (hne : s ≠ "")
    (hs : ∀ c ∈ s.data, c ≠ '[' ∧ c ≠ ']' ∧ c ≠ '\x7b' ∧ c ≠ '\x7d') :
    tokenize ("[" ++ s ++ "]") = .ok [⟨"[", ""⟩, ⟨"cmd", s⟩, ⟨"]", ""⟩] := by
  obtain ⟨l⟩ := s
  cases l with
  | nil => exact absurd rfl hne
  | cons c l =>
    obtain ⟨c1, c2, c3, c4⟩ := hs c (List.mem_cons_self _ _)
    have e : ("[" ++ String.mk (c :: l) ++ "]").data = '[' :: c :: (l ++ [']']) := rfl
    unfold tokenize tokRun
    rw [e]
    simp only [tokLoop]
    have s0 : tokStep ('[' :: c :: (l ++ [']'])) 0 '[' TokState.start =
        .ok { mode := .CMD, current := ⟨"", ""⟩, v := [⟨"[", ""⟩], escape := false,
              inToken := false, inValue := false, codeDepth := 0 } := rfl
    simp only [s0]
    have s1 : tokStep ('[' :: c :: (l ++ [']'])) (0 + 1) c
        { mode := .CMD, current := ⟨"", ""⟩, v := [⟨"[", ""⟩], escape := false,
          inToken := false, inValue := false, codeDepth := 0 } =
        .ok { mode := .CMD, current := ⟨"cmd", String.mk [c]⟩, v := [⟨"[", ""⟩],
              escape := false, inToken := true, inValue := true, codeDepth := 0 } := by
      simp [tokStep, tokStepNone, tokStepCmd, tokStepCode, c1, c2, c3, c4, String.push]
    simp only [s1]
    rw [tokLoop_append, tokLoop_cmd_text _ l _ _ rfl rfl rfl
      (fun d hd => hs d (List.mem_cons_of_mem _ hd))]
    simp [tokLoop, tokStep, tokStepNone, tokStepCmd, tokStepCode, TokState.flush, TokState.pushCurrent]

/-- C14 on `[ls -l a:'\]`: space, colon, quote and backslash stay in the
value. -/
theorem tokenize_command_text_witness :
    tokenize ("[" ++ "ls -l a:\x27\x5c" ++ "]") =
      .ok [⟨"[", ""⟩, ⟨"cmd", "ls -l a:\x27\x5c"⟩, ⟨"]", ""⟩] :=
  tokenize_command_text "ls -l a:\x27\x5c" (by decide) (by decide)

theorem Char.isAlpha_not_special (c : Char) (h : c.isAlpha = true) :
    c ≠ '\x7b' ∧ c ≠ '\x7d' ∧ c ≠ ':' ∧ c ≠ ' ' ∧ c ≠ ';' ∧ c ≠ '\x27' ∧ c ≠ '\x5c' ∧
      c ≠ '[' ∧ c ≠ ']' := by
  refine ⟨?_, ?_, ?_, ?_, ?_, ?_, ?_, ?_, ?_⟩ <;>
    (rintro rfl; revert h; decide)

/-- Outside a value, alphabetic characters of CODE mode extend the name of the
open token. -/
theorem tokLoop_code_name (ast : List Char) (l : List Char) :
    ∀ (i : Nat) (st : TokState), st.mode = .CODE → st.inToken = true → st.inValue = false →
      (∀ c ∈ l, c.isAlpha = true) →
      tokLoop ast i l st =
        .ok { st with current := { st.current with
                name := String.mk (st.current.name.data ++ l) } } := by
  induction l with
  | nil =>
    intro i st _ _ _ _
    simp [tokLoop, String.mk_data_append_nil]
  | cons c l ih =>
    intro i st hm ht hv hl
    obtain ⟨c1, c2, c3, c4, c5, c6, c7, -, -⟩ :=
      Char.isAlpha_not_special c (hl c (List.mem_cons_self _ _))
    have hstep : tokStep ast i c st =
        .ok { st with current := { st.current with name := st.current.name.push c } } := by
      simp [tokStep, tokStepNone, tokStepCmd, tokStepCode, hm, ht, hv, c1, c2, c3, c4, c5, c6, c7, hl c (List.mem_cons_self _ _)]
    simp only [tokLoop, hstep]
    refine (ih (i + 1)
      { st with current := { st.current with name := st.current.name.push c } } hm ht hv
      (fun d hd => hl d (List.mem_cons_of_mem _ hd))).trans ?_
    simp [String.push]

/-- Inside a value of CODE mode a bare alphabetic character is appended to the
value, and so is any character that follows a backslash. -/
theorem tokLoop_code_value (ast : List Char) (ps : List Piece) :
    ∀ (i : Nat) (st : TokState), st.mode = .CODE → st.inValue = true → st.escape = false →
      (∀ p ∈ ps, p.valid = true) →
      tokLoop ast i (ps.flatMap Piece.text) st =
        .ok { st with current := { st.current with
                value := String.mk (st.current.value.data ++ ps.map Piece.decoded) } } := by
  induction ps with
  | nil =>
    intro i st _ _ _ _
    simp [tokLoop, String.mk_data_append_nil]
  | cons p ps ih =>
    intro i st hm hv he hl
    have hl1 : ∀ q ∈ ps, q.valid = true :=
      fun q hq => hl q (List.mem_cons_of_mem _ hq)
    cases p with
    | bare c =>
      have ha : c.isAlpha = true := hl (.bare c) (List.mem_cons_self _ _)
      obtain ⟨c1, c2, c3, c4, c5, c6, c7, -, -⟩ := Char.isAlpha_not_special c ha
      have hstep : tokStep ast i c st =
          .ok { st with current := { st.current with value := st.current.value.push c } } := by
        simp [tokStep, tokStepNone, tokStepCmd, tokStepCode, hm, hv, he, c1, c2, c3, c4, c5, c6, c7, ha]
      simp only [List.flatMap_cons, Piece.text, List.cons_append, List.nil_append, tokLoop, hstep]
      refine (ih (i + 1)
        { st with current := { st.current with value := st.current.value.push c } } hm hv he
        hl1).trans ?_
      simp [String.push, Piece.decoded]
    | escaped c =>
      have hstep1 : tokStep ast i '\x5c' st = .ok { st with escape := true } := by
        simp [tokStep, tokStepNone, tokStepCmd, tokStepCode, hm, hv, he]
      have hstep2 : tokStep ast (i + 1) c { st with escape := true } =
          .ok { st with current := { st.current with value := st.current.value.push c } } := by
        simp [tokStep, tokStepNone, tokStepCmd, tokStepCode, hm, hv, he]
      simp only [List.flatMap_cons, Piece.text, List.cons_append, List.nil_append, tokLoop,
        hstep1, hstep2]
      refine (ih (i + 1 + 1)
        { st with current := { st.current with value := st.current.value.push c } } hm hv he
        hl1).trans ?_
      simp [String.push, Piece.decoded]

/-- C13. Escaping inside a quoted value: for every non-empty alphabetic name
and every non-empty value written as pieces, each a bare alphabetic character
or a backslash followed by an arbitrary single-byte character (any `char` with
a code below 128: letters, digits, quote, backslash, braces, brackets, colon,
blank, control characters), `tokenize` of `[`, opening brace, name, `:`, quote,
pieces, quote, closing brace, `]` succeeds and returns exactly `[`, opening
brace, the token with that name and the decoded value, closing brace, `]`: the
character after a backslash is appended literally and never acts as a
delimiter.  Every character of such an input is a single byte, so the loop of
the code and the loop here read it in the same steps. -/
theorem tokenize_value_escaping (name : List Char) (pieces : List Piece)
    (hname : name ≠ []) (halpha : ∀ c ∈ name, c.isAlpha = true)
    (hpieces : pieces ≠ []) (hvalid : ∀ p ∈ pieces, p.valid = true) :
    tokenize (String.mk (['[', '\x7b'] ++ name ++ [':', '\x27'] ++
        pieces.flatMap Piece.text ++ ['\x27', '\x7d', ']'])) =
      .ok [⟨"[", ""⟩, ⟨"\x7b", ""⟩,
           ⟨String.mk name, String.mk (pieces.map Piece.decoded)⟩,
           ⟨"\x7d", ""⟩, ⟨"]", ""⟩] := by
  cases name with
  | nil => exact absurd rfl hname
  | cons a name =>
    have ha := halpha a (List.mem_cons_self _ _)
    obtain ⟨c1, c2, c3, c4, c5, c6, c7, -, -⟩ := Char.isAlpha_not_special a ha
    generalize hast : (['[', '\x7b'] ++ (a :: name) ++ [':', '\x27'] ++
        pieces.flatMap Piece.text ++ ['\x27', '\x7d', ']']) = ast
    have hlook : ast[(0 + 1 + 1 + 1 + name.length + 1) - 1]? = some ':' := by
      rw [← hast]
      have e : (['[', '\x7b'] ++ (a :: name) ++ [':', '\x27'] ++
          pieces.flatMap Piece.text ++ ['\x27', '\x7d', ']']) =
          ('[' :: '\x7b' :: a :: name) ++
            (':' :: '\x27' :: (pieces.flatMap Piece.text ++ ['\x27', '\x7d', ']'])) := by
        simp
      rw [e]
      have e2 : (0 + 1 + 1 + 1 + name.length + 1) - 1 = ('[' :: '\x7b' :: a :: name).length := by
        simp; omega
      rw [e2, List.getElem?_append_right (Nat.le_refl _)]
      simp
    have hsplit : ast = '[' :: '\x7b' :: a :: (name ++ (':' :: '\x27' ::
        (pieces.flatMap Piece.text ++ ['\x27', '\x7d', ']']))) := by
      rw [← hast]; simp
    have key : ∀ l, l = '[' :: '\x7b' :: a :: (name ++ (':' :: '\x27' ::
        (pieces.flatMap Piece.text ++ ['\x27', '\x7d', ']']))) →
        tokLoop ast 0 l TokState.start =
          .ok { mode := .NONE, current := ⟨"", ""⟩,
                v := [⟨"[", ""⟩, ⟨"\x7b", ""⟩,
                      ⟨String.mk (a :: name), String.mk (pieces.map Piece.decoded)⟩,
                      ⟨"\x7d", ""⟩, ⟨"]", ""⟩],
                escape := false, inToken := false, inValue := false, codeDepth := 0 } := by
      intro l hl
      subst hl
      have s0 : tokStep ast 0 '[' TokState.start =
          .ok { mode := .CMD, current := ⟨"", ""⟩, v := [⟨"[", ""⟩], escape := false,
                inToken := false, inValue := false, codeDepth := 0 } := rfl
      have s1 : tokStep ast (0 + 1) '\x7b'
          { mode := .CMD, current := ⟨"", ""⟩, v := [⟨"[", ""⟩], escape := false,
            inToken := false, inValue := false, codeDepth := 0 } =
          .ok { mode := .CODE, current := ⟨"", ""⟩, v := [⟨"[", ""⟩, ⟨"\x7b", ""⟩],
                escape := false, inToken := false, inValue := false, codeDepth := 1 } := rfl
      have s2 : tokStep ast (0 + 1 + 1) a
          { mode := .CODE, current := ⟨"", ""⟩, v := [⟨"[", ""⟩, ⟨"\x7b", ""⟩],
            escape := false, inToken := false, inValue := false, codeDepth := 1 } =
          .ok { mode := .CODE, current := ⟨String.mk [a], ""⟩, v := [⟨"[", ""⟩, ⟨"\x7b", ""⟩],
                escape := false, inToken := true, inValue := false, codeDepth := 1 } := by
        simp [tokStep, tokStepNone, tokStepCmd, tokStepCode, c1, c2, c3, c4, c5, c6, c7, ha, String.push]
      simp only [tokLoop, s0, s1, s2]
      rw [tokLoop_append, tokLoop_code_name ast name _ _ rfl rfl rfl
        (fun d hd => halpha d (List.mem_cons_of_mem _ hd))]
      simp only [tokLoop]
      have s3 : tokStep ast (0 + 1 + 1 + 1 + name.length) ':'
          { mode := .CODE, current := ⟨String.mk ([a] ++ name), ""⟩,
            v := [⟨"[", ""⟩, ⟨"\x7b", ""⟩],
            escape := false, inToken := true, inValue := false, codeDepth := 1 } =
          .ok { mode := .CODE, current := ⟨String.mk ([a] ++ name), ""⟩,
                v := [⟨"[", ""⟩, ⟨"\x7b", ""⟩],
                escape := false, inToken := true, inValue := true, codeDepth := 1 } := by
        simp [tokStep, tokStepNone, tokStepCmd, tokStepCode]
      have s4 : tokStep ast (0 + 1 + 1 + 1 + name.length + 1) '\x27'
          { mode := .CODE, current := ⟨String.mk ([a] ++ name), ""⟩,
            v := [⟨"[", ""⟩, ⟨"\x7b", ""⟩],
            escape := false, inToken := true, inValue := true, codeDepth := 1 } =
          .ok { mode := .CODE, current := ⟨String.mk ([a] ++ name), ""⟩,
                v := [⟨"[", ""⟩, ⟨"\x7b", ""⟩],
                escape := false, inToken := true, inValue := true, codeDepth := 1 } := by
        have hlook2 : ast[3 + name.length]? = some ':' := by
          have e3 : 3 + name.length = 0 + 1 + 1 + 1 + name.length + 1 - 1 := by omega
          rw [e3]; exact hlook
        simp [tokStep, tokStepNone, tokStepCmd, tokStepCode, hlook2]
      simp only [s3, s4]
      rw [tokLoop_append, tokLoop_code_value ast pieces _ _ rfl rfl rfl hvalid]
      have hval : String.mk (pieces.map Piece.decoded) ≠ "" := by
        intro h
        have := congrArg String.data h
        simp at this
        exact hpieces this
      simp [tokLoop, tokStep, tokStepNone, tokStepCmd, tokStepCode, TokState.flush, TokState.pushCurrent, hval]
    unfold tokenize tokRun
    rw [key ast hsplit]

theorem tokenize_value_escaping_witness :
    tokenize "[\x7bname:\x27va\x5c\x27lue\x27\x7d]" =
      .ok [⟨"[", ""⟩, ⟨"\x7b", ""⟩, ⟨"name", "va\x27lue"⟩, ⟨"\x7d", ""⟩, ⟨"]", ""⟩] :=
  tokenize_value_escaping ['n', 'a', 'm', 'e']
    [.bare 'v', .bare 'a', .escaped '\x27', .bare 'l', .bare 'u', .bare 'e']
    (by decide) (by decide) (by decide) (by decide)

theorem BraceBalanced.push (v : List Token) (t : Token) (h : BraceBalanced v)
    (ht : (v ++ [t]).count closeTok ≤ (v ++ [t]).count openTok) :
    BraceBalanced (v ++ [t]) := by
  intro p hp
  rcases List.prefix_concat_iff.mp hp with e | hp1
  · rw [e]; exact ht
  · exact h p hp1

theorem TokInv.start : TokInv TokState.start :=
  ⟨by decide, by decide, by decide, by
    intro p hp
    have : p = [] := List.prefix_nil.mp hp
    subst this; decide, by decide, by decide, by decide⟩

theorem String.push_ne_brace (w : String) (c : Char) (hc : c.isAlpha = true) :
    w.push c ≠ "\x7b" ∧ w.push c ≠ "\x7d" := by
  obtain ⟨c1, c2, -⟩ := Char.isAlpha_not_special c hc
  constructor <;>
  · intro h
    have h1 := congrArg String.data h
    rw [String.data_push] at h1
    have h2 := congrArg List.getLast? h1
    simp at h2
    first | exact c1 h2 | exact c2 h2

theorem String.singleton_ne_brace (c : Char) (c1 : c ≠ '\x7b') (c2 : c ≠ '\x7d') :
    (⟨String.singleton c, ""⟩ : Token) ≠ openTok ∧
      (⟨String.singleton c, ""⟩ : Token) ≠ closeTok := by
  constructor <;>
  · intro h
    have h0 := congrArg Token.name h
    have h1 := congrArg String.data h0
    simp [openTok, closeTok] at h1
    first | exact c1 h1 | exact c2 h1

theorem TokInv.pushCurrent (st : TokState) (h : TokInv st) : TokInv st.pushCurrent := by
  have hne1 : st.current ≠ openTok := fun e => h.name.1 (by rw [e]; rfl)
  have hne2 : st.current ≠ closeTok := fun e => h.name.2 (by rw [e]; rfl)
  have c1 : (st.v ++ [st.current]).count openTok = st.v.count openTok := by
    simp [List.count_singleton, hne1]
  have c2 : (st.v ++ [st.current]).count closeTok = st.v.count closeTok := by
    simp [List.count_singleton, hne2]
  refine ⟨h.nonneg, h.depth, ?_, ?_, ⟨by show ("" : String) ≠ _; decide, by show ("" : String) ≠ _; decide⟩,
    by simp [TokState.pushCurrent],
    by simp [TokState.pushCurrent]⟩
  · show ((st.v ++ [st.current]).count openTok : Int) =
      (st.v ++ [st.current]).count closeTok + st.codeDepth
    rw [c1, c2]; exact h.count
  · refine BraceBalanced.push _ _ h.balanced ?_
    rw [c1, c2]
    have := h.count
    have := h.nonneg
    omega

theorem TokInv.flush (st : TokState) (h : TokInv st) : TokInv st.flush := by
  unfold TokState.flush
  split
  · exact TokInv.pushCurrent st h
  · exact h

theorem TokState.flush_codeDepth (st : TokState) : st.flush.codeDepth = st.codeDepth := by
  unfold TokState.flush TokState.pushCurrent; split <;> rfl

theorem TokState.flush_mode (st : TokState) : st.flush.mode = st.mode := by
  unfold TokState.flush TokState.pushCurrent; split <;> rfl

theorem TokState.flush_inToken (st : TokState) : st.flush.inToken = false := by
  unfold TokState.flush TokState.pushCurrent
  split
  · rfl
  · simpa using ‹¬st.inToken = true›

theorem TokState.flush_inValue (st : TokState) (h : st.inValue = true → st.inToken = true) :
    st.flush.inValue = false := by
  unfold TokState.flush TokState.pushCurrent
  split
  · rfl
  · rename_i hn
    cases hv : st.inValue
    · rfl
    · exact absurd (h hv) hn

/-- Emitting a token that is not a brace keeps the invariant. -/
theorem TokInv.emit (st : TokState) (t : Token) (m : Mode) (h : TokInv st)
    (h1 : t ≠ openTok) (h2 : t ≠ closeTok) (hm : (m = .CODE ↔ st.mode = .CODE))
    (hi : m = .NONE → st.inToken = false) :
    TokInv { st with v := st.v ++ [t], mode := m } := by
  have c1 : (st.v ++ [t]).count openTok = st.v.count openTok := by
    simp [List.count_singleton, h1]
  have c2 : (st.v ++ [t]).count closeTok = st.v.count closeTok := by
    simp [List.count_singleton, h2]
  refine ⟨h.nonneg, hm.trans h.depth, ?_, ?_, h.name, h.inside, hi⟩
  · show ((st.v ++ [t]).count openTok : Int) = (st.v ++ [t]).count closeTok + st.codeDepth
    rw [c1, c2]; exact h.count
  · refine BraceBalanced.push _ _ h.balanced ?_
    rw [c1, c2]
    have := h.count
    have := h.nonneg
    omega

/-- Emitting an opening brace and counting it keeps the invariant. -/
theorem TokInv.emitOpen (st : TokState) (h : TokInv st) :
    TokInv { st with v := st.v ++ [openTok], mode := .CODE, codeDepth := st.codeDepth + 1 } := by
  have c1 : (st.v ++ [openTok]).count openTok = st.v.count openTok + 1 := by
    simp [List.count_singleton]
  have c2 : (st.v ++ [openTok]).count closeTok = st.v.count closeTok := by
    simp [List.count_singleton, show openTok ≠ closeTok by decide]
  have h0 := h.nonneg
  have hc := h.count
  refine ⟨by show 0 ≤ st.codeDepth + 1; omega,
    ⟨fun _ => by show 0 < st.codeDepth + 1; omega, fun _ => rfl⟩, ?_, ?_, h.name, h.inside,
    by intro e; cases e⟩
  · show ((st.v ++ [openTok]).count openTok : Int) =
      (st.v ++ [openTok]).count closeTok + (st.codeDepth + 1)
    rw [c1, c2]; push_cast; omega
  · refine BraceBalanced.push _ _ h.balanced ?_
    rw [c1, c2]; omega

/-- Emitting a closing brace inside a code block and counting it keeps the
invariant, the mode returning to CMD exactly when the counter reaches zero. -/
theorem TokInv.emitClose (st : TokState) (h : TokInv st) (hm : st.mode = .CODE) :
    0 ≤ st.codeDepth - 1 ∧
    TokInv { st with v := st.v ++ [closeTok],
                     mode := if st.codeDepth - 1 = 0 then .CMD else .CODE,
                     codeDepth := st.codeDepth - 1 } := by
  have hpos : 0 < st.codeDepth := h.depth.mp hm
  have c1 : (st.v ++ [closeTok]).count openTok = st.v.count openTok := by
    simp [List.count_singleton, show closeTok ≠ openTok by decide]
  have c2 : (st.v ++ [closeTok]).count closeTok = st.v.count closeTok + 1 := by
    simp [List.count_singleton]
  have hc := h.count
  refine ⟨by omega, by show 0 ≤ st.codeDepth - 1; omega, ?_, ?_, ?_, h.name, h.inside, ?_⟩
  · show (if st.codeDepth - 1 = 0 then Mode.CMD else Mode.CODE) = Mode.CODE ↔
      0 < st.codeDepth - 1
    split
    · constructor
      · intro e; cases e
      · intro e; omega
    · constructor
      · intro _; omega
      · intro _; rfl
  · show ((st.v ++ [closeTok]).count openTok : Int) =
      (st.v ++ [closeTok]).count closeTok + (st.codeDepth - 1)
    rw [c1, c2]; push_cast; omega
  · refine BraceBalanced.push _ _ h.balanced ?_
    rw [c1, c2]; omega
  · show (if st.codeDepth - 1 = 0 then Mode.CMD else Mode.CODE) = Mode.NONE → _
    split <;> (intro e; cases e)

theorem TokInv.step_none (c : Char) (st st1 : TokState)
    (h : TokInv st) (hm : st.mode = .NONE) (hs : tokStepNone c st = .ok st1) :
    TokInv st1 := by
  unfold tokStepNone at hs
  split_ifs at hs with h1 h2
  cases hs
  exact TokInv.emit st _ .CMD h (by decide) (by decide) (by simp [hm])
    (by intro e; cases e)

theorem TokInv.step_cmd (c : Char) (st st1 : TokState)
    (h : TokInv st) (hm : st.mode = .CMD) (hs : tokStepCmd c st = .ok st1) :
    TokInv st1 := by
  have hf := TokInv.flush st h
  have hfd := TokState.flush_codeDepth st
  have hfm := TokState.flush_mode st
  have hft := TokState.flush_inToken st
  obtain ⟨mode, cur, v, esc, inT, inV, d⟩ := st
  simp only at hm
  subst hm
  unfold tokStepCmd at hs
  split_ifs at hs with h1 h2 h3 h4 h5 h6
  · cases hs
    exact TokInv.emit _ ⟨"[", ""⟩ .CMD h (by decide) (by decide) (by simp)
      (by intro e; cases e)
  · cases hs
    exact TokInv.emit _ ⟨"]", ""⟩ .NONE hf (by decide) (by decide)
      (by simp [hfm]) (fun _ => hft)
  · cases hs
    have := TokInv.emitOpen _ hf
    rw [hfd] at this
    exact this
  · cases hs
    exact ⟨h.nonneg, h.depth, h.count, h.balanced,
      ⟨by show ("cmd" : String) ≠ _; decide, by show ("cmd" : String) ≠ _; decide⟩,
      fun _ => rfl, by intro e; cases e⟩
  · cases hs
    simp only [Bool.not_eq_true', Bool.not_eq_false] at h6
    exact ⟨h.nonneg, h.depth, h.count, h.balanced, h.name, fun _ => h6,
      by intro e; cases e⟩

/-- In CODE mode one iteration keeps the invariant and never raises the
negative-depth error. -/
theorem TokInv.step_code (ast : List Char) (i : Nat) (c : Char) (st : TokState)
    (h : TokInv st) (hm : st.mode = .CODE) :
    (∀ st1, tokStepCode ast i c st = .ok st1 → TokInv st1) ∧
      tokStepCode ast i c st ≠ .error "CODE mode observed codeDepth < 0" := by
  have hf := TokInv.flush st h
  have hfd := TokState.flush_codeDepth st
  have hfm := TokState.flush_mode st
  have hft := TokState.flush_inToken st
  have hp := TokInv.pushCurrent st h
  unfold tokStepCode
  by_cases h1 : (st.escape && st.inValue) = true
  · rw [if_pos h1]
    refine ⟨?_, fun e => by cases e⟩
    intro st1 hs
    cases hs
    exact ⟨h.nonneg, h.depth, h.count, h.balanced, h.name, h.inside, h.idle⟩
  rw [if_neg h1]
  by_cases h2 : (decide (c = '\x5c') && st.inValue) = true
  · rw [if_pos h2]
    refine ⟨?_, fun e => by cases e⟩
    intro st1 hs
    cases hs
    exact ⟨h.nonneg, h.depth, h.count, h.balanced, h.name, h.inside, h.idle⟩
  rw [if_neg h2]
  by_cases h3 : c = '\x7d'
  · rw [if_pos h3]
    obtain ⟨hnn, hcl⟩ := TokInv.emitClose st.flush hf (hfm.trans hm)
    rw [hfd] at hnn hcl
    show (∀ st1, (if st.codeDepth - 1 = 0 then _ else
        if st.codeDepth - 1 < 0 then _ else _) = Except.ok st1 → TokInv st1) ∧
      (if st.codeDepth - 1 = 0 then _ else if st.codeDepth - 1 < 0 then _ else _) ≠ _
    by_cases hz : st.codeDepth - 1 = 0
    · rw [if_pos hz] at hcl ⊢
      refine ⟨?_, fun e => by cases e⟩
      intro st1 hs
      cases hs
      exact hcl
    · rw [if_neg hz] at hcl ⊢
      rw [if_neg (by omega)]
      refine ⟨?_, fun e => by cases e⟩
      intro st1 hs
      cases hs
      exact ⟨hcl.nonneg, ⟨fun _ => hcl.depth.mp rfl, fun _ => hfm.trans hm⟩, hcl.count,
        hcl.balanced, hcl.name, hcl.inside, fun e => by rw [hfm, hm] at e; cases e⟩
  rw [if_neg h3]
  by_cases h4 : c = '\x7b'
  · rw [if_pos h4]
    refine ⟨?_, fun e => by cases e⟩
    intro st1 hs
    cases hs
    have t := TokInv.emitOpen st.flush hf
    rw [hfd] at t
    exact ⟨t.nonneg, ⟨fun _ => t.depth.mp rfl, fun _ => hfm.trans hm⟩, t.count,
      t.balanced, t.name, t.inside, fun e => by rw [hfm, hm] at e; cases e⟩
  rw [if_neg h4]
  by_cases h5 : c = ':'
  · rw [if_pos h5]
    by_cases h5a : (!st.inToken) = true
    · rw [if_pos h5a]
      exact ⟨fun st1 hs => (by cases hs), fun e => absurd (Except.error.inj e) (by decide)⟩
    rw [if_neg h5a]
    by_cases h5b : st.inValue = true
    · rw [if_pos h5b]
      exact ⟨fun st1 hs => (by cases hs), fun e => absurd (Except.error.inj e) (by decide)⟩
    rw [if_neg h5b]
    refine ⟨?_, fun e => by cases e⟩
    intro st1 hs
    cases hs
    simp only [Bool.not_eq_true', Bool.not_eq_false] at h5a
    exact ⟨h.nonneg, h.depth, h.count, h.balanced, h.name, fun _ => h5a, h.idle⟩
  rw [if_neg h5]
  by_cases h6 : (decide (c = ' ') || decide (c = ';')) = true
  · rw [if_pos h6]
    refine ⟨?_, fun e => by cases e⟩
    intro st1 hs
    cases hs
    exact hf
  rw [if_neg h6]
  by_cases h7 : (decide (c = '\x27') && st.inValue) = true
  · rw [if_pos h7]
    by_cases h7a : st.current.value ≠ ""
    · rw [if_pos h7a]
      refine ⟨?_, fun e => by cases e⟩
      intro st1 hs
      cases hs
      exact hp
    rw [if_neg h7a]
    by_cases h7b : 1 ≤ i ∧ ast[i - 1]? = some ':'
    · rw [if_pos h7b]
      refine ⟨?_, fun e => by cases e⟩
      intro st1 hs
      cases hs
      exact h
    rw [if_neg h7b]
    by_cases h7c : 2 ≤ i ∧ ast[i - 1]? = some '\x27' ∧ ast[i - 2]? = some ':'
    · rw [if_pos h7c]
      refine ⟨?_, fun e => by cases e⟩
      intro st1 hs
      cases hs
      exact hp
    rw [if_neg h7c]
    exact ⟨fun st1 hs => (by cases hs), fun e => absurd (Except.error.inj e) (by decide)⟩
  rw [if_neg h7]
  by_cases h8 : (!c.isAlpha) = true
  · rw [if_pos h8]
    refine ⟨?_, fun e => by cases e⟩
    intro st1 hs
    cases hs
    obtain ⟨n1, n2⟩ := String.singleton_ne_brace c h4 h3
    exact TokInv.emit st.flush _ st.flush.mode hf n1 n2 Iff.rfl (fun _ => hft)
  rw [if_neg h8]
  simp only [Bool.not_eq_true', Bool.not_eq_false] at h8
  by_cases h9 : st.inValue = true
  · rw [if_pos h9]
    refine ⟨?_, fun e => by cases e⟩
    intro st1 hs
    cases hs
    exact ⟨h.nonneg, h.depth, h.count, h.balanced, h.name, h.inside, h.idle⟩
  rw [if_neg h9]
  refine ⟨?_, fun e => by cases e⟩
  intro st1 hs
  cases hs
  exact ⟨h.nonneg, h.depth, h.count, h.balanced, String.push_ne_brace _ c h8,
    fun _ => rfl, fun e => by rw [hm] at e; cases e⟩

theorem badChar_ne_depth (c : Char) :
    ("Bad character in AST input: \x27" ++ String.singleton c ++ "\x27") ≠
      "CODE mode observed codeDepth < 0" := by
  intro e
  have h := congrArg (fun s : String => s.data.head?) e
  revert h
  simp [String.data_append]

/-- One iteration of the loop keeps the invariant and never raises the
negative-depth error. -/
theorem TokInv.tok_step (ast : List Char) (i : Nat) (c : Char) (st : TokState) (h : TokInv st) :
    (∀ st1, tokStep ast i c st = .ok st1 → TokInv st1) ∧
      tokStep ast i c st ≠ .error "CODE mode observed codeDepth < 0" := by
  unfold tokStep
  cases hm : st.mode with
  | NONE =>
    refine ⟨fun st1 hs => TokInv.step_none c st st1 h hm hs, ?_⟩
    show tokStepNone c st ≠ _
    unfold tokStepNone
    split_ifs
    · exact fun e => absurd (Except.error.inj e) (by decide)
    · exact fun e => by cases e
    · exact fun e => badChar_ne_depth c (Except.error.inj e)
  | CMD =>
    refine ⟨fun st1 hs => TokInv.step_cmd c st st1 h hm hs, ?_⟩
    show tokStepCmd c st ≠ _
    unfold tokStepCmd
    split_ifs
    · exact fun e => absurd (Except.error.inj e) (by decide)
    · exact fun e => by cases e
    · exact fun e => by cases e
    · exact fun e => by cases e
    · exact fun e => absurd (Except.error.inj e) (by decide)
    · exact fun e => by cases e
    · exact fun e => by cases e
  | CODE => exact TokInv.step_code ast i c st h hm

theorem TokInv.loop (ast : List Char) (l : List Char) :
    ∀ (i : Nat) (st : TokState), TokInv st →
      (∀ st1, tokLoop ast i l st = .ok st1 → TokInv st1) ∧
        tokLoop ast i l st ≠ .error "CODE mode observed codeDepth < 0" := by
  induction l with
  | nil =>
    intro i st h
    refine ⟨fun st1 hs => ?_, fun e => by cases e⟩
    cases hs
    exact h
  | cons c l ih =>
    intro i st h
    obtain ⟨h1, h2⟩ := TokInv.tok_step ast i c st h
    simp only [tokLoop]
    cases hs : tokStep ast i c st with
    | error msg =>
      refine ⟨fun st1 e => (by cases e), fun e => ?_⟩
      apply h2
      rw [hs]
      exact e
    | ok st1 => exact ih (i + 1) st1 (h1 st1 hs)

/-- C20. The brace-depth invariant of the tokenizer: after every prefix of every
input on which `tokenize` has not failed the brace counter is non-negative, it
is positive exactly when the mode is CODE and zero in NONE and CMD; the error
`CODE mode observed codeDepth < 0` is raised for no input; and in every token
sequence returned no prefix holds more closing-brace tokens than opening-brace
tokens. -/
theorem brace_depth_invariant (ast : String) :
    (∀ k st, tokPrefix ast.data k = .ok st →
        0 ≤ st.codeDepth ∧ (st.mode = .CODE ↔ 0 < st.codeDepth) ∧
          (st.mode ≠ .CODE → st.codeDepth = 0)) ∧
      tokenize ast ≠ .error "CODE mode observed codeDepth < 0" ∧
      ∀ T, tokenize ast = .ok T → BraceBalanced T := by
  refine ⟨fun k st hk => ?_, ?_, fun T hT => ?_⟩
  · have h := (TokInv.loop ast.data (ast.data.take k) 0 _ TokInv.start).1 st hk
    refine ⟨h.nonneg, h.depth, fun hne => ?_⟩
    have h0 := h.nonneg
    have h1 : ¬ 0 < st.codeDepth := fun hp => hne (h.depth.mpr hp)
    omega
  · have h := (TokInv.loop ast.data ast.data 0 _ TokInv.start).2
    unfold tokenize tokRun
    cases hs : tokLoop ast.data 0 ast.data TokState.start with
    | error msg =>
      intro e
      apply h
      rw [hs]
      exact congrArg Except.error (Except.error.inj e)
    | ok st => exact fun e => by cases e
  · unfold tokenize tokRun at hT
    cases hs : tokLoop ast.data 0 ast.data TokState.start with
    | error msg => rw [hs] at hT; cases hT
    | ok st =>
      rw [hs] at hT
      cases hT
      exact ((TokInv.loop ast.data ast.data 0 _ TokInv.start).1 st hs).balanced

theorem brace_depth_invariant_witness :
    tokenize "[\x7ba\x7bb\x7d\x7d]" ≠ .error "CODE mode observed codeDepth < 0" ∧
      BraceBalanced [⟨"[", ""⟩, openTok, ⟨"a", ""⟩, openTok, ⟨"b", ""⟩, closeTok, closeTok,
        ⟨"]", ""⟩] :=
  ⟨(brace_depth_invariant "[\x7ba\x7bb\x7d\x7d]").2.1,
   (brace_depth_invariant "[\x7ba\x7bb\x7d\x7d]").2.2 _ rfl⟩

/-- C16, counterexample. In `[`, opening brace, `a`, quote, closing brace, `]`
the quote is read in CODE mode while the open token `a` has seen no colon, and
`tokenize` does not fail: the quote comes out as a token of its own. -/
theorem stray_quote_counterexample :
    tokPrefix "[\x7ba\x27\x7d]".data 3 =
        .ok { mode := .CODE, current := ⟨"a", ""⟩, v := [⟨"[", ""⟩, ⟨"\x7b", ""⟩],
              escape := false, inToken := true, inValue := false, codeDepth := 1 } ∧
      "[\x7ba\x27\x7d]".data[3]? = some '\x27' ∧
      tokenize "[\x7ba\x27\x7d]" =
        .ok [⟨"[", ""⟩, ⟨"\x7b", ""⟩, ⟨"a", ""⟩, ⟨"\x27", ""⟩, ⟨"\x7d", ""⟩, ⟨"]", ""⟩] :=
  ⟨rfl, rfl, rfl⟩

/-- C16, amended. A single-quote read in CODE mode while no value is open is
not rejected: it ends the open token, if there is one, and is emitted as a
one-character token, like any other character that is not a letter. -/
theorem stray_quote_is_token (ast : List Char) (k : Nat) (st : TokState)
    (hk : tokPrefix ast k = .ok st) (hq : ast[k]? = some '\x27')
    (hm : st.mode = .CODE) (hv : st.inValue = false) :
    tokPrefix ast (k + 1) = .ok { st.flush with v := st.flush.v ++ [⟨"\x27", ""⟩] } := by
  have hlt : k < ast.length := by
    by_contra hge
    rw [List.getElem?_eq_none (by omega)] at hq
    cases hq
  have hc : ast.get ⟨k, hlt⟩ = '\x27' := by
    rw [List.getElem?_eq_getElem hlt] at hq
    exact Option.some.inj hq
  rw [tokPrefix_succ ast k hlt, hk, hc]
  simp [tokStep, tokStepCode, hm, hv]
  rfl

theorem stray_quote_is_token_witness :
    tokPrefix "[\x7ba\x27\x7d]".data 4 =
      .ok { mode := .CODE, current := ⟨"", ""⟩,
            v := [⟨"[", ""⟩, ⟨"\x7b", ""⟩, ⟨"a", ""⟩, ⟨"\x27", ""⟩],
            escape := false, inToken := false, inValue := false, codeDepth := 1 } :=
  stray_quote_is_token "[\x7ba\x27\x7d]".data 3 _ rfl rfl rfl rfl

theorem TokState.nested_pushCurrent (st : TokState) :
    st.nested.pushCurrent = st.pushCurrent.nested := rfl

theorem TokState.nested_flush (st : TokState) : st.nested.flush = st.flush.nested := by
  unfold TokState.flush
  show (if st.inToken = true then _ else _) = _
  split <;> rfl

theorem lookback_shift (ast : List Char) (i : Nat) :
    ((1 ≤ i + 1 ∧ ('[' :: ast)[i + 1 - 1]? = some ':') ↔ (1 ≤ i ∧ ast[i - 1]? = some ':')) ∧
    ((2 ≤ i + 1 ∧ ('[' :: ast)[i + 1 - 1]? = some '\x27' ∧ ('[' :: ast)[i + 1 - 2]? = some ':') ↔
      (2 ≤ i ∧ ast[i - 1]? = some '\x27' ∧ ast[i - 2]? = some ':')) := by
  cases i with
  | zero => simp
  | succ j =>
    cases j with
    | zero => simp
    | succ m => simp

theorem tokStepCode_nested (ast : List Char) (i : Nat) (c : Char) (st : TokState) :
    tokStepCode ('[' :: ast) (i + 1) c st.nested = nestedResult (tokStepCode ast i c st) := by
  obtain ⟨l1, l2⟩ := lookback_shift ast i
  unfold tokStepCode
  simp only [l1, l2, TokState.nested_flush]
  show (if (st.escape && st.inValue) = true then _ else _) = _
  by_cases h1 : (st.escape && st.inValue) = true
  · rw [if_pos h1, if_pos h1]; rfl
  rw [if_neg h1, if_neg h1]
  show (if (decide (c = '\x5c') && st.inValue) = true then _ else _) = _
  by_cases h2 : (decide (c = '\x5c') && st.inValue) = true
  · rw [if_pos h2, if_pos h2]; rfl
  rw [if_neg h2, if_neg h2]
  by_cases h3 : c = '\x7d'
  · rw [if_pos h3, if_pos h3]
    show (if st.codeDepth - 1 = 0 then _ else if st.codeDepth - 1 < 0 then _ else _) =
      nestedResult (if st.codeDepth - 1 = 0 then _ else if st.codeDepth - 1 < 0 then _ else _)
    by_cases hz : st.codeDepth - 1 = 0
    · rw [if_pos hz, if_pos hz]; rfl
    rw [if_neg hz, if_neg hz]
    by_cases hn : st.codeDepth - 1 < 0
    · rw [if_pos hn, if_pos hn]; rfl
    rw [if_neg hn, if_neg hn]; rfl
  rw [if_neg h3, if_neg h3]
  by_cases h4 : c = '\x7b'
  · rw [if_pos h4, if_pos h4]; rfl
  rw [if_neg h4, if_neg h4]
  by_cases h5 : c = ':'
  · rw [if_pos h5, if_pos h5]
    show (if (!st.inToken) = true then _ else _) = _
    by_cases h5a : (!st.inToken) = true
    · rw [if_pos h5a, if_pos h5a]; rfl
    rw [if_neg h5a, if_neg h5a]
    show (if st.inValue = true then _ else _) = _
    by_cases h5b : st.inValue = true
    · rw [if_pos h5b, if_pos h5b]; rfl
    rw [if_neg h5b, if_neg h5b]; rfl
  rw [if_neg h5, if_neg h5]
  by_cases h6 : (decide (c = ' ') || decide (c = ';')) = true
  · rw [if_pos h6, if_pos h6]; rfl
  rw [if_neg h6, if_neg h6]
  show (if (decide (c = '\x27') && st.inValue) = true then _ else _) = _
  by_cases h7 : (decide (c = '\x27') && st.inValue) = true
  · rw [if_pos h7, if_pos h7]
    show (if st.current.value ≠ "" then _ else _) = _
    by_cases h7a : st.current.value ≠ ""
    · rw [if_pos h7a, if_pos h7a]; rfl
    rw [if_neg h7a, if_neg h7a]
    by_cases h7b : 1 ≤ i ∧ ast[i - 1]? = some ':'
    · rw [if_pos h7b, if_pos h7b]; rfl
    rw [if_neg h7b, if_neg h7b]
    by_cases h7c : 2 ≤ i ∧ ast[i - 1]? = some '\x27' ∧ ast[i - 2]? = some ':'
    · rw [if_pos h7c, if_pos h7c]; rfl
    rw [if_neg h7c, if_neg h7c]; rfl
  rw [if_neg h7, if_neg h7]
  by_cases h8 : (!c.isAlpha) = true
  · rw [if_pos h8, if_pos h8]; rfl
  rw [if_neg h8, if_neg h8]
  show (if st.inValue = true then _ else _) = _
  by_cases h9 : st.inValue = true
  · rw [if_pos h9, if_pos h9]; rfl
  rw [if_neg h9, if_neg h9]; rfl

theorem tokStepCmd_nested (c : Char) (st : TokState) :
    tokStepCmd c st.nested = nestedResult (tokStepCmd c st) := by
  unfold tokStepCmd
  simp only [TokState.nested_flush]
  by_cases h1 : c = '['
  · rw [if_pos h1, if_pos h1]
    show (if st.inToken = true then _ else _) = _
    by_cases h1a : st.inToken = true
    · rw [if_pos h1a, if_pos h1a]; rfl
    rw [if_neg h1a, if_neg h1a]; rfl
  rw [if_neg h1, if_neg h1]
  by_cases h2 : c = ']'
  · rw [if_pos h2, if_pos h2]; rfl
  rw [if_neg h2, if_neg h2]
  by_cases h3 : c = '\x7b'
  · rw [if_pos h3, if_pos h3]; rfl
  rw [if_neg h3, if_neg h3]
  by_cases h4 : c = '\x7d'
  · rw [if_pos h4, if_pos h4]; rfl
  rw [if_neg h4, if_neg h4]
  cases hb : st.inToken <;> simp [TokState.nested, hb, nestedResult]

theorem tokStepNone_nested (c : Char) (st : TokState) :
    tokStepNone c st.nested = nestedResult (tokStepNone c st) := by
  unfold tokStepNone
  show (if (st.inToken || st.inValue) = true then _ else _) = _
  by_cases h1 : (st.inToken || st.inValue) = true
  · rw [if_pos h1, if_pos h1]; rfl
  rw [if_neg h1, if_neg h1]
  by_cases h2 : c = '['
  · rw [if_pos h2, if_pos h2]; rfl
  rw [if_neg h2, if_neg h2]; rfl

/-- Behind one more leading `[` every iteration runs as before, with one more
`[` token at the front of the vector. -/
theorem tokStep_nested (ast : List Char) (i : Nat) (c : Char) (st : TokState) :
    tokStep ('[' :: ast) (i + 1) c st.nested = nestedResult (tokStep ast i c st) := by
  unfold tokStep
  show (match st.mode with
    | .NONE => tokStepNone c st.nested
    | .CMD => tokStepCmd c st.nested
    | .CODE => tokStepCode ('[' :: ast) (i + 1) c st.nested) = _
  cases st.mode with
  | NONE => exact tokStepNone_nested c st
  | CMD => exact tokStepCmd_nested c st
  | CODE => exact tokStepCode_nested ast i c st

theorem tokLoop_nested (ast : List Char) (l : List Char) :
    ∀ (i : Nat) (st : TokState),
      tokLoop ('[' :: ast) (i + 1) l st.nested = nestedResult (tokLoop ast i l st) := by
  induction l with
  | nil => intro i st; rfl
  | cons c l ih =>
    intro i st
    simp only [tokLoop]
    rw [tokStep_nested]
    cases tokStep ast i c st with
    | error msg => rfl
    | ok st1 => exact ih (i + 1) st1

/-- C15, counterexample. The input `[a]` is accepted, but `[[a]]` is not
tokenized as `[`, `[`, `cmd:a`, `]`, `]`: the first `]` leaves the command
list for NONE mode, where the second `]` is a bad character. -/
theorem nested_list_counterexample :
    tokenize "[a]" = .ok [⟨"[", ""⟩, ⟨"cmd", "a"⟩, ⟨"]", ""⟩] ∧
      tokenize "[[a]]" = .error "Bad character in AST input: \x27]\x27" :=
  ⟨rfl, rfl⟩

/-- C15, amended. A `[` in front of an accepted non-empty input is one more
`[` token in front of its tokens; but a `]` read in CMD mode always returns to
NONE mode, never to an enclosing command list, so that wrapping an input that
ends in NONE mode in a further `[` and `]` fails at the added `]`. -/
theorem nested_list_not_closed (s : String) (st : TokState) (hs : s ≠ "")
    (h : tokRun s.data = .ok st) :
    tokenize ("[" ++ s) = .ok (⟨"[", ""⟩ :: st.v) ∧
      (st.mode = .NONE →
        tokenize ("[" ++ s ++ "]") = .error "Bad character in AST input: \x27]\x27") := by
  obtain ⟨l⟩ := s
  cases l with
  | nil => exact absurd rfl hs
  | cons c0 rest =>
    have hinv : TokInv st := (TokInv.loop _ _ 0 _ TokInv.start).1 st h
    have e1 : ("[" ++ String.mk (c0 :: rest)).data = '[' :: c0 :: rest := rfl
    have e2 : ("[" ++ String.mk (c0 :: rest) ++ "]").data = ('[' :: c0 :: rest) ++ [']'] := rfl
    simp only [tokRun, tokLoop] at h
    have hc0 : c0 = '[' := by
      by_contra hne
      simp [tokStep, tokStepNone, TokState.start, hne] at h
    subst hc0
    have s0 : ∀ ast, tokStep ast 0 '[' TokState.start =
        .ok { mode := .CMD, current := ⟨"", ""⟩, v := [⟨"[", ""⟩], escape := false,
              inToken := false, inValue := false, codeDepth := 0 } := fun _ => rfl
    rw [s0] at h
    simp only at h
    have s1 : ∀ ast, tokStep ast (0 + 1) '['
        { mode := .CMD, current := ⟨"", ""⟩, v := [⟨"[", ""⟩], escape := false,
          inToken := false, inValue := false, codeDepth := 0 } =
        .ok (TokState.nested
          { mode := .CMD, current := ⟨"", ""⟩, v := [⟨"[", ""⟩], escape := false,
            inToken := false, inValue := false, codeDepth := 0 }) :=
      fun _ => rfl
    have run : tokLoop ('[' :: '[' :: rest) 0 ('[' :: '[' :: rest) TokState.start =
        .ok st.nested := by
      simp only [tokLoop, s0, s1]
      rw [tokLoop_nested ('[' :: rest) rest (0 + 1), h]
      rfl
    refine ⟨?_, fun hm => ?_⟩
    · unfold tokenize tokRun
      rw [e1, run]
      rfl
    · unfold tokenize tokRun
      rw [e2, tokLoop_append,
        tokLoop_agree _ ('[' :: '[' :: rest) ('[' :: '[' :: rest) 0 TokState.start
          (fun j hj => List.getElem?_append_left (by simpa using hj)),
        run]
      have hT : st.inToken = false := hinv.idle hm
      have hV : st.inValue = false := by
        cases hv : st.inValue
        · rfl
        · rw [hinv.inside hv] at hT; cases hT
      simp [tokLoop, tokStep, tokStepNone, TokState.nested, hm, hT, hV]
      rfl

theorem nested_list_not_closed_witness :
    tokenize ("[" ++ "[a]") = .ok [⟨"[", ""⟩, ⟨"[", ""⟩, ⟨"cmd", "a"⟩, ⟨"]", ""⟩] ∧
      tokenize ("[" ++ "[a]" ++ "]") = .error "Bad character in AST input: \x27]\x27" :=
  ⟨(nested_list_not_closed "[a]" _ (by decide) rfl).1,
   (nested_list_not_closed "[a]" _ (by decide) rfl).2 rfl⟩

/-! ## The node factory -/

/-- C17. The node factory: `MakeNode` succeeds exactly on the twenty-four
supported token names; the node it returns has the kind selected by the name
(`[` a Command, opening brace a Block, `(` an open Brace, `]`, `)` and closing
brace a closing Brace, the ten operator names an Operator, and so on), the
name and the value of the token, and all four lifecycle markers false; on any
other name it fails with `Unsupported token ` followed by the printed token,
which is the name alone, or name, colon, value when the value is not empty. -/
theorem MakeNode_by_name (root : Option Nat) (t : Token) :
    ((∃ nd, MakeNode root t = .ok nd) ↔ t.name ∈ supportedNames) ∧
      (∀ nd, MakeNode root t = .ok nd →
        (t.name, nd.kind) ∈ [("[", Kind.Command), ("(", .Brace), ("\x7b", .Block),
          ("]", .Brace), (")", .Brace), ("\x7d", .Brace), ("cmd", .CommandFragment),
          ("ID", .Variable), ("prop", .Property), ("PLUS", .Operator), ("MINUS", .Operator),
          ("STAR", .Operator), ("SLASH", .Operator), ("PERCENT", .Operator),
          ("CARAT", .Operator), ("PIPE", .Operator), ("AMP", .Operator), ("TILDE", .Operator),
          ("DOUBLETILDE", .Operator), ("exp", .Expression), ("new", .New), ("init", .NewInit),
          ("type", .TypeSpec), ("isvar", .IsVar)] ∧
        (t.name ∈ ["[", "(", "\x7b"] → nd.isOpen = true) ∧
        (t.name ∈ ["]", ")", "\x7d"] → nd.isOpen = false) ∧
        nd.name = t.name ∧ nd.value = t.value ∧ nd.root = root ∧
        nd.isInit = false ∧ nd.isSetup = false ∧ nd.isAnalyzed = false ∧
        nd.isEvaluated = false ∧ nd.parent = none ∧ nd.children = []) ∧
      (t.name ∉ supportedNames →
        MakeNode root t = .error ("Unsupported token " ++ t.print) ∧
        t.print = if t.value = "" then t.name else t.name ++ ":" ++ t.value) := by
  obtain ⟨n, v⟩ := t
  by_cases h : n ∈ supportedNames
  · have h0 := h
    simp only [supportedNames, List.mem_cons, List.mem_singleton, List.not_mem_nil,
      or_false] at h
    refine ⟨?_, ?_, fun hn => absurd h0 hn⟩
    · rcases h with h | h | h | h | h | h | h | h | h | h | h | h | h | h | h | h | h | h |
        h | h | h | h | h | h <;> subst h <;> simp [MakeNode, newNode, supportedNames]
    · rcases h with h | h | h | h | h | h | h | h | h | h | h | h | h | h | h | h | h | h |
        h | h | h | h | h | h <;> subst h <;> simp [MakeNode, newNode]
  · have h1 := h
    simp only [supportedNames, List.mem_cons, List.mem_singleton, List.not_mem_nil, or_false,
      not_or] at h1
    obtain ⟨a1, a2, a3, a4, a5, a6, a7, a8, a9, a10, a11, a12, a13, a14, a15, a16, a17, a18,
      a19, a20, a21, a22, a23, a24⟩ := h1
    have e : MakeNode root ⟨n, v⟩ = .error ("Unsupported token " ++ Token.print ⟨n, v⟩) := by
      simp [MakeNode, a1, a2, a3, a4, a5, a6, a7, a8, a9, a10, a11, a12, a13, a14, a15, a16,
        a17, a18, a19, a20, a21, a22, a23, a24]
    rw [e]
    refine ⟨⟨?_, fun hm => absurd hm h⟩, ?_, fun _ => ⟨rfl, rfl⟩⟩
    · rintro ⟨nd, hnd⟩
      cases hnd
    · intro nd hnd
      cases hnd

theorem MakeNode_by_name_witness :
    MakeNode (some 0) ⟨"PLUS", ""⟩ = .ok (newNode (some 0) "PLUS" "" .Operator false false) ∧
      MakeNode (some 0) ⟨"ID", "x"⟩ = .ok (newNode (some 0) "ID" "x" .Variable false false) ∧
      MakeNode (some 0) ⟨"while", "x"⟩ = .error "Unsupported token while:x" ∧
      MakeNode (some 0) ⟨"while", ""⟩ = .error "Unsupported token while" :=
  ⟨rfl, rfl, ((MakeNode_by_name (some 0) ⟨"while", "x"⟩).2.2 (by decide)).1,
   ((MakeNode_by_name (some 0) ⟨"while", ""⟩).2.2 (by decide)).1⟩

/-! ## Lifecycle markers -/

theorem MarkersGrow.markers_same (a : Node) : MarkersGrow a a := ⟨id, id, id, id⟩

theorem Grows.grows_same (s : State) : Grows s s :=
  fun _ nd h => ⟨nd, h, MarkersGrow.markers_same nd, id⟩

theorem Grows.chain {s s1 s2 : State} (h1 : Grows s s1) (h2 : Grows s1 s2) : Grows s s2 := by
  intro y nd hy
  obtain ⟨nd1, e1, g1, o1⟩ := h1 y nd hy
  obtain ⟨nd2, e2, g2, o2⟩ := h2 y nd1 e1
  exact ⟨nd2, e2, ⟨fun h => g2.1 (g1.1 h), fun h => g2.2.1 (g1.2.1 h),
    fun h => g2.2.2.1 (g1.2.2.1 h), fun h => g2.2.2.2 (g1.2.2.2 h)⟩, fun h => o2 (o1 h)⟩

theorem Grows.of_nodes {s s1 : State} (h : s1.nodes = s.nodes) : Grows s s1 := by
  intro y nd hy
  exact ⟨nd, by rw [h]; exact hy, MarkersGrow.markers_same nd, id⟩

/-- Rewriting one record into one with more markers, still in order. -/
theorem Grows.upd (s : State) (x : Nat) (f : Node → Node)
    (hf : ∀ nd, s.nodes x = some nd → MarkersGrow nd (f nd) ∧
      (MarkersOrdered nd → MarkersOrdered (f nd))) :
    Grows s (s.upd x f) := by
  intro y nd hy
  by_cases hyx : y = x
  · subst hyx
    refine ⟨f nd, by simp [State.upd, hy], (hf nd hy).1, (hf nd hy).2⟩
  · exact ⟨nd, by simp [State.upd, hyx, hy], MarkersGrow.markers_same nd, id⟩

theorem forEach_left (R : State → State → Prop) (body : State → Nat → Outcome Unit)
    (hrefl : ∀ s, R s s) (htrans : ∀ s s1 s2, R s s1 → R s1 s2 → R s s2)
    (hbody : ∀ s c s1, (body s c).left = some s1 → R s s1) :
    ∀ (l : List Nat) (s s1 : State), (forEach body s l).left = some s1 → R s s1 := by
  intro l
  induction l with
  | nil =>
    intro s s1 h
    simp [forEach, Outcome.left] at h
    subst h
    exact hrefl s
  | cons c cs ih =>
    intro s s1 h
    simp only [forEach] at h
    cases hb : body s c with
    | ok u t =>
      rw [hb] at h
      simp only [Outcome.bind] at h
      exact htrans _ _ _ (hbody s c t (by rw [hb]; rfl)) (ih t s1 h)
    | thrown e t =>
      rw [hb] at h
      simp only [Outcome.bind, Outcome.left] at h
      cases h
      exact hbody s c _ (by rw [hb]; rfl)
    | undefined => rw [hb] at h; simp [Outcome.bind, Outcome.left] at h
    | outOfFuel => rw [hb] at h; simp [Outcome.bind, Outcome.left] at h

theorem Grows.init (s : State) (x : Nat) (scope : Option Nat) :
    Grows s (((s.upd x fun m => { m with parentScope := scope }).log .init x).upd x
      fun m => { m with isInit := true }) := by
  intro y md hy
  by_cases hyx : y = x
  · subst hyx
    refine ⟨{ md with isInit := true, parentScope := scope },
      by simp [State.upd, State.log, hy], ⟨fun _ => rfl, id, id, id⟩, ?_⟩
    exact fun o => ⟨o.1, o.2.1, fun _ => rfl⟩
  · exact ⟨md, by simp [State.upd, State.log, hyx, hy], MarkersGrow.markers_same md, id⟩

theorem initNode_grows (ext : Ext) (s : State) (x : Nat) (s1 : State)
    (h : (initNode ext s x).left = some s1) : Grows s s1 := by
  unfold initNode at h
  cases hx : s.nodes x with
  | none => rw [hx] at h; simp [Outcome.left] at h
  | some nd =>
    rw [hx] at h
    simp only at h
    cases hp : nd.parent with
    | none =>
      rw [hp] at h
      simp only [Outcome.left] at h
      cases h
      exact Grows.grows_same s
    | some p =>
      rw [hp] at h
      simp only at h
      cases hpn : s.nodes p with
      | none => rw [hpn] at h; simp [Outcome.left] at h
      | some pn =>
        rw [hpn] at h
        simp only [Outcome.left] at h
        cases h
        exact Grows.init s x _

theorem analyzeNode_left (fuel : Nat) (ext : Ext) (s : State) (x : Nat) (s1 : State)
    (h : (analyzeNode fuel ext s x).left = some s1) : s1.nodes = s.nodes := by
  unfold analyzeNode at h
  cases hx : s.nodes x with
  | none => rw [hx] at h; simp [Outcome.left] at h
  | some nd =>
    rw [hx] at h
    simp only at h
    split_ifs at h
    · simp only [Outcome.left] at h; cases h; rfl
    · simp only [Outcome.left] at h; cases h; rfl
    · cases ha : ext.analyze s x with
      | none => rw [ha] at h; simp only [Outcome.left] at h; cases h; rfl
      | some msg => rw [ha] at h; simp only [Outcome.left] at h; cases h; rfl
    · simp only [Outcome.left] at h; cases h; rfl

theorem setupNode_grows (fuel : Nat) (ext : Ext) (s : State) (x : Nat) (s1 : State)
    (h : (setupNode fuel ext s x).left = some s1) : Grows s s1 := by
  unfold setupNode at h
  cases hx : s.nodes x with
  | none => rw [hx] at h; simp [Outcome.left] at h
  | some nd =>
    rw [hx] at h
    simp only at h
    split_ifs at h with h1 h2 h3
    · simp only [Outcome.left] at h; cases h; exact Grows.grows_same s
    · simp only [Outcome.left] at h; cases h; exact Grows.grows_same s
    · simp only [Outcome.left] at h; cases h; exact Grows.grows_same s
    · have hi : nd.isInit = true := by simpa using h2
      cases hs : ext.setup s x with
      | some msg =>
        rw [hs] at h
        simp only [Outcome.left] at h
        cases h
        exact Grows.of_nodes rfl
      | none =>
        rw [hs] at h
        simp only at h
        have g1 : Grows s ((s.log .setup x).upd x fun m => { m with isSetup := true }) := by
          refine Grows.chain (Grows.of_nodes rfl : Grows s (s.log .setup x)) ?_
          refine Grows.upd _ x _ (fun m hm => ⟨⟨id, fun _ => rfl, id, id⟩, ?_⟩)
          have hm' : m = nd := by
            have : (s.log .setup x).nodes x = s.nodes x := rfl
            rw [this, hx] at hm
            exact (Option.some.inj hm).symm
          subst hm'
          exact fun o => ⟨o.1, fun _ => rfl, fun _ => hi⟩
        cases ha : analyzeNode fuel ext
            ((s.log .setup x).upd x fun m => { m with isSetup := true }) x with
        | ok u t =>
          rw [ha] at h
          simp only [Outcome.bind, Outcome.left] at h
          cases h
          have ht := analyzeNode_left fuel ext _ x t (by rw [ha]; rfl)
          refine Grows.chain g1 (Grows.chain (Grows.of_nodes ht) ?_)
          refine Grows.upd _ x _ (fun m hm => ⟨⟨id, id, fun _ => rfl, id⟩, ?_⟩)
          have hm' : m.isSetup = true ∧ m.isInit = true := by
            rw [ht] at hm
            simp [State.upd, State.log, hx] at hm
            subst hm
            exact ⟨rfl, hi⟩
          exact fun _ => ⟨fun _ => rfl, fun _ => hm'.1, fun _ => hm'.2⟩
        | thrown e t =>
          rw [ha] at h
          simp only [Outcome.bind, Outcome.left] at h
          cases h
          exact Grows.chain g1 (Grows.of_nodes (analyzeNode_left fuel ext _ x _ (by rw [ha]; rfl)))
        | undefined => rw [ha] at h; simp [Outcome.bind, Outcome.left] at h
        | outOfFuel => rw [ha] at h; simp [Outcome.bind, Outcome.left] at h

theorem setupAsParent_grows (fuel : Nat) (ext : Ext) (s : State) (x : Nat) (s1 : State)
    (h : (setupAsParent fuel ext s x).left = some s1) : Grows s s1 := by
  unfold setupAsParent at h
  cases hx : s.nodes x with
  | none => rw [hx] at h; simp [Outcome.left] at h
  | some nd =>
    rw [hx] at h
    simp only at h
    have hloop := forEach_left Grows (setupNode fuel ext) Grows.grows_same
      (fun _ _ _ => Grows.chain) (setupNode_grows fuel ext) nd.children s
    cases hf : forEach (setupNode fuel ext) s nd.children with
    | ok u t =>
      rw [hf] at h
      simp only [Outcome.bind] at h
      exact Grows.chain (hloop t (by rw [hf]; rfl)) (setupNode_grows fuel ext t x s1 h)
    | thrown e t =>
      rw [hf] at h
      simp only [Outcome.bind, Outcome.left] at h
      cases h
      exact hloop _ (by rw [hf]; rfl)
    | undefined => rw [hf] at h; simp [Outcome.bind, Outcome.left] at h
    | outOfFuel => rw [hf] at h; simp [Outcome.bind, Outcome.left] at h

theorem evaluateNode_grows (ext : Ext) :
    ∀ (fuel : Nat) (s : State) (x : Nat) (s1 : State),
      (evaluateNode fuel ext s x).left = some s1 → Grows s s1 := by
  intro fuel
  induction fuel with
  | zero => intro s x s1 h; simp [evaluateNode, Outcome.left] at h
  | succ fuel ih =>
    intro s x s1 h
    simp only [evaluateNode] at h
    cases hx : s.nodes x with
    | none => rw [hx] at h; simp [Outcome.left] at h
    | some nd =>
      rw [hx] at h
      simp only at h
      split_ifs at h with h1 h2 h3
      · simp only [Outcome.left] at h; cases h; exact Grows.grows_same s
      · simp only [Outcome.left] at h; cases h; exact Grows.grows_same s
      · simp only [Outcome.left] at h; cases h; exact Grows.grows_same s
      · have hloop := forEach_left Grows (evaluateNode fuel ext) Grows.grows_same
          (fun _ _ _ => Grows.chain) ih nd.children s
        have hm : nd.isInit = true ∧ nd.isSetup = true ∧ nd.isAnalyzed = true := by
          cases hi : nd.isInit <;> cases hs : nd.isSetup <;> cases ha : nd.isAnalyzed <;>
            simp [hi, hs, ha] at h2 ⊢
        cases hf : forEach (evaluateNode fuel ext) s nd.children with
        | ok u t =>
          rw [hf] at h
          simp only [Outcome.bind] at h
          have g := hloop t (by rw [hf]; rfl)
          cases he : ext.evaluate t x with
          | some msg =>
            rw [he] at h
            simp only [Outcome.left] at h
            cases h
            exact Grows.chain g (Grows.of_nodes rfl)
          | none =>
            rw [he] at h
            simp only [Outcome.left] at h
            cases h
            refine Grows.chain g (Grows.chain (Grows.of_nodes rfl : Grows t (t.log .evaluate x)) ?_)
            refine Grows.upd _ x _ (fun m hm1 => ⟨⟨id, id, id, fun _ => rfl⟩, ?_⟩)
            obtain ⟨nd1, e1, g1, -⟩ := g x nd hx
            have hm2 : m = nd1 := by
              have : (t.log .evaluate x).nodes x = t.nodes x := rfl
              rw [this, e1] at hm1
              exact (Option.some.inj hm1).symm
            subst hm2
            exact fun _ => ⟨fun _ => g1.2.2.1 hm.2.2, fun _ => g1.2.1 hm.2.1,
              fun _ => g1.1 hm.1⟩
        | thrown e t =>
          rw [hf] at h
          simp only [Outcome.bind, Outcome.left] at h
          cases h
          exact hloop _ (by rw [hf]; rfl)
        | undefined => rw [hf] at h; simp [Outcome.bind, Outcome.left] at h
        | outOfFuel => rw [hf] at h; simp [Outcome.bind, Outcome.left] at h

theorem LifeCall.call_grows {ext : Ext} {s s1 : State} (h : LifeCall ext s s1) : Grows s s1 := by
  cases h with
  | initNode _ x _ h => exact initNode_grows ext s x s1 h
  | setupNode fuel _ x _ h => exact setupNode_grows fuel ext s x s1 h
  | setupAsParent fuel _ x _ h => exact setupAsParent_grows fuel ext s x s1 h
  | analyzeNode fuel _ x _ h => exact Grows.of_nodes (analyzeNode_left fuel ext s x s1 h)
  | evaluateNode fuel _ x _ h => exact evaluateNode_grows ext fuel s x s1 h

theorem LifeRun.run_grows {ext : Ext} {s s1 : State} (h : LifeRun ext s s1) : Grows s s1 := by
  induction h with
  | done => exact Grows.grows_same _
  | call s1 s2 _ hc ih => exact Grows.chain ih (LifeCall.call_grows hc)

/-- C11. The lifecycle markers are monotonic and ordered: for a node created
with all four markers false, at any two points `s1`, `s2` of any sequence of
`initNode`, `setupNode`, `setupAsParent`, `analyzeNode` and `evaluateNode`
calls, each returning or throwing, no marker set at `s1` is cleared at `s2`,
and at both evaluated implies analyzed, analyzed implies set up, and set up
implies initialized. -/
theorem lifecycle_markers_monotonic (ext : Ext) (s0 s1 s2 : State) (x : Nat) (nd0 : Node)
    (hx : s0.nodes x = some nd0)
    (hfresh : nd0.isInit = false ∧ nd0.isSetup = false ∧ nd0.isAnalyzed = false ∧
      nd0.isEvaluated = false)
    (h1 : LifeRun ext s0 s1) (h2 : LifeRun ext s1 s2) :
    ∃ nd1 nd2, s1.nodes x = some nd1 ∧ s2.nodes x = some nd2 ∧ MarkersGrow nd1 nd2 ∧
      MarkersOrdered nd1 ∧ MarkersOrdered nd2 := by
  obtain ⟨f1, f2, f3, f4⟩ := hfresh
  have o0 : MarkersOrdered nd0 :=
    ⟨fun h => (by rw [f4] at h; cases h), fun h => (by rw [f3] at h; cases h),
      fun h => (by rw [f2] at h; cases h)⟩
  obtain ⟨nd1, e1, -, o1⟩ := LifeRun.run_grows h1 x nd0 hx
  obtain ⟨nd2, e2, g2, o2⟩ := LifeRun.run_grows h2 x nd1 e1
  exact ⟨nd1, nd2, e1, e2, g2, o1 o0, o2 (o1 o0)⟩

theorem lifecycle_markers_monotonic_witness :
    ∃ nd1 nd2, lifeSetup.nodes 1 = some nd1 ∧ lifeEvaluatedTwice.nodes 1 = some nd2 ∧
      MarkersGrow nd1 nd2 ∧ MarkersOrdered nd1 ∧ MarkersOrdered nd2 :=
  lifecycle_markers_monotonic stdExt freshLeaf lifeSetup lifeEvaluatedTwice 1
    { newNode (some 0) "ID" "a" .Variable false false with parent := some 0 }
    rfl ⟨rfl, rfl, rfl, rfl⟩
    (.call _ _ _ (.call _ _ _ (.done _) (.initNode _ 1 lifeInit rfl))
      (.setupNode 3 _ 1 lifeSetup rfl))
    (.call _ _ _ (.call _ _ _ (.done _) (.evaluateNode 3 _ 1 lifeEvaluated rfl))
      (.evaluateNode 3 _ 1 lifeEvaluatedTwice rfl))

/-! ## A promotion that fails -/

/-- The nested sample insertions are steps of the builder: after `(`. -/
theorem nest_built_1 : Built stdExt 0 "root" (nestHist 1) (nestState 1) 1 :=
  Built.insert (nestHist 0) (nestState 0) 0 1 1 (some 0) "(" "" .Brace true true
    (nestState 1) 1 Built.start rfl rfl

/-- After `( (`. -/
theorem nest_built_2 : Built stdExt 0 "root" (nestHist 2) (nestState 2) 2 :=
  Built.insert (nestHist 1) (nestState 1) 1 1 2 (some 0) "(" "" .Brace true true
    (nestState 2) 2 nest_built_1 rfl rfl

/-- After `( ( PLUS`. -/
theorem nest_built_3 : Built stdExt 0 "root" (nestHist 3) (nestState 3) 2 :=
  Built.insert (nestHist 2) (nestState 2) 2 1 3 (some 0) "PLUS" "" .Operator false false
    (nestState 3) 2 nest_built_2 rfl rfl

/-- After `( ( PLUS a`. -/
theorem nest_built_4 : Built stdExt 0 "root" (nestHist 4) (nestState 4) 2 :=
  Built.insert (nestHist 3) (nestState 3) 2 1 4 (some 0) "ID" "a" .Variable false false
    (nestState 4) 2 nest_built_3 rfl rfl

/-- After `( ( PLUS a b`. -/
theorem nest_built_5 : Built stdExt 0 "root" (nestHist 5) (nestState 5) 2 :=
  Built.insert (nestHist 4) (nestState 4) 2 1 5 (some 0) "ID" "b" .Variable false false
    (nestState 5) 2 nest_built_4 rfl rfl

/-- After `( ( PLUS a b )`. -/
theorem nest_built_6 : Built stdExt 0 "root" (nestHist 6) (nestState 6) 1 :=
  Built.insert (nestHist 5) (nestState 5) 2 1 6 (some 0) ")" "" .Brace false false
    (nestState 6) 1 nest_built_5 rfl rfl

/-- After `( ( PLUS a b ) c`. -/
theorem nest_built_7 : Built stdExt 0 "root" (nestHist 7) (nestState 7) 1 :=
  Built.insert (nestHist 6) (nestState 6) 1 1 7 (some 0) "ID" "c" .Variable false false
    (nestState 7) 1 nest_built_6 rfl rfl

/-- C19. A failed promotion is not atomic. On a well-formed tree whose focus
`cur` is an irrelevant open Brace with parent `par` and children `op :: rest`,
where `op` already has a child, `insertNode` of a matching closing Brace `n`
throws `Cannot escalate child`, and the state it leaves is changed: `op` is
gone from the child sequence of `cur`, which is `rest`, one shorter; the parent
link of `op` points to `par`; and the child sequence of `par` is as before, so
it still holds `cur` and does not hold `op`. Nothing else has changed. -/
theorem failed_promotion_not_atomic (fuel : Nat) (ext : Ext) (s : State)
    (r cur n par op : Nat) (rest : List Nat) (c nd o : Node) (h : WF s r cur)
    (hn : s.nodes n = none) (hb : nd.kind.isBrace = true) (ho : nd.isOpen = false)
    (hc : s.nodes cur = some c) (hpar : c.parent = some par) (hcb : c.kind.isBrace = true)
    (hirr : c.isIrrelevant = true) (hm : ext.matchesCloseBrace c nd = true)
    (hch : c.children = op :: rest) (hop : s.nodes op = some o) (hoc : o.children ≠ []) :
    ∃ s1 pn, insertNode fuel ext (s.set n nd) (some cur) (some n) =
        .thrown (.evalError ("Cannot escalate child " ++ o.name ++ " that has " ++
          toString o.children.length ++ " > 0 children")) s1 ∧
      s1.nodes cur = some { c with children := rest } ∧
      rest.length + 1 = c.children.length ∧ op ∉ rest ∧
      s1.nodes op = some { o with parent := some par } ∧
      s.nodes par = some pn ∧ s1.nodes par = some pn ∧ cur ∈ pn.children ∧
      op ∉ pn.children ∧
      s1.nodes n = some nd ∧
      (∀ y, y ≠ cur → y ≠ op → y ≠ n → s1.nodes y = s.nodes y) := by
  obtain ⟨pn, o1, pre, post, hp, hsplit, -, -, hopn, -, -, -, n1, n2, n3, -, n5, -, -⟩ :=
    h.family hc hpar hch
  have ncur : cur ≠ n := fun e => by rw [e, hn] at hc; cases hc
  have nop : op ≠ n := fun e => by rw [e, hn] at hop; cases hop
  have npar : par ≠ n := fun e => by rw [e, hn] at hp; cases hp
  have hlen : o.children.length ≠ 0 := fun e => hoc (List.length_eq_zero.mp e)
  refine ⟨((s.set n nd).upd cur fun m => { m with children := rest }).upd op
      fun m => { m with parent := c.parent }, pn, ?_, ?_, ?_, n5, ?_, hp, ?_, ?_, hopn, ?_, ?_⟩
  · unfold insertNode
    simp only [State.set_nodes, ncur, if_false, if_true, hc, hb, ho, hpar, hcb, hm, hirr,
      Bool.not_true, Bool.false_eq_true]
    unfold promote
    simp only [State.set_nodes, State.upd_nodes, ncur, nop, n1, if_false, if_true, hc, hch,
      hop, Option.map_some', ne_eq, hlen, not_false_eq_true, Outcome.bind]
    rw [hpar]
  · simp [State.upd, State.set, ncur, n1, Ne.symm n1, hc]
  · rw [hch]; rfl
  · simp [State.upd, State.set, nop, n1, hop, hpar]
  · simp [State.upd, State.set, npar, n2, n3, hp]
  · rw [hsplit]; simp
  · simp [State.upd, State.set, Ne.symm nop, Ne.symm ncur]
  · intro y a1 a2 a3
    simp [State.upd, State.set, a1, a2, a3]

/-- C19 on the tokens `( ( PLUS a b ) c )`: closing the outer paren throws, and
leaves `PLUS` out of the child sequence of the outer paren, with the root as
its parent, while the root still lists only the outer paren. -/
theorem failed_promotion_not_atomic_witness :
    ∃ s1 pn, insertNode 1 stdExt ((nestState 7).set 8 (nestNode 8)) (some 1) (some 8) =
        .thrown (.evalError "Cannot escalate child PLUS that has 2 > 0 children") s1 ∧
      s1.nodes 1 = some { newNode (some 0) "(" "" .Brace true true with
        parent := some 0, isInit := true, children := [7] } ∧
      [7].length + 1 = [3, 7].length ∧ 3 ∉ [7] ∧
      s1.nodes 3 = some { newNode (some 0) "PLUS" "" .Operator false false with
        parent := some 0, isInit := true, isSetup := true, isAnalyzed := true,
        children := [4, 5] } ∧
      (nestState 7).nodes 0 = some pn ∧ s1.nodes 0 = some pn ∧ 1 ∈ pn.children ∧
      3 ∉ pn.children ∧
      s1.nodes 8 = some (nestNode 8) ∧
      (∀ y, y ≠ 1 → y ≠ 3 → y ≠ 8 → s1.nodes y = (nestState 7).nodes y) :=
  failed_promotion_not_atomic 1 stdExt (nestState 7) 0 1 8 0 3 [7]
    { newNode (some 0) "(" "" .Brace true true with
      parent := some 0, isInit := true, children := [3, 7] }
    (nestNode 8)
    { newNode (some 0) "PLUS" "" .Operator false false with
      parent := some 1, isInit := true, isSetup := true, isAnalyzed := true,
      children := [4, 5] }
    nest_built_7.wf rfl rfl rfl rfl rfl rfl rfl rfl rfl rfl (by decide)

/-! ## Evaluation order -/

theorem postorder_agree (s t : State) :
    ∀ (fuel : Nat) (x : Nat), (∀ y, Desc s x y → t.nodes y = s.nodes y) →
      postorder fuel t x = postorder fuel s x := by
  intro fuel
  induction fuel with
  | zero => intro x _; rfl
  | succ fuel ih =>
    intro x h
    simp only [postorder]
    rw [h x Desc.self]
    cases hx : s.nodes x with
    | none => rfl
    | some nd =>
      simp only
      congr 1
      apply List.flatMap_congr
      intro c hc
      exact ih c (fun y hy => h y ((Desc.child x c nd Desc.self hx hc).desc_trans hy))

/-- With enough fuel the post-order lists exactly the nodes of the subtree,
each once. -/
theorem postorder_spec (s : State) (ht : Nat → Nat) :
    ∀ (fuel : Nat) (x : Nat), LocalTree s ht x → ht x < fuel →
      (∀ y, y ∈ postorder fuel s x ↔ Desc s x y) ∧ (postorder fuel s x).Nodup := by
  intro fuel
  induction fuel with
  | zero => intro x _ h; omega
  | succ fuel ih =>
    intro x hlt hfuel
    obtain ⟨xn, hx, hnd, hch⟩ := hlt x Desc.self
    have hsub : ∀ c ∈ xn.children, LocalTree s ht c ∧ ht c < fuel := by
      intro c hc
      exact ⟨hlt.sub (Desc.child x c xn Desc.self hx hc), by have := (hch c hc).1; omega⟩
    have hmem : ∀ y, y ∈ postorder (fuel + 1) s x ↔ Desc s x y := by
      intro y
      simp only [postorder, hx, List.mem_append, List.mem_flatMap, List.mem_singleton]
      constructor
      · rintro (⟨c, hc, hy⟩ | rfl)
        · obtain ⟨h1, h2⟩ := hsub c hc
          exact (Desc.child x c xn Desc.self hx hc).desc_trans (((ih c h1 h2).1 y).mp hy)
        · exact Desc.self
      · intro hd
        rcases hd.first_step with rfl | ⟨xn1, c, hx1, hc, hcy⟩
        · exact Or.inr rfl
        · rw [hx] at hx1
          cases hx1
          obtain ⟨h1, h2⟩ := hsub c hc
          exact Or.inl ⟨c, hc, ((ih c h1 h2).1 y).mpr hcy⟩
    refine ⟨hmem, ?_⟩
    simp only [postorder, hx]
    rw [List.nodup_append]
    refine ⟨?_, List.nodup_singleton x, ?_⟩
    · rw [List.nodup_flatMap]
      refine ⟨fun c hc => ((ih c (hsub c hc).1 (hsub c hc).2).2), ?_⟩
      refine (hlt.children_pairwise hx xn.children (List.Sublist.refl _)).imp_of_mem ?_
      intro a b ha hb hab y hya hyb
      exact hab y (((ih a (hsub a ha).1 (hsub a ha).2).1 y).mp hya)
        (((ih b (hsub b hb).1 (hsub b hb).2).1 y).mp hyb)
    · intro y hy hyx
      rw [List.mem_singleton] at hyx
      subst hyx
      obtain ⟨c, hc, hyc⟩ := List.mem_flatMap.mp hy
      have hd := ((ih c (hsub c hc).1 (hsub c hc).2).1 y).mp hyc
      have h1 := (hlt.sub (Desc.child y c xn Desc.self hx hc)).ht_le hd
      have h2 := (hch c hc).1
      omega

/-- The loop over the children in `evaluateNode`, on pairwise disjoint ready
subtrees: `E` is the set of nodes evaluated so far. -/
theorem forEach_evaluate_spec (ext : Ext) (s : State) (ht : Nat → Nat) (fuel : Nat)
    (ih : ∀ t c, LocalTree t ht c →
      (∀ y nd, Desc t c y → t.nodes y = some nd → Evaluable nd) →
      (∀ t1, evaluateNode fuel ext t c = .ok () t1 →
        t1.trace = t.trace ++ (postorder fuel t c).map (fun y => (Hook.evaluate, y)) ∧
        (∀ y, Desc t c y → t1.nodes y = (t.nodes y).map markEvaluated) ∧
        (∀ y, ¬ Desc t c y → t1.nodes y = t.nodes y)) ∧
      (∀ e st, evaluateNode fuel ext t c = .thrown e st →
        ∃ msg st1 y, e = .evalError msg ∧ ext.evaluate st1 y = some msg) ∧
      evaluateNode fuel ext t c ≠ .undefined ∧
      (evaluateNode fuel ext t c = .outOfFuel → fuel ≤ ht c)) :
    ∀ (l : List Nat) (t : State) (E : Nat → Prop),
      (∀ y, E y → t.nodes y = (s.nodes y).map markEvaluated) →
      (∀ y, ¬ E y → t.nodes y = s.nodes y) →
      (∀ c ∈ l, LocalTree s ht c ∧
        (∀ y nd, Desc s c y → s.nodes y = some nd → Evaluable nd) ∧ ∀ y, Desc s c y → ¬ E y) →
      l.Pairwise (fun a b => ∀ y, Desc s a y → ¬ Desc s b y) →
      (∀ t1, forEach (evaluateNode fuel ext) t l = .ok () t1 →
        t1.trace = t.trace ++ (l.flatMap (postorder fuel s)).map (fun y => (Hook.evaluate, y)) ∧
        (∀ y, (E y ∨ ∃ c ∈ l, Desc s c y) → t1.nodes y = (s.nodes y).map markEvaluated) ∧
        (∀ y, ¬ (E y ∨ ∃ c ∈ l, Desc s c y) → t1.nodes y = s.nodes y)) ∧
      (∀ e st, forEach (evaluateNode fuel ext) t l = .thrown e st →
        ∃ msg st1 y, e = .evalError msg ∧ ext.evaluate st1 y = some msg) ∧
      forEach (evaluateNode fuel ext) t l ≠ .undefined ∧
      (forEach (evaluateNode fuel ext) t l = .outOfFuel → ∃ c ∈ l, fuel ≤ ht c) := by
  intro l
  induction l with
  | nil =>
    intro t E hE hnE _ _
    refine ⟨?_, ?_, ?_, ?_⟩
    · intro t1 h
      simp only [forEach] at h
      cases h
      refine ⟨by simp, ?_, ?_⟩
      · rintro y (hy | ⟨c, hc, _⟩)
        · exact hE y hy
        · cases hc
      · intro y hy
        exact hnE y (fun h => hy (Or.inl h))
    · intro e st h
      simp [forEach] at h
    · simp [forEach]
    · intro h
      simp [forEach] at h
  | cons c cs ihl =>
    intro t E hE hnE hl hpw
    obtain ⟨hlt, hready, hdis⟩ := hl c (List.mem_cons_self _ _)
    have hag : ∀ y, Desc s c y → t.nodes y = s.nodes y := fun y hy => hnE y (hdis y hy)
    have hlt1 : LocalTree t ht c := hlt.agree_tree hag
    have hdesc := Desc.agree hag
    have hready1 : ∀ y nd, Desc t c y → t.nodes y = some nd → Evaluable nd := by
      intro y nd hy hn
      have hy1 := (hdesc y).mp hy
      rw [hag y hy1] at hn
      exact hready y nd hy1 hn
    obtain ⟨k1, k2, k3, k4⟩ := ih t c hlt1 hready1
    simp only [forEach]
    cases ho : evaluateNode fuel ext t c with
    | ok u t1 =>
      obtain ⟨tr1, in1, out1⟩ := k1 t1 ho
      rw [postorder_agree s t fuel c hag] at tr1
      simp only [Outcome.bind]
      have hE1 : ∀ y, (E y ∨ Desc s c y) → t1.nodes y = (s.nodes y).map markEvaluated := by
        intro y hy
        by_cases hd : Desc s c y
        · rw [in1 y ((hdesc y).mpr hd), hag y hd]
        · rcases hy with hy | hy
          · rw [out1 y (fun h => hd ((hdesc y).mp h))]
            exact hE y hy
          · exact absurd hy hd
      have hnE1 : ∀ y, ¬ (E y ∨ Desc s c y) → t1.nodes y = s.nodes y := by
        intro y hy
        rw [out1 y (fun h => hy (Or.inr ((hdesc y).mp h)))]
        exact hnE y (fun h => hy (Or.inl h))
      have hl1 : ∀ c1 ∈ cs, LocalTree s ht c1 ∧
          (∀ y nd, Desc s c1 y → s.nodes y = some nd → Evaluable nd) ∧
          ∀ y, Desc s c1 y → ¬ (E y ∨ Desc s c y) := by
        intro c1 hc1
        obtain ⟨a1, a2, a3⟩ := hl c1 (List.mem_cons_of_mem _ hc1)
        refine ⟨a1, a2, ?_⟩
        rintro y hy (h | h)
        · exact a3 y hy h
        · exact (List.pairwise_cons.mp hpw).1 c1 hc1 y h hy
      obtain ⟨r1, r2, r3, r4⟩ := ihl t1 (fun y => E y ∨ Desc s c y) hE1 hnE1 hl1
        (List.pairwise_cons.mp hpw).2
      refine ⟨?_, r2, r3, ?_⟩
      · intro t2 h2
        obtain ⟨tr2, in2, out2⟩ := r1 t2 h2
        refine ⟨?_, ?_, ?_⟩
        · rw [tr2, tr1]
          simp [List.flatMap_cons]
        · intro y hy
          apply in2
          rcases hy with hy | ⟨c1, hc1, hy⟩
          · exact Or.inl (Or.inl hy)
          · rcases List.mem_cons.mp hc1 with rfl | hc1
            · exact Or.inl (Or.inr hy)
            · exact Or.inr ⟨c1, hc1, hy⟩
        · intro y hy
          apply out2
          rintro ((h | h) | ⟨c1, hc1, h⟩)
          · exact hy (Or.inl h)
          · exact hy (Or.inr ⟨c, List.mem_cons_self _ _, h⟩)
          · exact hy (Or.inr ⟨c1, List.mem_cons_of_mem _ hc1, h⟩)
      · intro h
        obtain ⟨c1, hc1, h1⟩ := r4 h
        exact ⟨c1, List.mem_cons_of_mem _ hc1, h1⟩
    | thrown e st =>
      simp only [Outcome.bind]
      refine ⟨fun t1 h => (by cases h), ?_, fun h => (by cases h), fun h => (by cases h)⟩
      intro e1 st1 h
      cases h
      exact k2 _ _ ho
    | undefined => exact absurd ho k3
    | outOfFuel =>
      simp only [Outcome.bind]
      refine ⟨fun t1 h => (by cases h), fun e st h => (by cases h), fun h => (by cases h), ?_⟩
      intro _
      exact ⟨c, List.mem_cons_self _ _, k4 ho⟩

/-- What `evaluateNode` does on a ready subtree: a normal return has invoked
the evaluate hooks in post-order and marked exactly the subtree; an exception
is the one of an evaluate hook; no dead node is touched; and the recursion
budget suffices once it exceeds the height. -/
theorem evaluateNode_spec (ext : Ext) (ht : Nat → Nat) :
    ∀ (fuel : Nat) (s : State) (x : Nat), LocalTree s ht x →
      (∀ y nd, Desc s x y → s.nodes y = some nd → Evaluable nd) →
      (∀ s1, evaluateNode fuel ext s x = .ok () s1 →
        s1.trace = s.trace ++ (postorder fuel s x).map (fun y => (Hook.evaluate, y)) ∧
        (∀ y, Desc s x y → s1.nodes y = (s.nodes y).map markEvaluated) ∧
        (∀ y, ¬ Desc s x y → s1.nodes y = s.nodes y)) ∧
      (∀ e st, evaluateNode fuel ext s x = .thrown e st →
        ∃ msg st1 y, e = .evalError msg ∧ ext.evaluate st1 y = some msg) ∧
      evaluateNode fuel ext s x ≠ .undefined ∧
      (evaluateNode fuel ext s x = .outOfFuel → fuel ≤ ht x) := by
  intro fuel
  induction fuel with
  | zero =>
    intro s x _ _
    simp [evaluateNode]
  | succ fuel ih =>
    intro s x hlt hready
    obtain ⟨xn, hx, hnd, hch⟩ := hlt x Desc.self
    obtain ⟨m1, m2, m3, m4⟩ := hready x xn Desc.self hx
    have hloop := forEach_evaluate_spec ext s ht fuel (ih) xn.children s (fun _ => False)
      (fun _ h => h.elim) (fun _ _ => rfl)
      (by
        intro c hc
        have hd : Desc s x c := Desc.child x c xn Desc.self hx hc
        exact ⟨hlt.sub hd, fun y nd hy hn => hready y nd (hd.desc_trans hy) hn,
          fun _ _ h => h⟩)
      (hlt.children_pairwise hx xn.children (List.Sublist.refl _))
    obtain ⟨l1, l2, l3, l4⟩ := hloop
    have hxnot : ¬ ∃ c ∈ xn.children, Desc s c x := by
      rintro ⟨c, hc, hd⟩
      have h1 := (hlt.sub (Desc.child x c xn Desc.self hx hc)).ht_le hd
      have h2 := (hch c hc).1
      omega
    simp only [evaluateNode, hx, m1, m2, m3, m4, Bool.not_true, Bool.or_self,
      Bool.false_eq_true, if_false]
    cases ho : forEach (evaluateNode fuel ext) s xn.children with
    | ok u t =>
      obtain ⟨tr, hin, hout⟩ := l1 t ho
      have htx : t.nodes x = some xn := by
        rw [hout x (by rintro (h | h); exact h; exact hxnot h)]
        exact hx
      simp only [Outcome.bind]
      cases he : ext.evaluate t x with
      | some msg =>
        simp only
        refine ⟨fun s1 h => (by cases h), ?_, fun h => (by cases h), fun h => (by cases h)⟩
        intro e st h
        cases h
        exact ⟨msg, t, x, rfl, he⟩
      | none =>
        simp only
        refine ⟨?_, fun e st h => (by cases h), fun h => (by cases h), fun h => (by cases h)⟩
        intro s1 h
        cases h
        refine ⟨?_, ?_, ?_⟩
        · simp [State.upd, State.log, tr, postorder, hx]
        · intro y hy
          by_cases hyx : y = x
          · subst hyx
            simp [State.upd, State.log, htx, hx, markEvaluated]
          · have : ∃ c ∈ xn.children, Desc s c y := by
              rcases hy.first_step with rfl | ⟨xn1, c, hx1, hc, hcy⟩
              · exact absurd rfl hyx
              · rw [hx] at hx1
                cases hx1
                exact ⟨c, hc, hcy⟩
            simp [State.upd, State.log, hyx, hin y (Or.inr this)]
        · intro y hy
          have hyx : y ≠ x := fun e => hy (e ▸ Desc.self)
          have : ¬ (False ∨ ∃ c ∈ xn.children, Desc s c y) := by
            rintro (h | ⟨c, hc, hcy⟩)
            · exact h
            · exact hy ((Desc.child x c xn Desc.self hx hc).desc_trans hcy)
          simp [State.upd, State.log, hyx, hout y this]
    | thrown e st =>
      simp only [Outcome.bind]
      refine ⟨fun s1 h => (by cases h), ?_, fun h => (by cases h), fun h => (by cases h)⟩
      intro e1 st1 h
      cases h
      exact l2 _ _ ho
    | undefined => exact absurd ho l3
    | outOfFuel =>
      simp only [Outcome.bind]
      refine ⟨fun s1 h => (by cases h), fun e st h => (by cases h), fun h => (by cases h), ?_⟩
      intro _
      obtain ⟨c, hc, hle⟩ := l4 ho
      have := (hch c hc).1
      omega

/-- C12. Children are evaluated before parents, in insertion order: on a
subtree that is a finite tree, in which every node is initialized, set up,
analyzed and not yet evaluated, and with evaluate hooks that return normally,
`evaluateNode` on the top node returns; it has invoked the evaluate hook on the
nodes of the subtree in left-to-right post-order, which lists every node of the
subtree exactly once; and afterwards every node of the subtree is marked
evaluated, with nothing else changed. -/
theorem evaluateNode_postorder (ext : Ext) (ht : Nat → Nat) (fuel : Nat) (s : State) (x : Nat)
    (htree : LocalTree s ht x) (hfuel : ht x < fuel)
    (hready : ∀ y nd, Desc s x y → s.nodes y = some nd → Evaluable nd)
    (hooks : ∀ st y, ext.evaluate st y = none) :
    ∃ s1, evaluateNode fuel ext s x = .ok () s1 ∧
      s1.trace = s.trace ++ (postorder fuel s x).map (fun y => (Hook.evaluate, y)) ∧
      (∀ y, y ∈ postorder fuel s x ↔ Desc s x y) ∧ (postorder fuel s x).Nodup ∧
      (∀ y, Desc s x y → ∃ nd, s.nodes y = some nd ∧
        s1.nodes y = some { nd with isEvaluated := true }) ∧
      (∀ y, ¬ Desc s x y → s1.nodes y = s.nodes y) := by
  obtain ⟨k1, k2, k3, k4⟩ := evaluateNode_spec ext ht fuel s x htree hready
  obtain ⟨p1, p2⟩ := postorder_spec s ht fuel x htree hfuel
  cases ho : evaluateNode fuel ext s x with
  | ok u s1 =>
    obtain ⟨tr, hin, hout⟩ := k1 s1 ho
    refine ⟨s1, rfl, tr, p1, p2, ?_, hout⟩
    intro y hy
    obtain ⟨nd, hn, _⟩ := htree y hy
    exact ⟨nd, hn, by rw [hin y hy, hn]; rfl⟩
  | thrown e st =>
    obtain ⟨msg, st1, y, _, he⟩ := k2 e st ho
    rw [hooks st1 y] at he
    cases he
  | undefined => exact absurd ho k3
  | outOfFuel =>
    have := k4 ho
    omega

theorem readyTree_isTree : IsTree readyTree where
  up := by
    intro x nd p h1 h2
    rcases x with _ | _ | _ | _ | _ | x <;> simp [readyTree, blockTree] at h1 <;> subst h1 <;>
      simp [newNode] at h2 <;> subst h2 <;> simp [readyTree, blockTree]
  down := by
    intro p pn c h1 h2
    rcases p with _ | _ | _ | _ | _ | p <;> simp [readyTree, blockTree] at h1 <;> subst h1 <;>
      simp [newNode] at h2 <;> (obtain rfl | rfl := h2) <;> simp [readyTree, blockTree, newNode]
  nodup := by
    intro p pn h1
    rcases p with _ | _ | _ | _ | _ | p <;> simp [readyTree, blockTree] at h1 <;> subst h1 <;>
      simp [newNode]
  depth := by
    refine ⟨fun x => match x with | 0 => 0 | 1 => 1 | 2 => 2 | 3 => 2 | 4 => 3 | _ => 0, ?_⟩
    intro x nd p h1 h2
    rcases x with _ | _ | _ | _ | _ | x <;> simp [readyTree, blockTree] at h1 <;> subst h1 <;>
      simp [newNode] at h2 <;> subst h2 <;> simp
  height := by
    refine ⟨sampleHeight, ?_⟩
    intro p pn c h1 h2
    rcases p with _ | _ | _ | _ | _ | p <;> simp [readyTree, blockTree] at h1 <;> subst h1 <;>
      simp [newNode] at h2 <;> (obtain rfl | rfl := h2) <;> simp [sampleHeight]

theorem readyTree_height (p : Nat) (pn : Node) (c : Nat) (h1 : readyTree.nodes p = some pn)
    (h2 : c ∈ pn.children) : sampleHeight c < sampleHeight p := by
  rcases p with _ | _ | _ | _ | _ | p <;> simp [readyTree, blockTree] at h1 <;> subst h1 <;>
    simp [newNode] at h2 <;> (obtain rfl | rfl := h2) <;> simp [sampleHeight]

theorem readyTree_ready (y : Nat) (nd : Node) (h : readyTree.nodes y = some nd) :
    Evaluable nd := by
  rcases y with _ | _ | _ | _ | _ | y <;> simp [readyTree, blockTree] at h <;> subst h <;>
    simp [Evaluable, newNode]

/-- C12 on the sample tree: under the Block 1 the hooks run on the leaf 2, on
the operand 4, on the operator 3 and last on the Block itself. -/
theorem evaluateNode_postorder_witness :
    postorder 3 readyTree 1 = [2, 4, 3, 1] ∧
    ∃ s1, evaluateNode 3 stdExt readyTree 1 = .ok () s1 ∧
      s1.trace = readyTree.trace ++ (postorder 3 readyTree 1).map (fun y => (Hook.evaluate, y)) ∧
      (∀ y, y ∈ postorder 3 readyTree 1 ↔ Desc readyTree 1 y) ∧
      (postorder 3 readyTree 1).Nodup ∧
      (∀ y, Desc readyTree 1 y → ∃ nd, readyTree.nodes y = some nd ∧
        s1.nodes y = some { nd with isEvaluated := true }) ∧
      (∀ y, ¬ Desc readyTree 1 y → s1.nodes y = readyTree.nodes y) :=
  ⟨rfl, evaluateNode_postorder stdExt sampleHeight 3 readyTree 1
    (readyTree_isTree.localTree sampleHeight readyTree_height 1 _ rfl) (by decide)
    (fun y nd _ h => readyTree_ready y nd h) (fun _ _ => rfl)⟩

/-! ## What a finished build has set up -/

theorem BuiltOn.built {ext : Ext} {r : Nat} {rootName : String} {hist : List (Nat × Node)}
    {promoted : List Nat} {s : State} {cur : Nat}
    (h : BuiltOn ext r rootName hist promoted s cur) : Built ext r rootName hist s cur := by
  induction h with
  | start => exact Built.start
  | insert hist promoted s cur fuel n name value kind isOpen isIrrelevant s1 cur1 _ hn hok ih =>
    exact Built.insert hist s cur fuel n (some r) name value kind isOpen isIrrelevant s1 cur1
      ih hn hok

theorem OnPath.depth_le {s : State} (d : Nat → Nat)
    (hd : ∀ x nd p, s.nodes x = some nd → nd.parent = some p → d p < d x) {x y : Nat}
    (h : OnPath s x y) : d x ≤ d y := by
  induction h with
  | here => exact Nat.le_refl _
  | up y p nd h1 h2 _ ih => exact Nat.le_of_lt (Nat.lt_of_le_of_lt ih (hd y nd p h1 h2))

theorem WF.desc_depth {s : State} {r cur : Nat} (h : WF s r cur) (d : Nat → Nat)
    (hd : ∀ x nd p, s.nodes x = some nd → nd.parent = some p → d p < d x) {x y : Nat}
    (hxy : Desc s x y) : d x ≤ d y := by
  induction hxy with
  | self => exact Nat.le_refl _
  | child p c pn _ hp hc ih =>
    obtain ⟨cn, h1, h2⟩ := h.down p pn c hp hc
    exact Nat.le_of_lt (Nat.lt_of_le_of_lt ih (hd c cn p h1 h2))

theorem loneRoot_settled (r : Nat) (name : String) : Settled (loneRoot r name) r r [] := by
  have live : ∀ y nd, (loneRoot r name).nodes y = some nd →
      y = r ∧ nd = newNode none name "" .RootNode false false := by
    intro y nd h
    by_cases hy : y = r
    · simp [loneRoot, hy] at h
      exact ⟨hy, h.symm⟩
    · simp [loneRoot, hy] at h
  refine ⟨?_, ?_, ⟨fun _ => 0, ?_⟩, ?_, ?_, ?_⟩
  · intro y nd h hy
    exact absurd (live y nd h).1 hy
  · intro y nd h
    rw [(live y nd h).2]
    rfl
  · intro p pn c h hc
    rw [(live p pn h).2] at hc
    cases hc
  · intro y nd p h hp
    rw [(live y nd h).2] at hp
    cases hp
  · intro y nd h hb
    rw [(live y nd h).2] at hb
    cases hb
  · intro y hy
    cases hy

/-- Attaching a fresh node under the focus keeps what is settled. -/
theorem Settled.keep_attach {s s1 : State} {r cur n f : Nat} {nd1 : Node} {promoted : List Nat}
    (h : WF s r cur) (hs : Settled s r cur promoted)
    (hn : s.nodes n = none) (hat : Attached s s1 cur n nd1)
    (hpar : nd1.parent = some cur) (hkids : nd1.children = [])
    (hroot : nd1.root = some r) (hev : nd1.isEvaluated = false)
    (hf : f = n ∨ (f = cur ∧ nd1.kind.isBrace = false)) : Settled s1 r f promoted := by
  obtain ⟨c, hc⟩ := h.focus
  have hcn : cur ≠ n := by
    rintro rfl
    rw [hn] at hc
    cases hc
  have live : ∀ y nd, s.nodes y = some nd → y ≠ n := by
    rintro y nd hy rfl
    rw [hn] at hy
    cases hy
  have e_n : s1.nodes n = some nd1 := by rw [hat n]; simp
  have e_cur : s1.nodes cur = some { c with children := c.children ++ [n] } := by
    rw [hat cur]; simp [hcn, hc]
  have e_old : ∀ y, y ≠ n → y ≠ cur → s1.nodes y = s.nodes y := by
    intro y a1 a2
    rw [hat y]; simp [a1, a2]
  -- every node of the new state but `n` comes from the old one, children apart
  have new : ∀ y md1, s1.nodes y = some md1 → y ≠ n → ∃ md, s.nodes y = some md ∧
      md1 = { md with children := md1.children } ∧
      (md1.children = md.children ∨ (y = cur ∧ md1.children = md.children ++ [n])) := by
    intro y md1 hy hyn
    by_cases hyc : y = cur
    · subst hyc
      rw [e_cur] at hy
      cases hy
      exact ⟨c, hc, rfl, Or.inr ⟨rfl, rfl⟩⟩
    · rw [e_old y hyn hyc] at hy
      exact ⟨md1, hy, rfl, Or.inl rfl⟩
  have old : ∀ y md, s.nodes y = some md → ∃ md1, s1.nodes y = some md1 ∧
      md1 = { md with children := md1.children } := by
    intro y md hy
    by_cases hyc : y = cur
    · subst hyc
      rw [hc] at hy
      cases hy
      exact ⟨_, e_cur, rfl⟩
    · exact ⟨md, by rw [e_old y (live y md hy) hyc]; exact hy, rfl⟩
  obtain ⟨d, hd⟩ := h.depth
  have path : ∀ x, OnPath s x cur → OnPath s1 x f := by
    intro x hx
    have h1 : OnPath s1 x cur := OnPath.transfer d hd cur hx (by
      intro w nw q _ hw hq
      obtain ⟨nw1, e1, e2⟩ := old w nw hw
      exact ⟨nw1, e1, by rw [e2]; exact hq⟩)
    rcases hf with rfl | ⟨rfl, _⟩
    · exact OnPath.up f cur nd1 e_n hpar h1
    · exact h1
  obtain ⟨ht, hht⟩ := hs.height
  refine ⟨?_, ?_, ⟨fun y => if y = n then 0 else ht y + 1, ?_⟩, ?_, ?_, ?_⟩
  · intro y md1 hy hyr
    by_cases hyn : y = n
    · subst hyn
      rw [e_n] at hy
      cases hy
      exact hroot
    · obtain ⟨md, e1, e2, _⟩ := new y md1 hy hyn
      rw [e2]
      exact hs.rooted y md e1 hyr
  · intro y md1 hy
    by_cases hyn : y = n
    · subst hyn
      rw [e_n] at hy
      cases hy
      exact hev
    · obtain ⟨md, e1, e2, _⟩ := new y md1 hy hyn
      rw [e2]
      exact hs.fresh y md e1
  · intro p pn1 k hp hk
    by_cases hpn : p = n
    · subst hpn
      rw [e_n] at hp
      cases hp
      rw [hkids] at hk
      cases hk
    · obtain ⟨pn, e1, _, e3⟩ := new p pn1 hp hpn
      simp only [hpn, if_false]
      rcases e3 with e3 | ⟨_, e3⟩
      · rw [e3] at hk
        obtain ⟨kn, k1, _⟩ := h.down p pn k e1 hk
        simp only [live k kn k1, if_false]
        have := hht p pn k e1 hk
        omega
      · rw [e3] at hk
        rcases List.mem_append.mp hk with hk | hk
        · obtain ⟨kn, k1, _⟩ := h.down p pn k e1 hk
          simp only [live k kn k1, if_false]
          have := hht p pn k e1 hk
          omega
        · rw [List.mem_singleton] at hk
          subst hk
          simp
  · intro y md1 p hy hp hnot
    by_cases hyn : y = n
    · subst hyn
      rw [e_n] at hy
      cases hy
      rw [hpar] at hp
      cases hp
      exact absurd (path _ OnPath.here) hnot
    · obtain ⟨md, e1, e2, _⟩ := new y md1 hy hyn
      rw [e2] at hp ⊢
      exact hs.inner y md p e1 hp (fun hp1 => hnot (path p hp1))
  · intro y md1 hy hb hnot
    by_cases hyn : y = n
    · subst hyn
      rw [e_n] at hy
      cases hy
      rcases hf with rfl | ⟨_, hnb⟩
      · exact absurd OnPath.here hnot
      · rw [hnb] at hb
        cases hb
    · obtain ⟨md, e1, e2, _⟩ := new y md1 hy hyn
      rw [e2] at hb ⊢
      exact hs.closed y md e1 hb (fun hp1 => hnot (path y hp1))
  · intro y hy
    obtain ⟨md, e1, e2, e3⟩ := hs.lifted y hy
    obtain ⟨md1, k1, k2⟩ := old y md e1
    refine ⟨md1, k1, ?_, ?_⟩
    · rw [k2]; exact e2
    · rw [k2]; exact e3

@[simp] theorem markSetup_root (nd : Node) : (markSetup nd).root = nd.root := by
  unfold markSetup
  split <;> rfl

@[simp] theorem markSetup_isEvaluated (nd : Node) :
    (markSetup nd).isEvaluated = nd.isEvaluated := by
  unfold markSetup
  split <;> rfl

/-- Closing the structural bracket at the focus keeps what is settled. -/
theorem Settled.keep_close {s s1 : State} {r cur par : Nat} {c : Node} {promoted : List Nat}
    (h : WF s r cur) (hs : Settled s r cur promoted) (hc : s.nodes cur = some c)
    (hpar : c.parent = some par) (hcl : Closed s s1 cur c.children) :
    Settled s1 r par promoted := by
  have new : ∀ y md1, s1.nodes y = some md1 → ∃ md, s.nodes y = some md ∧
      (md1 = md ∨ md1 = markSetup md) ∧ ((y = cur ∨ y ∈ c.children) → md1 = markSetup md) := by
    intro y md1 hy
    rw [hcl y] at hy
    by_cases hm : y = cur ∨ y ∈ c.children
    · simp only [hm, if_true] at hy
      cases hsy : s.nodes y with
      | none => rw [hsy] at hy; cases hy
      | some md =>
        rw [hsy] at hy
        cases hy
        exact ⟨md, rfl, Or.inr rfl, fun _ => rfl⟩
    · simp only [hm, if_false] at hy
      exact ⟨md1, hy, Or.inl rfl, fun hm1 => absurd hm1 hm⟩
  have old : ∀ y md, s.nodes y = some md → ∃ md1, s1.nodes y = some md1 ∧
      (md1 = md ∨ md1 = markSetup md) := by
    intro y md hy
    by_cases hm : y = cur ∨ y ∈ c.children
    · exact ⟨markSetup md, by rw [hcl y]; simp [hm, hy], Or.inr rfl⟩
    · exact ⟨md, by rw [hcl y]; simp [hm, hy], Or.inl rfl⟩
  obtain ⟨d, hd⟩ := h.depth
  have path : ∀ x, OnPath s x cur → x = cur ∨ OnPath s1 x par := by
    intro x hx
    rcases hx.path_step with rfl | ⟨nd, p, h1, h2, h3⟩
    · exact Or.inl rfl
    · rw [hc] at h1
      cases h1
      rw [hpar] at h2
      cases h2
      right
      exact OnPath.transfer d hd _ h3 (by
        intro w nw q _ hw hq
        obtain ⟨nw1, e1, e2⟩ := old w nw hw
        refine ⟨nw1, e1, ?_⟩
        rcases e2 with e2 | e2 <;> (rw [e2]; simp [hq]))
  obtain ⟨ht, hht⟩ := hs.height
  refine ⟨?_, ?_, ⟨ht, ?_⟩, ?_, ?_, ?_⟩
  · intro y md1 hy hyr
    obtain ⟨md, e1, e2, _⟩ := new y md1 hy
    rcases e2 with e2 | e2 <;> rw [e2] <;> simp [hs.rooted y md e1 hyr]
  · intro y md1 hy
    obtain ⟨md, e1, e2, _⟩ := new y md1 hy
    rcases e2 with e2 | e2 <;> rw [e2] <;> simp [hs.fresh y md e1]
  · intro p pn1 k hp hk
    obtain ⟨pn, e1, e2, _⟩ := new p pn1 hp
    have : pn1.children = pn.children := by
      rcases e2 with e2 | e2 <;> (rw [e2]; try simp)
    rw [this] at hk
    exact hht p pn k e1 hk
  · intro y md1 p hy hp hnot
    obtain ⟨md, e1, e2, e3⟩ := new y md1 hy
    have hp0 : md.parent = some p := by
      rcases e2 with e2 | e2 <;> rw [e2] at hp <;> simpa using hp
    by_cases hpc : p = cur
    · subst hpc
      obtain ⟨c1, k1, k2⟩ := h.up y md p e1 hp0
      rw [hc] at k1
      cases k1
      rw [e3 (Or.inr k2)]
      simp
    · have hset : md.isSetup = true := hs.inner y md p e1 hp0 (fun hp1 => by
        rcases path p hp1 with e | e
        · exact hpc e
        · exact hnot e)
      rcases e2 with e2 | e2 <;> rw [e2] <;> simp [hset]
  · intro y md1 hy hb hnot
    obtain ⟨md, e1, e2, e3⟩ := new y md1 hy
    have hb0 : md.kind.isBrace = true := by
      rcases e2 with e2 | e2 <;> rw [e2] at hb <;> simpa using hb
    by_cases hyc : y = cur
    · rw [e3 (Or.inl hyc)]
      simp
    · have hset : md.isSetup = true := hs.closed y md e1 hb0 (fun hp1 => by
        rcases path y hp1 with e | e
        · exact hyc e
        · exact hnot e)
      rcases e2 with e2 | e2 <;> rw [e2] <;> simp [hset]
  · intro y hy
    obtain ⟨md, e1, e2, e3⟩ := hs.lifted y hy
    obtain ⟨md1, k1, k2⟩ := old y md e1
    refine ⟨md1, k1, ?_, ?_⟩
    · rcases k2 with k2 | k2 <;> rw [k2] <;> simp [e2]
    · rcases k2 with k2 | k2 <;> rw [k2] <;> simpa using e3

/-- Eliding the paren at the focus keeps what is settled, the promoted node
joining the promoted ones. -/
theorem Settled.keep_elide {s s1 : State} {r cur par op : Nat} {rest : List Nat} {c : Node}
    {promoted : List Nat} (h : WF s r cur) (hs : Settled s r cur promoted)
    (hc : s.nodes cur = some c) (hcb : c.kind.isBrace = true) (hirr : c.isIrrelevant = true)
    (hpar : c.parent = some par) (hch : c.children = op :: rest)
    (hel : Elided s s1 cur par op rest) : Settled s1 r par (op :: promoted) := by
  obtain ⟨pn, o, pre, post, hp, hsplit, hpre, hpost, hop_par, ho, hopar, hrest, n1, n2, n3, n4,
    n5, n6, hndr⟩ := h.family hc hpar hch
  obtain ⟨d, hd⟩ := h.depth
  have n1s : cur ≠ op := fun e => n1 e.symm
  have n2s : cur ≠ par := fun e => n2 e.symm
  have n3s : op ≠ par := fun e => n3 e.symm
  have kid_of_cur : ∀ y nd, s.nodes y = some nd → nd.parent = some cur → y = op ∨ y ∈ rest := by
    intro y nd hy hyp
    obtain ⟨c1, e1, e2⟩ := h.up y nd cur hy hyp
    rw [hc] at e1
    cases e1
    rw [hch] at e2
    exact List.mem_cons.mp e2
  have e_par : s1.nodes par = some { pn with children := pre ++ op :: post } := by
    rw [hel par]
    simp [n2, hp, hsplit, replaceFirst_append cur op pre post hpre]
  have e_op : s1.nodes op = some (markSetup { o with parent := some par, children := rest }) := by
    rw [hel op]
    simp [n1, n3s, ho]
  have e_rest : ∀ i nd, i ∈ rest → s.nodes i = some nd →
      s1.nodes i = some (markSetup { nd with parent := some op }) := by
    intro i nd hi hn
    have a1 : i ≠ cur := fun e => n4 (e ▸ hi)
    have a2 : i ≠ par := fun e => n6 (e ▸ hi)
    have a3 : i ≠ op := fun e => n5 (e ▸ hi)
    rw [hel i]
    simp [a1, a2, a3, hi, hn]
  have e_other : ∀ y, y ≠ cur → y ≠ par → y ≠ op → y ∉ rest → s1.nodes y = s.nodes y := by
    intro y a1 a2 a3 a4
    rw [hel y]
    simp [a1, a2, a3, a4]
  have new : ∀ y md1, s1.nodes y = some md1 → y ≠ cur ∧ ∃ md, s.nodes y = some md ∧
      md1.root = md.root ∧ md1.isEvaluated = md.isEvaluated ∧ md1.kind = md.kind ∧
      (md.isSetup = true → md1.isSetup = true) ∧
      ((y = par ∧ md1.parent = md.parent ∧ md1.children = pre ++ op :: post) ∨
       (y = op ∧ md1.isSetup = true ∧ md1.children = rest) ∨
       (y ∈ rest ∧ md1.isSetup = true ∧ md1.children = md.children) ∨
       (y ≠ par ∧ y ≠ op ∧ y ∉ rest ∧ md1 = md)) := by
    intro y md1 hy
    have a1 : y ≠ cur := by
      rintro rfl
      rw [hel y] at hy
      simp at hy
    refine ⟨a1, ?_⟩
    by_cases a2 : y = par
    · subst a2
      rw [e_par] at hy
      cases hy
      exact ⟨pn, hp, rfl, rfl, rfl, id, Or.inl ⟨rfl, rfl, rfl⟩⟩
    · by_cases a3 : y = op
      · subst a3
        rw [e_op] at hy
        cases hy
        exact ⟨o, ho, by simp, by simp, by simp, fun _ => by simp,
          Or.inr (Or.inl ⟨rfl, by simp, by simp⟩)⟩
      · by_cases a4 : y ∈ rest
        · obtain ⟨nd, hn, _⟩ := hrest y a4
          rw [e_rest y nd a4 hn] at hy
          cases hy
          exact ⟨nd, hn, by simp, by simp, by simp, fun _ => by simp,
            Or.inr (Or.inr (Or.inl ⟨a4, by simp, by simp⟩))⟩
        · rw [e_other y a1 a2 a3 a4] at hy
          exact ⟨md1, hy, rfl, rfl, rfl, id, Or.inr (Or.inr (Or.inr ⟨a2, a3, a4, rfl⟩))⟩
  have old : ∀ y md, s.nodes y = some md → y ≠ cur → ∃ md1, s1.nodes y = some md1 ∧
      (md.isSetup = true → md1.isSetup = true) ∧ md1.kind = md.kind ∧
      md1.isIrrelevant = md.isIrrelevant ∧ (y ≠ op → y ∉ rest → md1.parent = md.parent) := by
    intro y md hy a1
    by_cases a2 : y = par
    · subst a2
      rw [hp] at hy
      cases hy
      exact ⟨_, e_par, id, rfl, rfl, fun _ _ => rfl⟩
    · by_cases a3 : y = op
      · subst a3
        rw [ho] at hy
        cases hy
        exact ⟨_, e_op, fun _ => by simp, by simp, by simp, fun e => absurd rfl e⟩
      · by_cases a4 : y ∈ rest
        · exact ⟨_, e_rest y md a4 hy, fun _ => by simp, by simp, by simp,
            fun _ e => absurd a4 e⟩
        · exact ⟨md, by rw [e_other y a1 a2 a3 a4]; exact hy, id, rfl, rfl, fun _ _ => rfl⟩
  have hd_cur : d par < d cur := hd cur c par hc hpar
  have hd_op : d cur < d op := hd op o cur ho hopar
  have hd_rest : ∀ i ∈ rest, d cur < d i := by
    intro i hi
    obtain ⟨nd, e1, e2⟩ := hrest i hi
    exact hd i nd cur e1 e2
  have path : ∀ x, OnPath s x cur → x = cur ∨ OnPath s1 x par := by
    intro x hx
    rcases hx.path_step with rfl | ⟨nd, p, h1, h2, h3⟩
    · exact Or.inl rfl
    · rw [hc] at h1
      cases h1
      rw [hpar] at h2
      cases h2
      right
      exact OnPath.transfer d hd _ h3 (by
        intro w nw q hle hw hq
        have a1 : w ≠ cur := by rintro rfl; omega
        have a3 : w ≠ op := by rintro rfl; omega
        have a4 : w ∉ rest := fun hm => by have := hd_rest w hm; omega
        obtain ⟨nw1, e1, _, _, _, e2⟩ := old w nw hw a1
        exact ⟨nw1, e1, by rw [e2 a3 a4]; exact hq⟩)
  obtain ⟨ht, hht⟩ := hs.height
  have hcur_mem : cur ∈ pn.children := by rw [hsplit]; simp
  refine ⟨?_, ?_, ⟨fun y => if y = op then ht cur else ht y, ?_⟩, ?_, ?_, ?_⟩
  · intro y md1 hy hyr
    obtain ⟨_, md, e1, e2, _⟩ := new y md1 hy
    rw [e2]
    exact hs.rooted y md e1 hyr
  · intro y md1 hy
    obtain ⟨_, md, e1, _, e2, _⟩ := new y md1 hy
    rw [e2]
    exact hs.fresh y md e1
  · intro p pn1 k hpl hk
    obtain ⟨_, md, e1, _, _, _, _, e2⟩ := new p pn1 hpl
    rcases e2 with ⟨rfl, _, e3⟩ | ⟨rfl, _, e3⟩ | ⟨hpr, _, e3⟩ | ⟨a2, a3, a4, rfl⟩
    · rw [hp] at e1
      cases e1
      rw [e3] at hk
      simp only [n3, if_false]
      have hcm := hht p pn cur hp hcur_mem
      by_cases hko : k = op
      · subst hko
        simp only [if_true]
        exact hcm
      · simp only [hko, if_false]
        have hkm : k ∈ pn.children := by
          rw [hsplit]
          rcases List.mem_append.mp hk with hk | hk
          · exact List.mem_append_left _ hk
          · rcases List.mem_cons.mp hk with hk | hk
            · exact absurd hk hko
            · exact List.mem_append_right _ (List.mem_cons_of_mem _ hk)
        exact hht p pn k hp hkm
    · rw [e3] at hk
      have hko : k ≠ p := fun e => n5 (e ▸ hk)
      simp only [hko, if_false, if_true]
      exact hht cur c k hc (by rw [hch]; exact List.mem_cons_of_mem _ hk)
    · rw [e3] at hk
      have hpo : p ≠ op := fun e => n5 (e ▸ hpr)
      have hko : k ≠ op := by
        rintro rfl
        obtain ⟨kn, k1, k2⟩ := h.down p md k e1 hk
        rw [ho] at k1
        cases k1
        rw [hopar] at k2
        cases k2
        exact n4 hpr
      simp only [hpo, hko, if_false]
      exact hht p md k e1 hk
    · have hko : k ≠ op := by
        rintro rfl
        obtain ⟨kn, k1, k2⟩ := h.down p pn1 k e1 hk
        rw [ho] at k1
        cases k1
        rw [hopar] at k2
        cases k2
        rw [hel cur] at hpl
        simp at hpl
      simp only [a3, hko, if_false]
      exact hht p pn1 k e1 hk
  · intro y md1 p hy hpp hnot
    obtain ⟨a1, md, e1, _, _, _, e5, e6⟩ := new y md1 hy
    rcases e6 with ⟨rfl, e7, _⟩ | ⟨_, e7, _⟩ | ⟨_, e7, _⟩ | ⟨a2, a3, a4, rfl⟩
    · exact absurd (OnPath.up y p md1 hy hpp OnPath.here) hnot
    · exact e7
    · exact e7
    · have hpc : p ≠ cur := by
        rintro rfl
        rcases kid_of_cur y md1 e1 hpp with e | e
        · exact a3 e
        · exact a4 e
      exact hs.inner y md1 p e1 hpp (fun hp1 => by
        rcases path p hp1 with e | e
        · exact hpc e
        · exact hnot e)
  · intro y md1 hy hb hnot
    obtain ⟨a1, md, e1, _, _, e4, e5, e6⟩ := new y md1 hy
    rcases e6 with ⟨rfl, _, _⟩ | ⟨_, e7, _⟩ | ⟨_, e7, _⟩ | ⟨a2, a3, a4, rfl⟩
    · exact absurd OnPath.here hnot
    · exact e7
    · exact e7
    · exact hs.closed y md1 e1 hb (fun hp1 => by
        rcases path y hp1 with e | e
        · exact a1 e
        · exact hnot e)
  · intro y hy
    rcases List.mem_cons.mp hy with rfl | hy
    · refine ⟨_, e_op, by simp, ?_⟩
      rintro ⟨b1, b2⟩
      have b1' : o.kind.isBrace = true := by simpa using b1
      have b2' : o.isIrrelevant = true := by simpa using b2
      have := OnPath.depth_le d hd (h.parens y o ho b1' b2')
      omega
    · obtain ⟨md, e1, e2, e3⟩ := hs.lifted y hy
      have a1 : y ≠ cur := by
        rintro rfl
        rw [hc] at e1
        cases e1
        exact e3 ⟨hcb, hirr⟩
      obtain ⟨md1, k1, k2, k3, k4, _⟩ := old y md e1 a1
      exact ⟨md1, k1, k2 e2, by rw [k3, k4]; exact e3⟩

/-- One insertion keeps what is settled. -/
theorem Settled.keep_step {ext : Ext} {s s1 : State} {r cur n fuel cur1 : Nat}
    {name value : String} {kind : Kind} {isOpen isIrrelevant : Bool} {promoted : List Nat}
    (h : WF s r cur) (hs : Settled s r cur promoted) (hn : s.nodes n = none)
    (hok : insertNode fuel ext (s.set n (newNode (some r) name value kind isOpen isIrrelevant))
      (some cur) (some n) = .ok cur1 s1) :
    Settled s1 r cur1
      (promotedBy s cur (newNode (some r) name value kind isOpen isIrrelevant) ++ promoted) := by
  rcases insertNode_step h hn rfl hok with ⟨hk, e1, sc, hat⟩ |
    ⟨hb, ho, _, c, hc, hpar, hcb, _, ⟨hirr, hcl⟩ | ⟨hirr, op, rest, hch, _, hel⟩⟩
  · have hp : promotedBy s cur (newNode (some r) name value kind isOpen isIrrelevant) = [] := by
      unfold promotedBy
      rcases hk with hk | hk <;> simp [hk]
    rw [hp]
    refine hs.keep_attach h hn hat rfl rfl rfl rfl ?_
    by_cases hbr : (newNode (some r) name value kind isOpen isIrrelevant).kind.isBrace = true
    · left
      rw [e1]
      simp [hbr]
    · right
      have hbf : (newNode (some r) name value kind isOpen isIrrelevant).kind.isBrace = false := by
        simpa using hbr
      rw [e1]
      exact ⟨by simp [hbf], hbf⟩
  · have hp : promotedBy s cur (newNode (some r) name value kind isOpen isIrrelevant) = [] := by
      unfold promotedBy
      simp [hb, ho, hc, hirr]
    rw [hp]
    exact hs.keep_close h hc hpar hcl
  · have hp : promotedBy s cur (newNode (some r) name value kind isOpen isIrrelevant) = [op] := by
      unfold promotedBy
      simp [hb, ho, hc, hirr, hch]
    rw [hp]
    exact hs.keep_elide h hc hcb hirr hpar hch hel

/-- Every state of the builder is settled. -/
theorem BuiltOn.settled {ext : Ext} {r : Nat} {rootName : String} {hist : List (Nat × Node)}
    {promoted : List Nat} {s : State} {cur : Nat}
    (h : BuiltOn ext r rootName hist promoted s cur) : Settled s r cur promoted := by
  induction h with
  | start => exact loneRoot_settled r rootName
  | insert hist promoted s cur fuel n name value kind isOpen isIrrelevant s1 cur1 hb hn hok ih =>
    exact ih.keep_step hb.built.wf hn hok

theorem WF.onPath_root {s : State} {r cur p : Nat} (h : WF s r cur) (hp : OnPath s p r) :
    p = r := by
  rcases hp.path_step with e | ⟨nd, q, h1, h2, _⟩
  · exact e
  · obtain ⟨rn, e1, e2, _⟩ := h.root
    rw [e1] at h1
    cases h1
    rw [e2] at h2
    cases h2

theorem WF.isTree {s : State} {r cur : Nat} {promoted : List Nat} (h : WF s r cur)
    (hs : Settled s r cur promoted) : IsTree s :=
  ⟨h.up, h.down, h.nodup, h.depth, hs.height⟩

/-- In a settled tree whose focus is back at the root, a fully marked child of
the root heads a subtree of nodes ready for evaluation. -/
theorem Settled.evaluable {s : State} {r x : Nat} {nd : Node} {promoted : List Nat}
    (h : WF s r r) (hs : Settled s r r promoted) (hx : s.nodes x = some nd)
    (hp : nd.parent = some r) (hi : nd.isInit = true) (hset : nd.isSetup = true)
    (han : nd.isAnalyzed = true) :
    ∀ y md, Desc s x y → s.nodes y = some md → Evaluable md := by
  obtain ⟨d, hd⟩ := h.depth
  have hdx : d r < d x := hd x nd r hx hp
  intro y md hy hmd
  rcases hy.last_step with rfl | ⟨p, pn, hxp, hpn, hyp⟩
  · rw [hx] at hmd
    cases hmd
    exact ⟨hi, hset, han, hs.fresh _ _ hx⟩
  · obtain ⟨yn, e1, e2⟩ := h.down p pn y hpn hyp
    rw [hmd] at e1
    cases e1
    have hdp := h.desc_depth d hd hxp
    have hdy := hd y md p hmd e2
    have hpr : p ≠ r := by rintro rfl; omega
    have hyr : y ≠ r := by rintro rfl; omega
    have hsetup := hs.inner y md p hmd e2 (fun hp1 => hpr (h.onPath_root hp1))
    exact ⟨h.inited y md hmd hyr, hsetup, h.analyzed y md hmd hsetup, hs.fresh y md hmd⟩

/-- On a ready subtree `evaluateNode` returns normally when the evaluate hooks
do and the recursion budget exceeds the height. -/
theorem evaluateNode_returns (ext : Ext) (ht : Nat → Nat) (fuel : Nat) (s : State) (x : Nat)
    (htree : LocalTree s ht x) (hfuel : ht x < fuel)
    (hready : ∀ y nd, Desc s x y → s.nodes y = some nd → Evaluable nd)
    (hooks : ∀ st y, ext.evaluate st y = none) :
    ∃ s1, evaluateNode fuel ext s x = .ok () s1 := by
  obtain ⟨_, k2, k3, k4⟩ := evaluateNode_spec ext ht fuel s x htree hready
  cases ho : evaluateNode fuel ext s x with
  | ok u s1 => exact ⟨s1, rfl⟩
  | thrown e st =>
    obtain ⟨msg, st1, y, _, he⟩ := k2 e st ho
    rw [hooks st1 y] at he
    cases he
  | undefined => exact absurd ho k3
  | outOfFuel =>
    have := k4 ho
    omega

/-- C18. Closed subtrees are fully set up. Starting from a lone root, with
every node constructed for that root, after any sequence of normally returning
`insertNode` calls that brings the focus back to the root: every node other
than the root is initialized; every node whose parent is not the root, and
every child of the root that is a Brace or was promoted by paren elision, is
set up and analyzed; consequently `evaluateNode` on a child of the root throws
only what an evaluate hook throws, never its own lifecycle error, and returns
normally when the evaluate hooks do and the recursion budget exceeds the height
of the subtree. -/
theorem built_tree_evaluable (ext : Ext) (r : Nat) (rootName : String)
    (hist : List (Nat × Node)) (promoted : List Nat) (s : State)
    (h : BuiltOn ext r rootName hist promoted s r) :
    (∀ x nd, s.nodes x = some nd → x ≠ r → nd.isInit = true) ∧
    (∀ x nd p, s.nodes x = some nd → nd.parent = some p → p ≠ r →
      nd.isSetup = true ∧ nd.isAnalyzed = true) ∧
    (∀ x nd, s.nodes x = some nd → nd.parent = some r →
      (nd.kind.isBrace = true ∨ x ∈ promoted) → nd.isSetup = true ∧ nd.isAnalyzed = true) ∧
    (∀ x nd, s.nodes x = some nd → nd.parent = some r →
      (∀ fuel e st, evaluateNode fuel ext s x = .thrown e st →
        ∃ msg st1 y, e = .evalError msg ∧ ext.evaluate st1 y = some msg) ∧
      ((∀ st y, ext.evaluate st y = none) →
        ∃ N, ∀ fuel, N < fuel → ∃ s1, evaluateNode fuel ext s x = .ok () s1)) := by
  have wf := h.built.wf
  have st := h.settled
  obtain ⟨d, hd⟩ := wf.depth
  refine ⟨wf.inited, ?_, ?_, ?_⟩
  · intro x nd p hx hp hpr
    have hset := st.inner x nd p hx hp (fun hp1 => hpr (wf.onPath_root hp1))
    exact ⟨hset, wf.analyzed x nd hx hset⟩
  · intro x nd hx hp hk
    have hxr : x ≠ r := by
      rintro rfl
      have := hd x nd x hx hp
      omega
    rcases hk with hk | hk
    · have hset := st.closed x nd hx hk (fun hp1 => hxr (wf.onPath_root hp1))
      exact ⟨hset, wf.analyzed x nd hx hset⟩
    · obtain ⟨nd1, e1, e2, _⟩ := st.lifted x hk
      rw [hx] at e1
      cases e1
      exact ⟨e2, wf.analyzed x nd hx e2⟩
  · intro x nd hx hp
    have hxr : x ≠ r := by
      rintro rfl
      have := hd x nd x hx hp
      omega
    have hroot := st.rooted x nd hx hxr
    have hfresh := st.fresh x nd hx
    by_cases hm : nd.isInit = true ∧ nd.isSetup = true ∧ nd.isAnalyzed = true
    · obtain ⟨hi, hset, han⟩ := hm
      obtain ⟨ht, hht⟩ := st.height
      have hlt : LocalTree s ht x := (wf.isTree st).localTree ht hht x nd hx
      have hready := st.evaluable wf hx hp hi hset han
      refine ⟨fun fuel e st1 he => (evaluateNode_spec ext ht fuel s x hlt hready).2.1 e st1 he,
        fun hooks => ⟨ht x, fun fuel hfuel => ?_⟩⟩
      exact evaluateNode_returns ext ht fuel s x hlt hfuel hready hooks
    · have hskip : ∀ fuel, evaluateNode (fuel + 1) ext s x = .ok () s := by
        intro fuel
        have hc : (!nd.isInit || !nd.isSetup || !nd.isAnalyzed) = true := by
          cases h1 : nd.isInit <;> cases h2 : nd.isSetup <;> cases h3 : nd.isAnalyzed <;>
            simp [h1, h2, h3] at hm ⊢
        simp [evaluateNode, hx, hfresh, hc, hroot, hp]
      refine ⟨?_, fun _ => ⟨0, fun fuel hfuel => ?_⟩⟩
      · intro fuel e st1 he
        cases fuel with
        | zero => simp [evaluateNode] at he
        | succ k => rw [hskip k] at he; cases he
      · obtain ⟨k, rfl⟩ : ∃ k, fuel = k + 1 := ⟨fuel - 1, by omega⟩
        exact ⟨s, hskip k⟩

/-- The sample insertions, every node constructed for the root 0: after
`\x7b`. -/
theorem sample_builtOn_1 : BuiltOn stdExt 0 "root" (sampleHist 1) [] (sampleState 1) 1 :=
  BuiltOn.insert (sampleHist 0) [] (sampleState 0) 0 1 1 "\x7b" "" .Block true false
    (sampleState 1) 1 BuiltOn.start rfl rfl

/-- After `\x7b (`. -/
theorem sample_builtOn_2 : BuiltOn stdExt 0 "root" (sampleHist 2) [] (sampleState 2) 2 :=
  BuiltOn.insert (sampleHist 1) [] (sampleState 1) 1 1 2 "(" "" .Brace true true
    (sampleState 2) 2 sample_builtOn_1 rfl rfl

/-- After `\x7b ( PLUS`. -/
theorem sample_builtOn_3 : BuiltOn stdExt 0 "root" (sampleHist 3) [] (sampleState 3) 2 :=
  BuiltOn.insert (sampleHist 2) [] (sampleState 2) 2 1 3 "PLUS" "" .Operator false false
    (sampleState 3) 2 sample_builtOn_2 rfl rfl

/-- After `\x7b ( PLUS a`. -/
theorem sample_builtOn_4 : BuiltOn stdExt 0 "root" (sampleHist 4) [] (sampleState 4) 2 :=
  BuiltOn.insert (sampleHist 3) [] (sampleState 3) 2 1 4 "ID" "a" .Variable false false
    (sampleState 4) 2 sample_builtOn_3 rfl rfl

/-- After `\x7b ( PLUS a b`. -/
theorem sample_builtOn_5 : BuiltOn stdExt 0 "root" (sampleHist 5) [] (sampleState 5) 2 :=
  BuiltOn.insert (sampleHist 4) [] (sampleState 4) 2 1 5 "ID" "b" .Variable false false
    (sampleState 5) 2 sample_builtOn_4 rfl rfl

/-- After `\x7b ( PLUS a b )`: `PLUS` has been promoted. -/
theorem sample_builtOn_6 : BuiltOn stdExt 0 "root" (sampleHist 6) [3] (sampleState 6) 1 :=
  BuiltOn.insert (sampleHist 5) [] (sampleState 5) 2 1 6 ")" "" .Brace false false
    (sampleState 6) 1 sample_builtOn_5 rfl rfl

/-- After `\x7b ( PLUS a b ) \x7d`. -/
theorem sample_builtOn_7 : BuiltOn stdExt 0 "root" (sampleHist 7) [3] (sampleState 7) 0 :=
  BuiltOn.insert (sampleHist 6) [3] (sampleState 6) 1 1 7 "\x7d" "" .Brace false false
    (sampleState 7) 0 sample_builtOn_6 rfl rfl

/-- C18 on the sample stream `\x7b ( PLUS a b ) \x7d`, focus back at the root. -/
theorem built_tree_evaluable_witness :
    (∀ x nd, (sampleState 7).nodes x = some nd → x ≠ 0 → nd.isInit = true) ∧
    (∀ x nd p, (sampleState 7).nodes x = some nd → nd.parent = some p → p ≠ 0 →
      nd.isSetup = true ∧ nd.isAnalyzed = true) ∧
    (∀ x nd, (sampleState 7).nodes x = some nd → nd.parent = some 0 →
      (nd.kind.isBrace = true ∨ x ∈ [3]) → nd.isSetup = true ∧ nd.isAnalyzed = true) ∧
    (∀ x nd, (sampleState 7).nodes x = some nd → nd.parent = some 0 →
      (∀ fuel e st, evaluateNode fuel stdExt (sampleState 7) x = .thrown e st →
        ∃ msg st1 y, e = .evalError msg ∧ stdExt.evaluate st1 y = some msg) ∧
      ((∀ st y, stdExt.evaluate st y = none) →
        ∃ N, ∀ fuel, N < fuel → ∃ s1, evaluateNode fuel stdExt (sampleState 7) x = .ok () s1)) :=
  built_tree_evaluable stdExt 0 "root" (sampleHist 7) [3] (sampleState 7) sample_builtOn_7

end Shok
